import Mathlib

set_option maxHeartbeats 1000000
set_option maxRecDepth 100000

/-!
Verification of the Sudoku solver in sudoku.py.

The value-level model below embeds the classes Slot, SlotGroup, SlotCandidates,
SudokuBoard and the functions gen_board and solver.  A Slot is its raw bitmask
(a natural number, bit i set means digit i+1).  A SudokuBoard is the 9 by 9 grid
of raw masks together with the empty_slots coordinate list.  The row, column and
block groups of SudokuBoard.__init__ reference the cells of the grid, so at the
value level they are functions of the grid, built with the same slices as the
source.  A separate heap model near the end embeds the object identities needed
by the clone and sync_to aliasing claims.
-/

/-- Solver outcomes, from enum SolverResults. -/
inductive SolverResults where
  | NO_UPDATE
  | UPDATE
  | CONFLICT
  | ALL_DONE
deriving DecidableEq, Repr

/-- FULL_MASK = 0x1FF, the mask with bits 0 to 8 set. -/
def FULL_MASK : Nat := 0x1FF

/-- Value-level model of class SudokuBoard: the 9 by 9 grid of slot raw masks and
the empty_slots coordinate list. -/
structure Board where
  board : List (List Nat)
  empty_slots : List (Nat × Nat)
deriving DecidableEq, Repr

/-- Reading self.board[r][c].raw. -/
def cell (b : Board) (r c : Nat) : Nat := (b.board.getD r []).getD c 0

/-- Writing self.board[r][c].raw = v. -/
def setCell (b : Board) (r c v : Nat) : Board :=
  { b with board := b.board.set r ((b.board.getD r []).set c v) }

/-- Slot.set: a number n becomes the raw mask 1 <<< (n-1), and 0 stays 0. -/
def slotOfNum (num : Nat) : Nat := if num = 0 then 0 else 1 <<< (num - 1)

/-- popcountFuel f n computes the number of set bits of n by repeated halving,
consuming one unit of fuel per bit. -/
def popcountFuel : Nat → Nat → Nat
  | 0, _ => 0
  | _+1, 0 => 0
  | f+1, n+1 => (n+1) % 2 + popcountFuel f ((n+1) / 2)

/-- int.bit_count of the Python source: the number of set bits of n.  Fuel n is
always enough because n has at most n binary digits. -/
def popcount (n : Nat) : Nat := popcountFuel n n

/-- Bitwise or of a list of masks, as SlotGroup.combine folds the nine raws. -/
def orAll (l : List Nat) : Nat := l.foldr (fun a b => a ||| b) 0

/-- Coordinates of row group r, the slots board[r][0..8] of SudokuBoard.__init__. -/
def rowCoords (r : Nat) : List (Nat × Nat) := (List.range 9).map (fun c => (r, c))

/-- Coordinates of column group c of SudokuBoard.__init__. -/
def colCoords (c : Nat) : List (Nat × Nat) := (List.range 9).map (fun r => (r, c))

/-- Coordinates of block group k of SudokuBoard.__init__: the outer loop walks the
row bands 0, 3, 6 and the inner loop the column bands, and each block is the
concatenation of three row slices of width three. -/
def blockCoords (k : Nat) : List (Nat × Nat) :=
  (List.range 3).flatMap (fun dr =>
    (List.range 3).map (fun dc => (3 * (k / 3) + dr, 3 * (k % 3) + dc)))

/-- The raw masks of the slots of a group. -/
def grpMasks (b : Board) (g : List (Nat × Nat)) : List Nat :=
  g.map (fun p => cell b p.1 p.2)

/-- SlotGroup.combine for the group with the given coordinates. -/
def combineOf (b : Board) (g : List (Nat × Nat)) : Nat := orAll (grpMasks b g)

/-- SlotGroup.is_legal: the popcount of the combined mask equals the number of
filled slots of the group. -/
def group_is_legal (b : Board) (g : List (Nat × Nat)) : Bool :=
  popcount (combineOf b g) == (grpMasks b g).countP (fun m => m != 0)

/-- The 27 groups of SudokuBoard.__init__, rows then columns then blocks. -/
def allGroups : List (List (Nat × Nat)) :=
  (List.range 9).map rowCoords ++ (List.range 9).map colCoords
    ++ (List.range 9).map blockCoords

/-- SudokuBoard.is_legal: every row, column and block group is legal. -/
def is_legal (b : Board) : Bool := allGroups.all (fun g => group_is_legal b g)

/-- SudokuBoard.is_done: every row combine equals FULL_MASK. -/
def is_done (b : Board) : Bool :=
  (List.range 9).all (fun r => combineOf b (rowCoords r) == FULL_MASK)

/-- SlotCandidates.__init__ raw value for the three groups covering (row, column),
then SudokuBoard.slot_candidates picks row[row], column[column] and
block[(row // 3) * 3 + column // 3]. -/
def slot_candidates (b : Board) (row column : Nat) : Nat :=
  FULL_MASK - (combineOf b (rowCoords row) ||| combineOf b (colCoords column)
    ||| combineOf b (blockCoords ((row / 3) * 3 + column / 3)))

/-- len of a SlotCandidates: the popcount of its raw mask. -/
def candCount (b : Board) (p : Nat × Nat) : Nat := popcount (slot_candidates b p.1 p.2)

/-- Iterating a SlotCandidates: __next__ scans bit indices 0 to 8 in ascending
order and yields the single-bit masks present in raw. -/
def candList (raw : Nat) : List Nat :=
  (List.range 9).filterMap (fun i => if raw.testBit i then some (1 <<< i) else none)

/-- Stable insertion into a list sorted by descending key: the new element goes
after every element of key at least its own, as list.sort with reverse=True
keeps equal keys in original order. -/
def insertDesc (key : Nat × Nat → Nat) (x : Nat × Nat) :
    List (Nat × Nat) → List (Nat × Nat)
  | [] => [x]
  | a :: rest =>
    if key x ≤ key a then a :: insertDesc key x rest else x :: a :: rest

/-- Stable sort by descending key, the effect of
self.empty_slots.sort(key=..., reverse=True). -/
def sortDesc (key : Nat × Nat → Nat) (l : List (Nat × Nat)) : List (Nat × Nat) :=
  l.foldl (fun acc x => insertDesc key x acc) []

/-- list.pop(-1): the last element together with the remaining list. -/
def popLast : List (Nat × Nat) → Option ((Nat × Nat) × List (Nat × Nat))
  | [] => none
  | [x] => some (x, [])
  | x :: y :: rest =>
    match popLast (y :: rest) with
    | some (z, rest2) => some (z, x :: rest2)
    | none => none

/-- The loop body of SudokuBoard.simple_fill: k is the remaining iteration count
of for _ in range(len(self.empty_slots)), res is the accumulated is_updated.
Each pass pops the last coordinate; more than one candidate pushes it back and
stops, exactly one fills the slot, zero returns CONFLICT at once. -/
def simple_fill_aux : Nat → Board → SolverResults → SolverResults × Board
  | 0, b, res => (res, b)
  | k+1, b, res =>
    match popLast b.empty_slots with
    | none => (res, b)
    | some ((r, c), rest) =>
      let b1 : Board := { b with empty_slots := rest }
      let cand := slot_candidates b1 r c
      if 1 < popcount cand then
        (res, { b1 with empty_slots := rest ++ [(r, c)] })
      else if popcount cand = 1 then
        simple_fill_aux k (setCell b1 r c cand) SolverResults.UPDATE
      else
        (SolverResults.CONFLICT, b1)

/-- SudokuBoard.simple_fill: sort empty_slots by descending candidate count with
the keys of the current board, then run the pop loop with is_updated = NO_UPDATE. -/
def simple_fill (b : Board) : SolverResults × Board :=
  let sorted := sortDesc (candCount b) b.empty_slots
  simple_fill_aux sorted.length { b with empty_slots := sorted } SolverResults.NO_UPDATE

/-- The while loop of solver that calls simple_fill until the result is no longer
UPDATE.  The fuel only bounds the iteration count; fill_loop_stable below shows
that any fuel above the empty_slots length gives the fixpoint of the while loop,
because every UPDATE round strictly shrinks empty_slots. -/
def fill_loop : Nat → Board → SolverResults × Board
  | 0, b => (SolverResults.UPDATE, b)
  | f+1, b =>
    match simple_fill b with
    | (SolverResults.UPDATE, b2) => fill_loop f b2
    | other => other

/-- SudokuBoard.clone at the value level: the fresh board receives every raw mask
and every empty slot coordinate one by one, so its value equals the source value.
Object-identity aspects of clone live in the heap model below. -/
def clone (b : Board) : Board :=
  { board := b.board.map (fun row => row.map (fun m => m)),
    empty_slots := b.empty_slots.map (fun p => p) }

/-- SudokuBoard.sync_to at the value level: afterwards this board shows exactly
the state of ref.  The reference sharing it performs lives in the heap model. -/
def sync_to (_self ref : Board) : Board :=
  { board := ref.board, empty_slots := ref.empty_slots }

/-- The for loop of solver over candidates_pool: each candidate is tried on a
clone, the first child that answers ALL_DONE is synced back and returned, and
when no child succeeds the result of the last child (or the fill result when the
pool is empty) is returned. -/
def try_cands (solveChild : Board → Option (SolverResults × Board))
    (b2 : Board) (r c : Nat) :
    List Nat → SolverResults → Option (SolverResults × Board)
  | [], last => some (last, b2)
  | cand :: rest, last =>
    match solveChild (setCell (clone b2) r c cand) with
    | none => none
    | some (res, g2) =>
      if res = SolverResults.ALL_DONE then
        some (SolverResults.ALL_DONE, sync_to b2 g2)
      else
        try_cands solveChild b2 r c rest res

/-- solver with explicit recursion fuel.  A none result models the IndexError of
empty_slots.pop(-1) on an empty list; fuel 0 also gives none, and
solver_fuel_stable shows fuel above the empty_slots length never runs out, which
is the termination bound of the recursion. -/
def solver_fuel : Nat → Board → Option (SolverResults × Board)
  | 0, _ => none
  | f+1, b =>
    match fill_loop (b.empty_slots.length + 1) b with
    | (SolverResults.CONFLICT, b1) => some (SolverResults.CONFLICT, b1)
    | (fr, b1) =>
      if is_done b1 then
        some (SolverResults.ALL_DONE, b1)
      else
        match popLast b1.empty_slots with
        | none => none
        | some ((r, c), rest) =>
          let b2 : Board := { b1 with empty_slots := rest }
          try_cands (solver_fuel f) b2 r c
            (candList (slot_candidates b2 r c)) fr

/-- solver(sudoku): run solver_fuel with enough fuel for the recursion, one level
per empty slot plus one. -/
def solver (b : Board) : Option (SolverResults × Board) :=
  solver_fuel (b.empty_slots.length + 1) b

/-- A fresh SudokuBoard(): 81 empty slots in a 9 by 9 grid and an empty
empty_slots list. -/
def freshBoard : Board :=
  { board := List.replicate 9 (List.replicate 9 0), empty_slots := [] }

/-- One row of SudokuBoard.set_board_num: zip truncates to the shorter list and
slots beyond the input keep their old raw value. -/
def setRow (rowslot row : List Nat) : List Nat :=
  rowslot.zipWith (fun _ num => slotOfNum num) row ++ rowslot.drop row.length

/-- The empty coordinates collected by set_board_num along one row, from column c. -/
def collectRow (r c : Nat) : List Nat → List Nat → List (Nat × Nat)
  | _, [] => []
  | [], _ => []
  | _ :: ss, num :: ns =>
    (if num = 0 then [(r, c)] else []) ++ collectRow r (c + 1) ss ns

/-- The empty coordinates collected by set_board_num over the zipped rows, from
row r. -/
def collectEmpties (r : Nat) : List (List Nat) → List (List Nat) → List (Nat × Nat)
  | _, [] => []
  | [], _ => []
  | rowslot :: brs, row :: irs =>
    collectRow r 0 rowslot row ++ collectEmpties (r + 1) brs irs

/-- SudokuBoard.set_board_num: empty_slots is rebuilt from scratch and every
zipped slot receives the mask of its number. -/
def set_board_num (b : Board) (input : List (List Nat)) : Board :=
  { board := List.zipWith setRow b.board input ++ b.board.drop input.length,
    empty_slots := collectEmpties 0 b.board input }

/-- The two replace calls of gen_board: remove every space and newline. -/
def strip (s : List Char) : List Char :=
  s.filter (fun ch => ch ≠ ' ' && ch ≠ '\n')

/-- The first codepoints of the Unicode decimal-digit (category Nd) ranges,
from the Unicode character database: every Nd range is ten consecutive
codepoints carrying the values 0 to 9 in order, beginning with ASCII 0x30. -/
def ndStarts : List Nat :=
  [48, 1632, 1776, 1984, 2406, 2534, 2662, 2790, 2918, 3046, 3174, 3302,
   3430, 3558, 3664, 3792, 3872, 4160, 4240, 6112, 6160, 6470, 6608, 6784,
   6800, 6992, 7088, 7232, 7248, 42528, 43216, 43264, 43472, 43504, 43600,
   44016, 65296, 66720, 68912, 69734, 69872, 69942, 70096, 70384, 70736,
   70864, 71248, 71360, 71472, 71904, 72016, 72784, 73040, 73120, 92768,
   92864, 93008, 120782, 120792, 120802, 120812, 120822, 123200, 123632,
   125264, 130032]

/-- int(char) of gen_board: a single character parses exactly when it is a
Unicode decimal digit (category Nd), and its value is its offset from the
start of its Nd range. -/
def charDigit (ch : Char) : Option Nat :=
  (ndStarts.find? (fun s => s ≤ ch.toNat && ch.toNat < s + 10)).map
    (fun s => ch.toNat - s)

/-- The digit-parsing loop of gen_board: the first non-digit character aborts. -/
def digitsOf : List Char → Option (List Nat)
  | [] => some []
  | ch :: rest =>
    match charDigit ch with
    | none => none
    | some d =>
      match digitsOf rest with
      | none => none
      | some ds => some (d :: ds)

/-- gen_board: strip spaces and newlines, demand exactly 81 characters, parse
every character as a digit, build the board row by row, and reject an illegal
configuration. -/
def gen_board (user_input : List Char) : Except String Board :=
  let s := strip user_input
  if s.length ≠ 81 then
    .error "Incomplete Sudoku map."
  else
    match digitsOf s with
    | none => .error "Invalid character found."
    | some nums =>
      let sudoku_map :=
        set_board_num freshBoard ((List.range 9).map (fun i => (nums.drop (i * 9)).take 9))
      if is_legal sudoku_map then .ok sudoku_map
      else .error "Illegal Sudoku configuration."

/-- The coordinates of the zero digits of a length-81 digit list, row-major. -/
def zerosCoords (nums : List Nat) : List (Nat × Nat) :=
  (List.range 9).flatMap (fun r =>
    (List.range 9).filterMap (fun c =>
      if nums.getD (r * 9 + c) 1 = 0 then some (r, c) else none))

/-!  Invariants and specification predicates. -/

/-- A raw mask as kept by class Slot: empty or a single bit among bits 0 to 8. -/
def validMask (m : Nat) : Prop := m = 0 ∨ ∃ i, i < 9 ∧ m = 1 <<< i

instance : DecidablePred validMask := fun m => by
  unfold validMask
  infer_instance

/-- The grid is 9 rows of 9 slots. -/
def Shaped (b : Board) : Prop :=
  b.board.length = 9 ∧ ∀ row ∈ b.board, row.length = 9

instance : DecidablePred Shaped := fun b => by
  unfold Shaped
  infer_instance

/-- Every slot of the 9 by 9 grid holds a valid raw mask. -/
def CellsValid (b : Board) : Prop :=
  ∀ r, r < 9 → ∀ c, c < 9 → validMask (cell b r c)

instance : DecidablePred CellsValid := fun b => by
  unfold CellsValid
  infer_instance

/-- empty_slots lists exactly the coordinates of the empty cells, without
repetition. -/
def SlotsExact (b : Board) : Prop :=
  b.empty_slots.Nodup ∧
  (∀ p ∈ b.empty_slots, p.1 < 9 ∧ p.2 < 9 ∧ cell b p.1 p.2 = 0) ∧
  (∀ r, r < 9 → ∀ c, c < 9 → cell b r c = 0 → (r, c) ∈ b.empty_slots)

instance : DecidablePred SlotsExact := fun b => by
  unfold SlotsExact
  infer_instance

/-- The full board invariant: shape, valid masks, and exact empty_slots. -/
def BInv (b : Board) : Prop := Shaped b ∧ CellsValid b ∧ SlotsExact b

instance : DecidablePred BInv := fun b => by
  unfold BInv
  infer_instance

/-- Every filled cell of b keeps its value in b2. -/
def Extends (b b2 : Board) : Prop :=
  ∀ r, r < 9 → ∀ c, c < 9 → cell b r c ≠ 0 → cell b2 r c = cell b r c

/-- Every cell of the 9 by 9 grid is filled. -/
def Full (b : Board) : Prop := ∀ r, r < 9 → ∀ c, c < 9 → cell b r c ≠ 0

instance : DecidablePred Full := fun b => by
  unfold Full
  infer_instance

/-- S is a valid completion of b: a fully filled legal board of valid single-bit
masks that agrees with every filled cell of b. -/
def Completes (S b : Board) : Prop :=
  Shaped S ∧ CellsValid S ∧ Full S ∧ is_legal S = true ∧ Extends b S

/-- Popcount of the nine low bits, the specification view of popcount for masks
below 512. -/
def specPop (m : Nat) : Nat := (List.range 9).countP (fun i => m.testBit i)

/-- One assignment step of the solving process: an empty cell receives one of its
candidate digits (the unique candidate during simple_fill, any candidate bit for
a guess of solver) and leaves the empty-slot list, whose order is free. -/
def AssignStep (b b2 : Board) : Prop :=
  ∃ r c i, r < 9 ∧ c < 9 ∧ cell b r c = 0 ∧ i < 9 ∧
    (slot_candidates b r c).testBit i = true ∧
    b2.board = (setCell b r c (1 <<< i)).board ∧
    b2.empty_slots.Perm (b.empty_slots.erase (r, c))

/-- A bookkeeping step that only reorders the empty-slot list, as the sort at the
start of simple_fill does. -/
def PermStep (b b2 : Board) : Prop :=
  b2.board = b.board ∧ b2.empty_slots.Perm b.empty_slots

/-- Any board state reached from b during solving: a chain of candidate
assignments and list reorderings. -/
def Reachable (b b2 : Board) : Prop :=
  Relation.ReflTransGen (fun x y => AssignStep x y ∨ PermStep x y) b b2

/-!  Heap model: object identities of Slot cells and empty_slots list objects.
PyState is the heap, allocation appends; a PyBoard holds cell ids in its grid
and the id of its empty_slots list object, exactly the mutable objects that
SudokuBoard.sync_to shares and SudokuBoard.clone rebuilds. -/

/-- The heap: slot objects (raw masks) and list objects (empty-slot lists). -/
structure PyState where
  cells : List Nat
  lists : List (List (Nat × Nat))
deriving DecidableEq, Repr

/-- A SudokuBoard as an object graph: 81 cell ids and the empty_slots list id.
Rows, columns and blocks are views of grid built by __init__, see rowIds,
colIds and blockIds. -/
structure PyBoard where
  grid : List (List Nat)
  slotsId : Nat
deriving DecidableEq, Repr

/-- Reading a slot object. -/
def readCell (s : PyState) (id : Nat) : Nat := s.cells.getD id 0

/-- slot.raw = v on the heap. -/
def writeCell (s : PyState) (id v : Nat) : PyState :=
  { s with cells := s.cells.set id v }

/-- The current content of the empty_slots list object of a board. -/
def readSlots (s : PyState) (b : PyBoard) : List (Nat × Nat) :=
  s.lists.getD b.slotsId []

/-- empty_slots.append(p) on the heap, an in-place list mutation. -/
def appendSlot (s : PyState) (id : Nat) (p : Nat × Nat) : PyState :=
  { s with lists := s.lists.set id (s.lists.getD id [] ++ [p]) }

/-- The cell id of grid position (r, c). -/
def idAt (b : PyBoard) (r c : Nat) : Nat := (b.grid.getD r []).getD c 0

/-- All 81 cell ids of a board. -/
def gridIds (b : PyBoard) : List Nat := b.grid.flatten

/-- SudokuBoard(): allocate 81 fresh zero slots and a fresh empty list object. -/
def newBoard (s : PyState) : PyState × PyBoard :=
  ({ cells := s.cells ++ List.replicate 81 0, lists := s.lists ++ [[]] },
   { grid := (List.range 9).map (fun r =>
       (List.range 9).map (fun c => s.cells.length + 9 * r + c)),
     slotsId := s.lists.length })

/-- The ids referenced by row group r, the slots board[r] of __init__. -/
def rowIds (b : PyBoard) (r : Nat) : List Nat := b.grid.getD r []

/-- The ids referenced by column group c of __init__. -/
def colIds (b : PyBoard) (c : Nat) : List Nat :=
  b.grid.map (fun row => row.getD c 0)

/-- The ids referenced by block group k of __init__, three row slices of width
three. -/
def blockIds (b : PyBoard) (k : Nat) : List Nat :=
  (List.range 3).flatMap (fun dr =>
    ((b.grid.getD (3 * (k / 3) + dr) []).drop (3 * (k % 3))).take 3)

/-- SudokuBoard.clone on the heap: a fresh SudokuBoard() is allocated, every raw
value is copied onto the fresh cells, the clone rebinds empty_slots to a fresh
list object and appends every coordinate of the source list to it. -/
def heapClone (s : PyState) (b : PyBoard) : PyState × PyBoard :=
  let snb := newBoard s
  let s2 := (List.range 81).foldl
    (fun st i =>
      writeCell st (idAt snb.2 (i / 9) (i % 9)) (readCell s (idAt b (i / 9) (i % 9))))
    snb.1
  ({ s2 with lists := s2.lists ++ [readSlots s b] },
   { grid := snb.2.grid, slotsId := s2.lists.length })

/-- SudokuBoard.sync_to on the heap: self.board, the three group lists and
self.empty_slots all become references to the objects of ref, so afterwards
self and ref share their grid cell ids and their empty_slots list object. -/
def py_sync_to (_self ref : PyBoard) : PyBoard :=
  { grid := ref.grid, slotsId := ref.slotsId }

/-!  Concrete boards used by witnesses and counterexamples. -/

/-- A fully solved legal grid. -/
def gridS : List (List Nat) :=
 [[5,3,4,6,7,8,9,1,2],
  [6,7,2,1,9,5,3,4,8],
  [1,9,8,3,4,2,5,6,7],
  [8,5,9,7,6,1,4,2,3],
  [4,2,6,8,5,3,7,9,1],
  [7,1,3,9,2,4,8,5,6],
  [9,6,1,5,3,7,2,8,4],
  [2,8,7,4,1,9,6,3,5],
  [3,4,5,2,8,6,1,7,9]]

/-- The solved grid as a board, with an empty empty_slots list. -/
def bS : Board := set_board_num freshBoard gridS

/-- The solved grid with cells (0,0) and (0,1) cleared, a solvable puzzle. -/
def gridW : List (List Nat) :=
 [[0,0,4,6,7,8,9,1,2],
  [6,7,2,1,9,5,3,4,8],
  [1,9,8,3,4,2,5,6,7],
  [8,5,9,7,6,1,4,2,3],
  [4,2,6,8,5,3,7,9,1],
  [7,1,3,9,2,4,8,5,6],
  [9,6,1,5,3,7,2,8,4],
  [2,8,7,4,1,9,6,3,5],
  [3,4,5,2,8,6,1,7,9]]

/-- The solvable two-hole puzzle as a board. -/
def bW : Board := set_board_num freshBoard gridW

/-- A legal grid with three empty cells that all have zero candidates: cells
(0,0), (3,1) and (4,4) are empty and cell (4,0) holds 5, so digit 5 is blocked
for all three holes. -/
def gridC3 : List (List Nat) :=
 [[0,3,4,6,7,8,9,1,2],
  [6,7,2,1,9,5,3,4,8],
  [1,9,8,3,4,2,5,6,7],
  [8,0,9,7,6,1,4,2,3],
  [5,2,6,8,0,3,7,9,1],
  [7,1,3,9,2,4,8,5,6],
  [9,6,1,5,3,7,2,8,4],
  [2,8,7,4,1,9,6,3,5],
  [3,4,5,2,8,6,1,7,9]]

/-- The zero-candidate puzzle as a board. -/
def bC3 : Board := set_board_num freshBoard gridC3

/-- The solved grid with the rectangle (5,3) (5,5) (7,3) (7,5) over digits 4 and
9 cleared: every empty cell has exactly two candidates, so simple_fill stalls. -/
def gridC5 : List (List Nat) :=
 [[5,3,4,6,7,8,9,1,2],
  [6,7,2,1,9,5,3,4,8],
  [1,9,8,3,4,2,5,6,7],
  [8,5,9,7,6,1,4,2,3],
  [4,2,6,8,5,3,7,9,1],
  [7,1,3,0,2,0,8,5,6],
  [9,6,1,5,3,7,2,8,4],
  [2,8,7,0,1,0,6,3,5],
  [3,4,5,2,8,6,1,7,9]]

/-- The stalled puzzle as a board. -/
def bC5 : Board := set_board_num freshBoard gridC5

/-- The solved grid with only cell (0,0) cleared, whose single candidate is
digit 5 (bit 4). -/
def gridC4 : List (List Nat) :=
 [[0,3,4,6,7,8,9,1,2],
  [6,7,2,1,9,5,3,4,8],
  [1,9,8,3,4,2,5,6,7],
  [8,5,9,7,6,1,4,2,3],
  [4,2,6,8,5,3,7,9,1],
  [7,1,3,9,2,4,8,5,6],
  [9,6,1,5,3,7,2,8,4],
  [2,8,7,4,1,9,6,3,5],
  [3,4,5,2,8,6,1,7,9]]

/-- The one-hole puzzle as a board. -/
def bC4 : Board := set_board_num freshBoard gridC4

/-- The stalled puzzle of bC5 as an 81-character input string. -/
def strC10 : List Char :=
  "534678912672195348198342567859761423426853791713020856961537284287010635345286179".toList

/-- The heap scenario of the aliasing counterexample: two fresh boards. -/
def hs0 : PyState := { cells := [], lists := [] }

/-- Heap after allocating board A. -/
def hsA : PyState := (newBoard hs0).1

/-- Board A. -/
def bdA : PyBoard := (newBoard hs0).2

/-- Heap after allocating board B. -/
def hsB : PyState := (newBoard hsA).1

/-- Board B. -/
def bdB : PyBoard := (newBoard hsA).2

/-- B after B.sync_to(A). -/
def bdBsync : PyBoard := py_sync_to bdB bdA

/-- Heap after writing raw value 1 into cell (0,0) of board A. -/
def hsWr : PyState := writeCell hsB (idAt bdA 0 0) 1

/-- Legality of a list of masks: the popcount of the or equals the number of
nonzero members.  This is SlotGroup.is_legal stated with the nine-bit popcount. -/
def legalList (L : List Nat) : Prop :=
  specPop (orAll L) = L.countP (fun m => m != 0)

/-- Sortedness by descending key, the postcondition of list.sort(reverse=True). -/
def SortedDescKey (key : Nat × Nat → Nat) (l : List (Nat × Nat)) : Prop :=
  List.Pairwise (fun a b => key b ≤ key a) l

/-- The number of empty cells of the 9 by 9 grid. -/
def emptyCount (b : Board) : Nat :=
  ((List.range 9).flatMap (fun r => (List.range 9).map (fun c => (r, c)))).countP
    (fun p => cell b p.1 p.2 == 0)

/-- The cell-copy loop of SudokuBoard.clone on the heap, named so the later
proofs can unfold it once and then leave it opaque. -/
def cloneFold (s : PyState) (b : PyBoard) : PyState :=
  (List.range 81).foldl
    (fun st i =>
      writeCell st (idAt (newBoard s).2 (i / 9) (i % 9))
        (readCell s (idAt b (i / 9) (i % 9))))
    (newBoard s).1

/-!  Bit-level facts.  Masks reachable by the program stay below 512, where the
Python expressions translate to decidable statements. -/

/-- popcount agrees with the nine-bit popcount below 512. -/
theorem popcount_eq_specPop : ∀ m, m < 512 → popcount m = specPop m := by decide

/-- Subtraction from FULL_MASK is bitwise complement below 512. -/
theorem sub511_eq_xor : ∀ u, u < 512 → 511 - u = 511 ^^^ u := by decide

/-- Bits 0 to 8 of FULL_MASK are set. -/
theorem testBit_511 : ∀ i, i < 9 → Nat.testBit 511 i = true := by decide

/-- A single-bit mask below bit 9 has nine-bit popcount 1. -/
theorem specPop_single : ∀ i, i < 9 → specPop (1 <<< i) = 1 := by decide

/-- The only mask below 512 with nine-bit popcount 0 is 0. -/
theorem specPop_eq_zero : ∀ m, m < 512 → specPop m = 0 → m = 0 := by decide

/-- Masks below 512 with nine-bit popcount 1 are exactly the single bits. -/
theorem specPop_one : ∀ m, m < 512 → specPop m = 1 → ∃ i, i < 9 ∧ m = 1 <<< i := by
  decide

/-- The only mask below 512 with nine-bit popcount 9 is 511. -/
theorem specPop_nine : ∀ m, m < 512 → specPop m = 9 → m = 511 := by decide

/-- Single-bit masks test positive exactly at their own bit. -/
theorem testBit_single : ∀ i, i < 9 → ∀ j, (1 <<< i).testBit j = true → j = i := by
  intro i hi j hj
  by_contra hne
  rw [Nat.shiftLeft_eq, one_mul, Nat.testBit_two_pow] at hj
  simp at hj
  exact hne hj.symm

/-- Valid masks are below 512. -/
theorem validMask_lt {m : Nat} (h : validMask m) : m < 512 := by
  rcases h with h | ⟨i, hi, rfl⟩
  · omega
  · have : ∀ i, i < 9 → 1 <<< i < 512 := by decide
    exact this i hi

/-- Bits at or above 9 of a mask below 512 are clear. -/
theorem testBit_ge_nine {m i : Nat} (hm : m < 512) (hi : 9 ≤ i) :
    m.testBit i = false := by
  apply Nat.testBit_lt_two_pow
  calc m < 512 := hm
    _ = 2 ^ 9 := by norm_num
    _ ≤ 2 ^ i := Nat.pow_le_pow_right (by norm_num) hi

/-- Pointwise count of or and and bits adds up over any index list. -/
theorem countP_or_and (x y : Nat) (l : List Nat) :
    l.countP (fun i => x.testBit i || y.testBit i)
        + l.countP (fun i => x.testBit i && y.testBit i)
      = l.countP (fun i => x.testBit i) + l.countP (fun i => y.testBit i) := by
  induction l with
  | nil => rfl
  | cons a l ih =>
    simp only [List.countP_cons]
    cases hx : x.testBit a <;> cases hy : y.testBit a <;> simp [hx, hy] <;> omega

/-- Nine-bit popcount of or and and adds up. -/
theorem specPop_or_and (x y : Nat) :
    specPop (x ||| y) + specPop (x &&& y) = specPop x + specPop y := by
  have h := countP_or_and x y (List.range 9)
  simpa [specPop, Nat.testBit_or, Nat.testBit_and] using h

/-- A single bit mask is disjoint from m exactly when the bit of m is clear. -/
theorem single_and_eq_zero {i : Nat} (m : Nat) (h : m.testBit i = false) :
    (1 <<< i) &&& m = 0 := by
  apply Nat.eq_of_testBit_eq
  intro j
  rw [Nat.testBit_and, Nat.zero_testBit]
  by_cases hj : j = i
  · subst hj
    simp [h]
  · rw [Nat.shiftLeft_eq, one_mul, Nat.testBit_two_pow]
    simp
    intro he
    exact absurd he.symm hj

/-!  Facts about orAll, the fold of SlotGroup.combine. -/

theorem orAll_nil : orAll [] = 0 := rfl

theorem orAll_cons (a : Nat) (l : List Nat) : orAll (a :: l) = a ||| orAll l := rfl

/-- The or of a list of masks below 512 stays below 512. -/
theorem orAll_lt {l : List Nat} (h : ∀ m ∈ l, m < 512) : orAll l < 512 := by
  induction l with
  | nil => simp [orAll_nil]
  | cons a l ih =>
    rw [orAll_cons]
    have h2 : (512 : Nat) = 2 ^ 9 := by norm_num
    rw [h2]
    apply Nat.or_lt_two_pow
    · rw [← h2]
      exact h a (by simp)
    · rw [← h2]
      exact ih (fun m hm => h m (by simp [hm]))

/-- A bit of the combined mask comes from a bit of a member. -/
theorem orAll_testBit (l : List Nat) (i : Nat) :
    (orAll l).testBit i = l.any (fun m => m.testBit i) := by
  induction l with
  | nil => simp [orAll_nil]
  | cons a l ih => simp [orAll_cons, Nat.testBit_or, ih]

/-- orAll only depends on the multiset of members. -/
theorem orAll_perm {l l2 : List Nat} (h : List.Perm l l2) : orAll l = orAll l2 := by
  induction h with
  | nil => rfl
  | cons a _ ih => simp [orAll_cons, ih]
  | swap a b l =>
    simp only [orAll_cons]
    rw [← Nat.or_assoc, ← Nat.or_assoc, Nat.or_comm b a]
  | trans _ _ ih1 ih2 => rw [ih1, ih2]

/-!  Legality of mask lists. -/

/-- A left shift of 1 is never zero. -/
theorem one_shiftLeft_ne_zero (i : Nat) : (1 <<< i) ≠ 0 := by
  rw [Nat.shiftLeft_eq, one_mul]
  exact (Nat.pos_pow_of_pos i (by norm_num)).ne'

/-- A single-bit mask tests positive at its own bit. -/
theorem testBit_single_self (i : Nat) : (1 <<< i).testBit i = true := by
  rw [Nat.shiftLeft_eq, one_mul]
  exact Nat.testBit_two_pow_self

/-- The nine-bit popcount of a valid mask is 0 for the empty mask and 1 otherwise. -/
theorem specPop_valid {m : Nat} (h : validMask m) :
    (m = 0 ∧ specPop m = 0) ∨ (m ≠ 0 ∧ specPop m = 1) := by
  rcases h with rfl | ⟨i, hi, rfl⟩
  · left
    exact ⟨rfl, by decide⟩
  · right
    exact ⟨one_shiftLeft_ne_zero i, specPop_single i hi⟩

/-- Sub-additivity: the combined popcount is at most the number of filled slots. -/
theorem specPop_orAll_le {L : List Nat} (h : ∀ m ∈ L, validMask m) :
    specPop (orAll L) ≤ L.countP (fun m => m != 0) := by
  induction L with
  | nil => simp [orAll_nil, specPop]
  | cons a L ih =>
    rw [orAll_cons, List.countP_cons]
    have hadd := specPop_or_and a (orAll L)
    have hle := ih (fun m hm => h m (by simp [hm]))
    rcases specPop_valid (h a (by simp)) with ⟨rfl, hz⟩ | ⟨hne, hone⟩
    · simpa [Nat.zero_or] using hle
    · have hb : (a != 0) = true := by simpa using hne
      simp only [hb, if_true]
      omega

/-- legalList only depends on the multiset of masks. -/
theorem legalList_perm {L L2 : List Nat} (h : List.Perm L L2) :
    legalList L ↔ legalList L2 := by
  unfold legalList
  rw [orAll_perm h, h.countP_eq]

/-- A zero mask in front changes nothing. -/
theorem legal_cons_zero {L : List Nat} : legalList (0 :: L) ↔ legalList L := by
  unfold legalList
  simp [orAll_cons]

/-- Removing a legal single-bit head: its bit is absent from the rest and the
rest stays legal. -/
theorem legal_cons_single_mp {L : List Nat} {i : Nat}
    (hv : ∀ m ∈ L, validMask m) (hi : i < 9)
    (h : legalList ((1 <<< i) :: L)) :
    (orAll L).testBit i = false ∧ legalList L := by
  have hR : orAll L < 512 := orAll_lt (fun m hm => validMask_lt (hv m hm))
  have hv512 : (1 <<< i) < 512 := validMask_lt (Or.inr ⟨i, hi, rfl⟩)
  have hadd := specPop_or_and (1 <<< i) (orAll L)
  have hle := specPop_orAll_le hv
  have hone := specPop_single i hi
  unfold legalList at h
  rw [orAll_cons, List.countP_cons] at h
  have hvne : ((1 <<< i) != 0) = true := by simpa using one_shiftLeft_ne_zero i
  simp only [hvne, if_true] at h
  have hand : specPop ((1 <<< i) &&& orAll L) = 0 := by omega
  have hrest : specPop (orAll L) = L.countP (fun m => m != 0) := by omega
  have handz : (1 <<< i) &&& orAll L = 0 := by
    apply specPop_eq_zero
    · calc (1 <<< i) &&& orAll L ≤ 1 <<< i := Nat.and_le_left
        _ < 512 := hv512
    · exact hand
  constructor
  · have := congrArg (fun n => n.testBit i) handz
    simp only [Nat.testBit_and, Nat.zero_testBit, testBit_single_self,
      Bool.true_and] at this
    exact this
  · exact hrest

/-- Adding a fresh single bit keeps the list legal. -/
theorem legal_cons_single_mpr {L : List Nat} {i : Nat}
    (hv : ∀ m ∈ L, validMask m) (hi : i < 9)
    (hfree : (orAll L).testBit i = false) (h : legalList L) :
    legalList ((1 <<< i) :: L) := by
  have hand : (1 <<< i) &&& orAll L = 0 := single_and_eq_zero (orAll L) hfree
  have hadd := specPop_or_and (1 <<< i) (orAll L)
  rw [hand] at hadd
  have hone := specPop_single i hi
  unfold legalList at h ⊢
  rw [orAll_cons, List.countP_cons]
  have hvne : ((1 <<< i) != 0) = true := by simpa using one_shiftLeft_ne_zero i
  simp only [hvne, if_true]
  have hz : specPop 0 = 0 := by decide
  omega

/-- Removing a legal single-bit member anywhere: its bit is absent from the rest. -/
theorem legal_middle_mp {s t : List Nat} {i : Nat}
    (hv : ∀ m ∈ s ++ (1 <<< i) :: t, validMask m) (hi : i < 9)
    (h : legalList (s ++ (1 <<< i) :: t)) :
    (orAll (s ++ t)).testBit i = false ∧ legalList (s ++ t) := by
  have hperm : List.Perm (s ++ (1 <<< i) :: t) ((1 <<< i) :: (s ++ t)) :=
    List.perm_middle
  have h2 : legalList ((1 <<< i) :: (s ++ t)) := (legalList_perm hperm).mp h
  have hv2 : ∀ m ∈ s ++ t, validMask m := by
    intro m hm
    apply hv
    rcases List.mem_append.mp hm with hs | ht
    · exact List.mem_append.mpr (Or.inl hs)
    · exact List.mem_append.mpr (Or.inr (by simp [ht]))
  exact legal_cons_single_mp hv2 hi h2

/-- Inserting a fresh single bit anywhere keeps the list legal. -/
theorem legal_middle_mpr {s t : List Nat} {i : Nat}
    (hv : ∀ m ∈ s ++ t, validMask m) (hi : i < 9)
    (hfree : (orAll (s ++ t)).testBit i = false) (h : legalList (s ++ t)) :
    legalList (s ++ (1 <<< i) :: t) := by
  have hperm : List.Perm (s ++ (1 <<< i) :: t) ((1 <<< i) :: (s ++ t)) :=
    List.perm_middle
  exact (legalList_perm hperm).mpr (legal_cons_single_mpr hv hi hfree h)

/-- Removing a legal zero member anywhere keeps the rest legal with equal combine. -/
theorem legal_middle_zero {s t : List Nat} (h : legalList (s ++ 0 :: t)) :
    legalList (s ++ t) ∧ orAll (s ++ 0 :: t) = orAll (s ++ t) := by
  have hperm : List.Perm (s ++ 0 :: t) (0 :: (s ++ t)) := List.perm_middle
  constructor
  · exact legal_cons_zero.mp ((legalList_perm hperm).mp h)
  · rw [orAll_perm hperm, orAll_cons, Nat.zero_or]

/-!  popLast and the descending sort. -/

/-- popLast answers none exactly on the empty list. -/
theorem popLast_none_iff {l : List (Nat × Nat)} : popLast l = none ↔ l = [] := by
  cases l with
  | nil => simp [popLast]
  | cons x l =>
    cases l with
    | nil => simp [popLast]
    | cons y l =>
      simp only [popLast]
      cases h : popLast (y :: l) with
      | none =>
        rw [popLast_none_iff] at h
        exact absurd h (by simp)
      | some p => simp

/-- popLast returns the last element and the rest. -/
theorem popLast_some {l : List (Nat × Nat)} {x : Nat × Nat} {rest : List (Nat × Nat)}
    (h : popLast l = some (x, rest)) : l = rest ++ [x] := by
  induction l generalizing rest with
  | nil => simp [popLast] at h
  | cons a l ih =>
    cases l with
    | nil =>
      simp [popLast] at h
      simp [h.1, h.2]
    | cons y t =>
      simp only [popLast] at h
      cases h2 : popLast (y :: t) with
      | none =>
        rw [popLast_none_iff] at h2
        exact absurd h2 (by simp)
      | some p =>
        rw [h2] at h
        obtain ⟨z, r2⟩ := p
        simp only [Option.some.injEq, Prod.mk.injEq] at h
        obtain ⟨hz, hrest⟩ := h
        subst hz
        have := ih h2
        rw [← hrest, this]
        simp

/-- Inserting keeps the members, as a permutation. -/
theorem insertDesc_perm (key : Nat × Nat → Nat) (x : Nat × Nat)
    (l : List (Nat × Nat)) : List.Perm (insertDesc key x l) (x :: l) := by
  induction l with
  | nil => rfl
  | cons a l ih =>
    unfold insertDesc
    by_cases h : key x ≤ key a
    · rw [if_pos h]
      exact List.Perm.trans (List.Perm.cons a ih) (List.Perm.swap x a l)
    · rw [if_neg h]

/-- Inserting preserves descending sortedness. -/
theorem insertDesc_sorted {key : Nat × Nat → Nat} {x : Nat × Nat}
    {l : List (Nat × Nat)} (h : SortedDescKey key l) :
    SortedDescKey key (insertDesc key x l) := by
  unfold SortedDescKey at h ⊢
  induction l with
  | nil => exact List.pairwise_singleton _ x
  | cons a l ih =>
    unfold insertDesc
    rw [List.pairwise_cons] at h
    obtain ⟨ha, hl⟩ := h
    by_cases hc : key x ≤ key a
    · rw [if_pos hc]
      rw [List.pairwise_cons]
      constructor
      · intro y hy
        rcases List.mem_cons.mp ((insertDesc_perm key x l).mem_iff.mp hy) with
          rfl | hyl
        · exact hc
        · exact ha y hyl
      · exact ih hl
    · rw [if_neg hc]
      rw [List.pairwise_cons]
      constructor
      · intro y hy
        rcases List.mem_cons.mp hy with rfl | hyl
        · exact Nat.le_of_lt (Nat.lt_of_not_le hc)
        · exact Nat.le_trans (ha y hyl) (Nat.le_of_lt (Nat.lt_of_not_le hc))
      · rw [List.pairwise_cons]
        exact ⟨ha, hl⟩

/-- sortDesc permutes its input. -/
theorem sortDesc_perm (key : Nat × Nat → Nat) (l : List (Nat × Nat)) :
    List.Perm (sortDesc key l) l := by
  suffices h : ∀ (m acc : List (Nat × Nat)), List.Perm
      (m.foldl (fun a x => insertDesc key x a) acc) (acc ++ m) by
    simpa using h l []
  intro m
  induction m with
  | nil => intro acc; simp
  | cons a m ih =>
    intro acc
    simp only [List.foldl_cons]
    have h1 : List.Perm (insertDesc key a acc ++ m) ((a :: acc) ++ m) :=
      List.Perm.append_right m (insertDesc_perm key a acc)
    have h2 : List.Perm ((a :: acc) ++ m) (acc ++ a :: m) := List.perm_middle.symm
    exact ((ih (insertDesc key a acc)).trans h1).trans h2

/-- sortDesc sorts by descending key. -/
theorem sortDesc_sorted (key : Nat × Nat → Nat) (l : List (Nat × Nat)) :
    SortedDescKey key (sortDesc key l) := by
  suffices h : ∀ (m acc : List (Nat × Nat)), SortedDescKey key acc →
      SortedDescKey key (m.foldl (fun a x => insertDesc key x a) acc) by
    exact h l [] List.Pairwise.nil
  intro m
  induction m with
  | nil => exact fun acc h => h
  | cons a m ih =>
    intro acc hacc
    simp only [List.foldl_cons]
    exact ih _ (insertDesc_sorted hacc)

/-- In a descending list, the last element has the minimum key. -/
theorem sorted_last_min {key : Nat × Nat → Nat} {l rest : List (Nat × Nat)}
    {x : Nat × Nat} (hs : SortedDescKey key l) (he : l = rest ++ [x]) :
    ∀ y ∈ l, key x ≤ key y := by
  subst he
  unfold SortedDescKey at hs
  intro y hy
  rcases List.mem_append.mp hy with hr | hx
  · rw [List.pairwise_append] at hs
    exact hs.2.2 y hr x (by simp)
  · simp at hx
    subst hx
    exact Nat.le_refl _

/-!  Cells and setCell. -/

/-- getD after set at the same index, in bounds. -/
theorem getD_set_self {α : Type} (l : List α) (i : Nat) (x d : α)
    (h : i < l.length) : (l.set i x).getD i d = x := by
  rw [List.getD_eq_getElem?_getD, List.getElem?_set_self h]
  rfl

/-- getD after set at a different index. -/
theorem getD_set_ne {α : Type} (l : List α) {i j : Nat} (x : α) (d : α)
    (h : i ≠ j) : (l.set i x).getD j d = l.getD j d := by
  rw [List.getD_eq_getElem?_getD, List.getElem?_set_ne h,
    ← List.getD_eq_getElem?_getD]

/-- The row list of a shaped board at r below 9 has length 9. -/
theorem row_length {b : Board} (hs : Shaped b) {r : Nat} (hr : r < 9) :
    (b.board.getD r []).length = 9 := by
  have h9 := hs.1
  have hr2 : r < b.board.length := by omega
  rw [List.getD_eq_getElem b.board [] hr2]
  exact hs.2 _ (List.getElem_mem hr2)

/-- Writing a cell then reading it back. -/
theorem cell_setCell_self {b : Board} (hs : Shaped b) {r c : Nat} (hr : r < 9)
    (hc : c < 9) (v : Nat) : cell (setCell b r c v) r c = v := by
  have h9 := hs.1
  have hr2 : r < b.board.length := by omega
  have hc2 : c < (b.board.getD r []).length := by
    rw [row_length hs hr]
    omega
  unfold cell setCell
  rw [getD_set_self _ _ _ _ hr2, getD_set_self _ _ _ _ hc2]

/-- Writing a cell leaves every other cell unchanged. -/
theorem cell_setCell_ne {b : Board} {r c r2 c2 : Nat}
    (h : (r2, c2) ≠ (r, c)) (v : Nat) :
    cell (setCell b r c v) r2 c2 = cell b r2 c2 := by
  unfold cell setCell
  by_cases hr : r2 = r
  · subst hr
    have hc : c ≠ c2 := by
      intro he
      exact h (by rw [he])
    by_cases hrl : r2 < b.board.length
    · rw [getD_set_self _ _ _ _ hrl, getD_set_ne _ _ _ hc]
    · rw [List.set_eq_of_length_le (by omega)]
  · rw [getD_set_ne _ _ _ (fun he => hr he.symm)]

/-- setCell keeps the 9 by 9 shape. -/
theorem Shaped_setCell {b : Board} (hs : Shaped b) {r c : Nat} (hr : r < 9)
    (v : Nat) : Shaped (setCell b r c v) := by
  constructor
  · simp [setCell, hs.1]
  · intro row hm
    rcases List.mem_or_eq_of_mem_set hm with h | h
    · exact hs.2 row h
    · subst h
      rw [List.length_set]
      exact row_length hs hr

/-- setCell keeps every valid mask valid when the written mask is valid. -/
theorem CellsValid_setCell {b : Board} (hv : CellsValid b) {r c v : Nat}
    (hval : validMask v) : CellsValid (setCell b r c v) := by
  intro r2 hr2 c2 hc2
  by_cases h : (r2, c2) = (r, c)
  · rw [Prod.mk.injEq] at h
    obtain ⟨he1, he2⟩ := h
    subst he1
    subst he2
    by_cases hrl : r2 < b.board.length
    · by_cases hcl : c2 < (b.board.getD r2 []).length
      · unfold cell setCell
        rw [getD_set_self _ _ _ _ hrl, getD_set_self _ _ _ _ hcl]
        exact hval
      · unfold cell setCell
        rw [getD_set_self _ _ _ _ hrl, List.set_eq_of_length_le (by omega)]
        exact hv r2 hr2 c2 hc2
    · unfold cell setCell
      rw [List.set_eq_of_length_le (by omega)]
      exact hv r2 hr2 c2 hc2
  · rw [cell_setCell_ne h]
    exact hv r2 hr2 c2 hc2

/-- Every cell read of a shaped board with valid cells gives a valid mask, also
out of range where the default is zero. -/
theorem cellValidAll {b : Board} (hs : Shaped b) (hv : CellsValid b) (r c : Nat) :
    validMask (cell b r c) := by
  by_cases hr : r < 9
  · by_cases hc : c < 9
    · exact hv r hr c hc
    · unfold cell
      rw [List.getD_eq_getElem?_getD (b.board.getD r []) c 0, List.getElem?_eq_none]
      · exact Or.inl rfl
      · rw [row_length hs hr]
        omega
  · unfold cell
    rw [List.getD_eq_getElem?_getD b.board r [], List.getElem?_eq_none]
    · exact Or.inl rfl
    · rw [hs.1]
      omega

/-!  The 27 concrete groups. -/

/-- No group lists a coordinate twice. -/
theorem groups_nodup : ∀ g ∈ allGroups, g.Nodup := by decide

/-- All group coordinates are inside the 9 by 9 grid. -/
theorem groups_coords_lt : ∀ g ∈ allGroups, ∀ p ∈ g, p.1 < 9 ∧ p.2 < 9 := by decide

/-- Every cell belongs to its row, column and block group. -/
theorem cover_mem : ∀ r, r < 9 → ∀ c, c < 9 →
    ((r, c) ∈ rowCoords r ∧ (r, c) ∈ colCoords c ∧
      (r, c) ∈ blockCoords ((r / 3) * 3 + c / 3)) := by
  intro r hr c hc
  refine ⟨?h1, ?h2, ?h3⟩
  · revert c
    revert r
    decide
  · revert c
    revert r
    decide
  · revert c
    revert r
    decide

/-- The only groups containing a cell are its row, column and block. -/
theorem cover_only : ∀ r, r < 9 → ∀ c, c < 9 → ∀ g ∈ allGroups, (r, c) ∈ g →
    (g = rowCoords r ∨ g = colCoords c ∨
      g = blockCoords ((r / 3) * 3 + c / 3)) := by
  intro r hr c hc
  interval_cases r <;> interval_cases c <;> decide

/-- Row groups are among the 27 groups. -/
theorem row_mem_allGroups : ∀ r, r < 9 → rowCoords r ∈ allGroups := by decide

/-- Column groups are among the 27 groups. -/
theorem col_mem_allGroups : ∀ c, c < 9 → colCoords c ∈ allGroups := by decide

/-- Block groups are among the 27 groups. -/
theorem block_mem_allGroups : ∀ k, k < 9 → blockCoords k ∈ allGroups := by decide

/-!  Group masks and legality of a board. -/

/-- Group masks after an update outside the group. -/
theorem grpMasks_setCell_not_mem {b : Board} {r c v : Nat}
    {g : List (Nat × Nat)} (h : (r, c) ∉ g) :
    grpMasks (setCell b r c v) g = grpMasks b g := by
  unfold grpMasks
  apply List.map_congr_left
  intro p hp
  apply cell_setCell_ne
  intro he
  apply h
  have : p = (r, c) := by
    obtain ⟨p1, p2⟩ := p
    simpa using he
  rw [← this]
  exact hp

/-- Group masks split along the coordinate split. -/
theorem grpMasks_split (b : Board) (s t : List (Nat × Nat)) (p : Nat × Nat) :
    grpMasks b (s ++ p :: t) = grpMasks b s ++ cell b p.1 p.2 :: grpMasks b t := by
  unfold grpMasks
  simp

/-- All group masks of a shaped board with valid cells are valid. -/
theorem grpMasks_valid {b : Board} (hs : Shaped b) (hv : CellsValid b)
    (g : List (Nat × Nat)) : ∀ m ∈ grpMasks b g, validMask m := by
  intro m hm
  obtain ⟨p, _, rfl⟩ := List.mem_map.mp hm
  exact cellValidAll hs hv p.1 p.2

/-- Combined masks stay below 512. -/
theorem combineOf_lt {b : Board} (hs : Shaped b) (hv : CellsValid b)
    (g : List (Nat × Nat)) : combineOf b g < 512 :=
  orAll_lt (fun m hm => validMask_lt (grpMasks_valid hs hv g m hm))

/-- SlotGroup.is_legal in terms of legalList. -/
theorem group_legal_iff {b : Board} (hs : Shaped b) (hv : CellsValid b)
    (g : List (Nat × Nat)) :
    group_is_legal b g = true ↔ legalList (grpMasks b g) := by
  unfold group_is_legal legalList
  rw [beq_iff_eq, popcount_eq_specPop _ (combineOf_lt hs hv g)]
  rfl

/-- SudokuBoard.is_legal in terms of legalList over the 27 groups. -/
theorem is_legal_iff {b : Board} (hs : Shaped b) (hv : CellsValid b) :
    is_legal b = true ↔ ∀ g ∈ allGroups, legalList (grpMasks b g) := by
  unfold is_legal
  rw [List.all_eq_true]
  constructor
  · intro h g hg
    exact (group_legal_iff hs hv g).mp (h g hg)
  · intro h g hg
    exact (group_legal_iff hs hv g).mpr (h g hg)

/-!  Candidate masks. -/

/-- Candidate masks stay below 512. -/
theorem slot_candidates_lt (b : Board) (r c : Nat) :
    slot_candidates b r c < 512 := by
  unfold slot_candidates FULL_MASK
  omega

/-- The subtraction from FULL_MASK is the bitwise complement of the union. -/
theorem slot_candidates_eq_xor {b : Board} (hs : Shaped b) (hv : CellsValid b)
    (r c : Nat) :
    slot_candidates b r c = 511 ^^^ (combineOf b (rowCoords r)
      ||| combineOf b (colCoords c)
      ||| combineOf b (blockCoords ((r / 3) * 3 + c / 3))) := by
  unfold slot_candidates FULL_MASK
  apply sub511_eq_xor
  have h1 := combineOf_lt hs hv (rowCoords r)
  have h2 := combineOf_lt hs hv (colCoords c)
  have h3 := combineOf_lt hs hv (blockCoords ((r / 3) * 3 + c / 3))
  have h512 : (512 : Nat) = 2 ^ 9 := by norm_num
  rw [h512]
  apply Nat.or_lt_two_pow
  · rw [← h512]
    exact Nat.lt_of_lt_of_le (Nat.lt_of_le_of_lt (Nat.le_refl _)
      ((h512 ▸ Nat.or_lt_two_pow (h512 ▸ h1) (h512 ▸ h2)))) (Nat.le_refl _)
  · rw [← h512]
    exact h3

/-- A candidate bit is a digit absent from all three covering groups. -/
theorem cand_testBit_iff {b : Board} (hs : Shaped b) (hv : CellsValid b)
    (r c i : Nat) (hi : i < 9) :
    (slot_candidates b r c).testBit i = true ↔
      ((combineOf b (rowCoords r)).testBit i = false ∧
        (combineOf b (colCoords c)).testBit i = false ∧
        (combineOf b (blockCoords ((r / 3) * 3 + c / 3))).testBit i = false) := by
  rw [slot_candidates_eq_xor hs hv, Nat.testBit_xor, testBit_511 i hi,
    Nat.testBit_or, Nat.testBit_or]
  cases h1 : (combineOf b (rowCoords r)).testBit i <;>
    cases h2 : (combineOf b (colCoords c)).testBit i <;>
    cases h3 : (combineOf b (blockCoords ((r / 3) * 3 + c / 3))).testBit i <;>
    simp

/-- Candidate bits live below bit 9. -/
theorem cand_testBit_lt_nine {b : Board} {r c i : Nat}
    (h : (slot_candidates b r c).testBit i = true) : i < 9 := by
  by_contra hge
  rw [testBit_ge_nine (slot_candidates_lt b r c) (by omega)] at h
  exact absurd h (by simp)

/-- A member of a nodup list splits it with no other occurrence. -/
theorem nodup_split {g s t : List (Nat × Nat)} {p : Nat × Nat}
    (hst : g = s ++ p :: t) (hnd : g.Nodup) : p ∉ s ∧ p ∉ t := by
  subst hst
  rw [List.nodup_append] at hnd
  constructor
  · intro hin
    exact (hnd.2.2 hin) (by simp)
  · exact (List.nodup_cons.mp hnd.2.1).1

/-- Filling an empty cell with one of its candidate digits keeps the board
legal: the digit is new to all three covering groups, and no other group sees
the cell. -/
theorem legal_fill {b : Board} (hs : Shaped b) (hv : CellsValid b)
    (hleg : is_legal b = true) {r c i : Nat} (hr : r < 9) (hc : c < 9)
    (hempty : cell b r c = 0) (hi : i < 9)
    (hbit : (slot_candidates b r c).testBit i = true) :
    is_legal (setCell b r c (1 <<< i)) = true := by
  have hs2 : Shaped (setCell b r c (1 <<< i)) := Shaped_setCell hs hr _
  have hv2 : CellsValid (setCell b r c (1 <<< i)) :=
    CellsValid_setCell hv (Or.inr ⟨i, hi, rfl⟩)
  rw [is_legal_iff hs2 hv2]
  intro g hg
  by_cases hmem : (r, c) ∈ g
  case neg =>
    rw [grpMasks_setCell_not_mem hmem]
    exact (is_legal_iff hs hv).mp hleg g hg
  case pos =>
  have hfree0 : (combineOf b g).testBit i = false := by
    have h3 := (cand_testBit_iff hs hv r c i hi).mp hbit
    rcases cover_only r hr c hc g hg hmem with rfl | rfl | rfl
    · exact h3.1
    · exact h3.2.1
    · exact h3.2.2
  obtain ⟨s, t, hst⟩ := List.append_of_mem hmem
  have hns := nodup_split hst (groups_nodup g hg)
  have hlegg : legalList (grpMasks b g) := (is_legal_iff hs hv).mp hleg g hg
  subst hst
  have hzero : cell b (r, c).1 (r, c).2 = 0 := hempty
  have hmb : grpMasks b (s ++ (r, c) :: t) = grpMasks b s ++ 0 :: grpMasks b t := by
    rw [grpMasks_split, hzero]
  have hmid : cell (setCell b r c (1 <<< i)) (r, c).1 (r, c).2 = 1 <<< i :=
    cell_setCell_self hs hr hc _
  have hm2 : grpMasks (setCell b r c (1 <<< i)) (s ++ (r, c) :: t)
      = grpMasks b s ++ (1 <<< i) :: grpMasks b t := by
    rw [grpMasks_split, hmid, grpMasks_setCell_not_mem hns.1,
      grpMasks_setCell_not_mem hns.2]
  rw [hm2]
  rw [hmb] at hlegg
  obtain ⟨hlegst, hcomb⟩ := legal_middle_zero hlegg
  have hvst : ∀ m ∈ grpMasks b s ++ grpMasks b t, validMask m := by
    intro m hm
    rcases List.mem_append.mp hm with h | h
    · exact grpMasks_valid hs hv s m h
    · exact grpMasks_valid hs hv t m h
  apply legal_middle_mpr hvst hi ?hfree hlegst
  case hfree =>
    have hco : combineOf b (s ++ (r, c) :: t)
        = orAll (grpMasks b s ++ grpMasks b t) := by
      unfold combineOf
      rw [hmb]
      exact hcomb
    rw [← hco]
    exact hfree0

/-!  Extends and Completes. -/

/-- The block index of a cell is below 9. -/
theorem block_index_lt : ∀ r, r < 9 → ∀ c, c < 9 → (r / 3) * 3 + c / 3 < 9 := by
  decide

theorem Extends_refl (b : Board) : Extends b b := fun _ _ _ _ _ => rfl

theorem Extends_trans {a b c : Board} (h1 : Extends a b) (h2 : Extends b c) :
    Extends a c := by
  intro r hr c2 hc2 hne
  have hb := h1 r hr c2 hc2 hne
  have hbne : cell b r c2 ≠ 0 := by
    rw [hb]
    exact hne
  rw [h2 r hr c2 hc2 hbne, hb]

/-- Filling an empty cell extends the board. -/
theorem Extends_setCell {b : Board} {r c : Nat} (hempty : cell b r c = 0)
    (v : Nat) : Extends b (setCell b r c v) := by
  intro r2 hr2 c2 hc2 hne
  apply cell_setCell_ne
  intro he
  rw [Prod.mk.injEq] at he
  obtain ⟨he1, he2⟩ := he
  subst he1
  subst he2
  exact hne hempty

/-- A bit present in a member is present in the combined mask. -/
theorem orAll_testBit_of_mem {l : List Nat} {m i : Nat} (hm : m ∈ l)
    (hb : m.testBit i = true) : (orAll l).testBit i = true := by
  rw [orAll_testBit]
  rw [List.any_eq_true]
  exact ⟨m, hm, hb⟩

/-- Group masks distribute over coordinate append. -/
theorem grpMasks_append (b : Board) (s t : List (Nat × Nat)) :
    grpMasks b (s ++ t) = grpMasks b s ++ grpMasks b t := by
  unfold grpMasks
  exact List.map_append _ s t

/-- A completion stays a completion after the board fills a cell with the digit
of the completion. -/
theorem Completes_setCell {S b : Board} (hsb : Shaped b) {r c i : Nat}
    (hr : r < 9) (hc : c < 9)
    (hcomp : Completes S b) (hSrc : cell S r c = 1 <<< i) :
    Completes S (setCell b r c (1 <<< i)) := by
  obtain ⟨hsS, hvS, hfS, hlS, hext⟩ := hcomp
  refine ⟨hsS, hvS, hfS, hlS, ?hx⟩
  intro r2 hr2 c2 hc2 hne
  by_cases he : (r2, c2) = (r, c)
  · rw [Prod.mk.injEq] at he
    obtain ⟨he1, he2⟩ := he
    subst he1
    subst he2
    rw [cell_setCell_self hsb hr hc]
    exact hSrc
  · rw [cell_setCell_ne he] at hne ⊢
    exact hext r2 hr2 c2 hc2 hne

/-- The digit a completion assigns to an empty cell is among its candidates:
any group mate filled with that digit would clash with the completion inside
the legal completed group. -/
theorem completion_candidate {S b : Board} (hs : Shaped b) (hv : CellsValid b)
    {r c : Nat} (hr : r < 9) (hc : c < 9) (hempty : cell b r c = 0)
    (hcomp : Completes S b) {i : Nat} (hi : i < 9)
    (hSrc : cell S r c = 1 <<< i) :
    (slot_candidates b r c).testBit i = true := by
  obtain ⟨hsS, hvS, hfS, hlS, hext⟩ := hcomp
  have key : ∀ g ∈ allGroups, (r, c) ∈ g → (combineOf b g).testBit i = false := by
    intro g hg hmemrc
    by_contra htrue
    rw [Bool.not_eq_false] at htrue
    unfold combineOf at htrue
    rw [orAll_testBit, List.any_eq_true] at htrue
    obtain ⟨m, hm, hmbit⟩ := htrue
    obtain ⟨p, hp, rfl⟩ := List.mem_map.mp hm
    have hpne : cell b p.1 p.2 ≠ 0 := by
      intro h0
      rw [h0] at hmbit
      rw [Nat.zero_testBit] at hmbit
      exact absurd hmbit (by simp)
    have hplt := groups_coords_lt g hg p hp
    have hSp : cell S p.1 p.2 = cell b p.1 p.2 :=
      hext p.1 hplt.1 p.2 hplt.2 hpne
    have hSpbit : (cell S p.1 p.2).testBit i = true := by
      rw [hSp]
      exact hmbit
    have hSpval := hvS p.1 hplt.1 p.2 hplt.2
    have hSpsingle : cell S p.1 p.2 = 1 <<< i := by
      rcases hSpval with h0 | ⟨j, hj, hjeq⟩
      · rw [h0] at hSpbit
        rw [Nat.zero_testBit] at hSpbit
        exact absurd hSpbit (by simp)
      · rw [hjeq] at hSpbit ⊢
        rw [testBit_single j hj i hSpbit]
    have hpnerc : p ≠ (r, c) := by
      intro he
      rw [he] at hpne
      exact hpne hempty
    obtain ⟨s, t, hst⟩ := List.append_of_mem hp
    have hns := nodup_split hst (groups_nodup g hg)
    have hlegS : legalList (grpMasks S g) := (is_legal_iff hsS hvS).mp hlS g hg
    rw [hst] at hlegS hmemrc
    have hmS : grpMasks S (s ++ p :: t)
        = grpMasks S s ++ (1 <<< i) :: grpMasks S t := by
      rw [grpMasks_split, hSpsingle]
    rw [hmS] at hlegS
    have hvst : ∀ m ∈ grpMasks S s ++ (1 <<< i) :: grpMasks S t, validMask m := by
      intro m hm2
      rcases List.mem_append.mp hm2 with h | h
      · exact grpMasks_valid hsS hvS s m h
      · rcases List.mem_cons.mp h with h2 | h2
        · subst h2
          exact Or.inr ⟨i, hi, rfl⟩
        · exact grpMasks_valid hsS hvS t m h2
    obtain ⟨hfree, _⟩ := legal_middle_mp hvst hi hlegS
    have hrcst : (r, c) ∈ s ++ t := by
      rcases List.mem_append.mp hmemrc with h | h
      · exact List.mem_append.mpr (Or.inl h)
      · rcases List.mem_cons.mp h with h2 | h2
        · exact absurd h2.symm hpnerc
        · exact List.mem_append.mpr (Or.inr h2)
    have hmemmask : cell S r c ∈ grpMasks S (s ++ t) :=
      List.mem_map.mpr ⟨(r, c), hrcst, rfl⟩
    rw [grpMasks_append] at hmemmask
    have : (orAll (grpMasks S s ++ grpMasks S t)).testBit i = true := by
      apply orAll_testBit_of_mem hmemmask
      rw [hSrc]
      exact testBit_single_self i
    rw [hfree] at this
    exact absurd this (by simp)
  rw [cand_testBit_iff hs hv r c i hi]
  have hcm := cover_mem r hr c hc
  exact ⟨key _ (row_mem_allGroups r hr) hcm.1,
    key _ (col_mem_allGroups c hc) hcm.2.1,
    key _ (block_mem_allGroups _ (block_index_lt r hr c hc)) hcm.2.2⟩

/-!  The simple_fill loop. -/

/-- Candidates only depend on the grid. -/
theorem slot_candidates_of_board_eq {b b2 : Board} (h : b2.board = b.board)
    (r c : Nat) : slot_candidates b2 r c = slot_candidates b r c := by
  unfold slot_candidates combineOf grpMasks cell
  rw [h]

/-- One loop step that pops a zero-candidate coordinate fails at once, leaving
the grid untouched and the popped coordinate out of the list. -/
theorem aux_conflict_step {b : Board} {r c : Nat} {rest : List (Nat × Nat)}
    (hpop : popLast b.empty_slots = some ((r, c), rest))
    (hzero : popcount (slot_candidates b r c) = 0) (k : Nat)
    (res : SolverResults) :
    simple_fill_aux (k + 1) b res
      = (SolverResults.CONFLICT, { b with empty_slots := rest }) := by
  unfold simple_fill_aux
  rw [hpop]
  have hcand : slot_candidates { b with empty_slots := rest } r c
      = slot_candidates b r c := slot_candidates_of_board_eq rfl r c
  simp only [hcand, hzero]
  rfl

/-- Length bookkeeping of the loop: the list never grows, an UPDATE answer
that was not already pending means a strict shrink, and the answer is the
pending one, UPDATE, or CONFLICT. -/
theorem aux_length : ∀ k (b : Board) res res2 b2,
    simple_fill_aux k b res = (res2, b2) →
    b2.empty_slots.length ≤ b.empty_slots.length ∧
    (res2 = SolverResults.UPDATE → res = SolverResults.UPDATE ∨
      b2.empty_slots.length < b.empty_slots.length) ∧
    (res2 = res ∨ res2 = SolverResults.UPDATE ∨ res2 = SolverResults.CONFLICT) := by
  intro k
  induction k with
  | zero =>
    intro b res res2 b2 h
    unfold simple_fill_aux at h
    obtain ⟨rfl, rfl⟩ := Prod.mk.injEq .. ▸ h
    exact ⟨Nat.le_refl _, fun h2 => Or.inl h2, Or.inl rfl⟩
  | succ k ih =>
    intro b res res2 b2 h
    unfold simple_fill_aux at h
    cases hpop : popLast b.empty_slots with
    | none =>
      rw [hpop] at h
      obtain ⟨rfl, rfl⟩ := Prod.mk.injEq .. ▸ h
      exact ⟨Nat.le_refl _, fun h2 => Or.inl h2, Or.inl rfl⟩
    | some x =>
      obtain ⟨⟨r, c⟩, rest⟩ := x
      rw [hpop] at h
      simp only at h
      have hsplit := popLast_some hpop
      have hlen : b.empty_slots.length = rest.length + 1 := by
        rw [hsplit]
        simp
      by_cases h1 : 1 < popcount (slot_candidates { b with empty_slots := rest } r c)
      · rw [if_pos h1] at h
        obtain ⟨rfl, rfl⟩ := Prod.mk.injEq .. ▸ h
        refine ⟨?l1, fun h2 => Or.inl h2, Or.inl rfl⟩
        simp [hlen]
      · rw [if_neg h1] at h
        by_cases h2 : popcount (slot_candidates { b with empty_slots := rest } r c) = 1
        · rw [if_pos h2] at h
          have := ih _ _ _ _ h
          refine ⟨?l2, fun _ => Or.inr ?l3, Or.inr ?l4⟩
          · calc b2.empty_slots.length
                ≤ rest.length := by simpa using this.1
              _ ≤ b.empty_slots.length := by omega
          · calc b2.empty_slots.length
                ≤ rest.length := by simpa using this.1
              _ < b.empty_slots.length := by omega
          · rcases this.2.2 with h4 | h4 | h4
            · exact Or.inl h4
            · exact Or.inl h4
            · exact Or.inr h4
        · rw [if_neg h2] at h
          obtain ⟨rfl, rfl⟩ := Prod.mk.injEq .. ▸ h
          refine ⟨by simp [hlen], fun h3 => ?l5, Or.inr (Or.inr rfl)⟩
          exact absurd h3 (by simp)

/-- A loop run that starts and ends on NO_UPDATE did nothing. -/
theorem aux_noup : ∀ k (b : Board) b2,
    simple_fill_aux k b SolverResults.NO_UPDATE = (SolverResults.NO_UPDATE, b2) →
    b2 = b := by
  intro k
  induction k with
  | zero =>
    intro b b2 h
    unfold simple_fill_aux at h
    exact ((Prod.mk.injEq .. ▸ h).2).symm
  | succ k ih =>
    intro b b2 h
    unfold simple_fill_aux at h
    cases hpop : popLast b.empty_slots with
    | none =>
      rw [hpop] at h
      exact ((Prod.mk.injEq .. ▸ h).2).symm
    | some x =>
      obtain ⟨⟨r, c⟩, rest⟩ := x
      rw [hpop] at h
      simp only at h
      have hsplit := popLast_some hpop
      by_cases h1 : 1 < popcount (slot_candidates { b with empty_slots := rest } r c)
      · rw [if_pos h1] at h
        obtain ⟨_, rfl⟩ := Prod.mk.injEq .. ▸ h
        rw [← hsplit]
      · rw [if_neg h1] at h
        by_cases h2 : popcount (slot_candidates { b with empty_slots := rest } r c) = 1
        · rw [if_pos h2] at h
          have := (aux_length _ _ _ _ _ h).2.2
          rcases this with h4 | h4 | h4 <;> simp at h4
        · rw [if_neg h2] at h
          have := (Prod.mk.injEq .. ▸ h).1
          simp at this

/-!  Congruence along equal grids: most predicates only read the grid. -/

theorem cell_of_board_eq {b b2 : Board} (h : b2.board = b.board) (r c : Nat) :
    cell b2 r c = cell b r c := by
  unfold cell
  rw [h]

theorem Shaped_of_board_eq {b b2 : Board} (h : b2.board = b.board) :
    Shaped b2 ↔ Shaped b := by
  unfold Shaped
  rw [h]

theorem CellsValid_of_board_eq {b b2 : Board} (h : b2.board = b.board) :
    CellsValid b2 ↔ CellsValid b := by
  unfold CellsValid
  constructor <;> intro h2 r hr c hc
  · rw [← cell_of_board_eq h]
    exact h2 r hr c hc
  · rw [cell_of_board_eq h]
    exact h2 r hr c hc

theorem is_legal_of_board_eq {b b2 : Board} (h : b2.board = b.board) :
    is_legal b2 = is_legal b := by
  unfold is_legal group_is_legal combineOf grpMasks cell
  rw [h]

theorem is_done_of_board_eq {b b2 : Board} (h : b2.board = b.board) :
    is_done b2 = is_done b := by
  unfold is_done combineOf grpMasks cell
  rw [h]

theorem Extends_congr_left {b x y : Board} (h : x.board = y.board) :
    Extends x b ↔ Extends y b := by
  unfold Extends
  constructor <;> intro h2 r hr c hc hne
  · rw [← cell_of_board_eq h] at hne
    rw [← cell_of_board_eq h]
    exact h2 r hr c hc hne
  · rw [cell_of_board_eq h] at hne
    rw [cell_of_board_eq h]
    exact h2 r hr c hc hne

theorem Extends_congr_right {b x y : Board} (h : x.board = y.board) :
    Extends b x ↔ Extends b y := by
  unfold Extends
  constructor <;> intro h2 r hr c hc hne
  · rw [← cell_of_board_eq h]
    exact h2 r hr c hc hne
  · rw [cell_of_board_eq h]
    exact h2 r hr c hc hne

theorem Completes_of_board_eq {S b b2 : Board} (h : b2.board = b.board) :
    Completes S b2 ↔ Completes S b := by
  unfold Completes
  rw [Extends_congr_left h]

/-- The board written by the loop step, independent of the slot list. -/
theorem setCell_board_eq (b : Board) (l : List (Nat × Nat)) (r c v : Nat) :
    (setCell { b with empty_slots := l } r c v).board = (setCell b r c v).board :=
  rfl

/-- Invariant preservation of the simple_fill loop on every non-CONFLICT run:
shape, mask validity, legality and the empty-slot bookkeeping survive, the
result extends the input, fills only turn empty cells nonempty, and unfilled
listed cells stay listed. -/
theorem aux_inv : ∀ k (b : Board) res res2 b2,
    Shaped b → CellsValid b → is_legal b = true →
    (∀ p ∈ b.empty_slots, p.1 < 9 ∧ p.2 < 9 ∧ cell b p.1 p.2 = 0) →
    b.empty_slots.Nodup →
    simple_fill_aux k b res = (res2, b2) →
    res2 ≠ SolverResults.CONFLICT →
    Shaped b2 ∧ CellsValid b2 ∧ is_legal b2 = true ∧
    (∀ p ∈ b2.empty_slots, p.1 < 9 ∧ p.2 < 9 ∧ cell b2 p.1 p.2 = 0) ∧
    b2.empty_slots.Nodup ∧
    Extends b b2 ∧
    (∀ r2 c2, cell b2 r2 c2 = 0 → cell b r2 c2 = 0) ∧
    (∀ p, p ∈ b.empty_slots → cell b2 p.1 p.2 = 0 → p ∈ b2.empty_slots) := by
  intro k
  induction k with
  | zero =>
    intro b res res2 b2 hs hv hleg hsound hnodup h hres2
    unfold simple_fill_aux at h
    obtain ⟨rfl, rfl⟩ := Prod.mk.injEq .. ▸ h
    exact ⟨hs, hv, hleg, hsound, hnodup, Extends_refl b, fun _ _ hz => hz,
      fun p hp _ => hp⟩
  | succ k ih =>
    intro b res res2 b2 hs hv hleg hsound hnodup h hres2
    unfold simple_fill_aux at h
    cases hpop : popLast b.empty_slots with
    | none =>
      rw [hpop] at h
      obtain ⟨rfl, rfl⟩ := Prod.mk.injEq .. ▸ h
      exact ⟨hs, hv, hleg, hsound, hnodup, Extends_refl b, fun _ _ hz => hz,
        fun p hp _ => hp⟩
    | some x =>
      obtain ⟨⟨r, c⟩, rest⟩ := x
      rw [hpop] at h
      simp only at h
      have hsplit := popLast_some hpop
      by_cases h1 : 1 < popcount (slot_candidates { b with empty_slots := rest } r c)
      · rw [if_pos h1] at h
        obtain ⟨rfl, rfl⟩ := Prod.mk.injEq .. ▸ h
        have hb2 : { b with empty_slots := rest ++ [(r, c)] } = b := by
          rw [← hsplit]
        rw [hb2]
        exact ⟨hs, hv, hleg, hsound, hnodup, Extends_refl b, fun _ _ hz => hz,
          fun p hp _ => hp⟩
      · rw [if_neg h1] at h
        by_cases h2 : popcount (slot_candidates { b with empty_slots := rest } r c) = 1
        · rw [if_pos h2] at h
          have hcb : slot_candidates { b with empty_slots := rest } r c
              = slot_candidates b r c := slot_candidates_of_board_eq rfl r c
          rw [hcb] at h h2
          have hrc : (r, c) ∈ b.empty_slots := by
            rw [hsplit]
            simp
          obtain ⟨hr, hc, hempty⟩ := hsound (r, c) hrc
          obtain ⟨i, hi, hcand⟩ := specPop_one _ (slot_candidates_lt b r c)
            (by rw [← popcount_eq_specPop _ (slot_candidates_lt b r c)]; exact h2)
          rw [hcand] at h
          have hnr : (r, c) ∉ rest := (nodup_split hsplit hnodup).1
          have hrestnodup : rest.Nodup := (List.nodup_append.mp
            (hsplit ▸ hnodup)).1
          have hBboard : (setCell { b with empty_slots := rest } r c (1 <<< i)).board
              = (setCell b r c (1 <<< i)).board := rfl
          have hbit : (slot_candidates b r c).testBit i = true := by
            rw [hcand]
            exact testBit_single_self i
          have hsB : Shaped (setCell { b with empty_slots := rest } r c (1 <<< i)) := by
            rw [Shaped_of_board_eq hBboard]
            exact Shaped_setCell hs hr _
          have hvB : CellsValid (setCell { b with empty_slots := rest } r c (1 <<< i)) := by
            rw [CellsValid_of_board_eq hBboard]
            exact CellsValid_setCell hv (Or.inr ⟨i, hi, rfl⟩)
          have hlB : is_legal (setCell { b with empty_slots := rest } r c (1 <<< i)) = true := by
            rw [is_legal_of_board_eq hBboard]
            exact legal_fill hs hv hleg hr hc hempty hi hbit
          have hBcell_ne : ∀ p : Nat × Nat, p ≠ (r, c) →
              cell (setCell { b with empty_slots := rest } r c (1 <<< i)) p.1 p.2
                = cell b p.1 p.2 := by
            intro p hne
            rw [cell_of_board_eq hBboard]
            apply cell_setCell_ne
            intro he
            apply hne
            obtain ⟨p1, p2⟩ := p
            simpa using he
          have hBcell_self :
              cell (setCell { b with empty_slots := rest } r c (1 <<< i)) r c
                = 1 <<< i := by
            rw [cell_of_board_eq hBboard]
            exact cell_setCell_self hs hr hc _
          have hsoundB : ∀ p ∈ (setCell { b with empty_slots := rest } r c (1 <<< i)).empty_slots,
              p.1 < 9 ∧ p.2 < 9 ∧
                cell (setCell { b with empty_slots := rest } r c (1 <<< i)) p.1 p.2 = 0 := by
            intro p hp
            have hpb : p ∈ b.empty_slots := by
              rw [hsplit]
              exact List.mem_append.mpr (Or.inl hp)
            obtain ⟨hb1, hb2, hb3⟩ := hsound p hpb
            refine ⟨hb1, hb2, ?hz⟩
            rw [hBcell_ne p (fun he => hnr (he ▸ hp))]
            exact hb3
          obtain ⟨g1, g2, g3, g4, g5, g6, g7, g8⟩ := ih _ _ _ _ hsB hvB hlB
            hsoundB hrestnodup h hres2
          refine ⟨g1, g2, g3, g4, g5, ?e6, ?e7, ?e8⟩
          case e6 =>
            apply Extends_trans ?hbB g6
            rw [Extends_congr_right hBboard]
            exact Extends_setCell hempty _
          case e7 =>
            intro r2 c2 hz
            have hzB := g7 r2 c2 hz
            by_cases he : (r2, c2) = (r, c)
            · rw [Prod.mk.injEq] at he
              obtain ⟨rfl, rfl⟩ := he
              rw [hBcell_self] at hzB
              exact absurd hzB (one_shiftLeft_ne_zero i)
            · rw [hBcell_ne (r2, c2) he] at hzB
              exact hzB
          case e8 =>
            intro p hp hz
            rw [hsplit] at hp
            rcases List.mem_append.mp hp with hp2 | hp2
            · exact g8 p hp2 hz
            · have hpe : p = (r, c) := by simpa using hp2
              subst hpe
              have hzB := g7 r c hz
              rw [hBcell_self] at hzB
              exact absurd hzB (one_shiftLeft_ne_zero i)
        · rw [if_neg h2] at h
          have := (Prod.mk.injEq .. ▸ h).1
          exact absurd this.symm hres2

/-- The simple_fill loop cannot fail on a completable board, and every fill it
performs agrees with any completion of the board. -/
theorem aux_comp : ∀ k (b : Board) res (S : Board) res2 b2,
    Shaped b → CellsValid b →
    (∀ p ∈ b.empty_slots, p.1 < 9 ∧ p.2 < 9 ∧ cell b p.1 p.2 = 0) →
    b.empty_slots.Nodup →
    Completes S b →
    res ≠ SolverResults.CONFLICT →
    simple_fill_aux k b res = (res2, b2) →
    res2 ≠ SolverResults.CONFLICT ∧ Completes S b2 := by
  intro k
  induction k with
  | zero =>
    intro b res S res2 b2 hs hv hsound hnodup hcomp hres h
    obtain ⟨rfl, rfl⟩ := Prod.mk.injEq .. ▸ h
    exact ⟨hres, hcomp⟩
  | succ k ih =>
    intro b res S res2 b2 hs hv hsound hnodup hcomp hres h
    unfold simple_fill_aux at h
    cases hpop : popLast b.empty_slots with
    | none =>
      rw [hpop] at h
      obtain ⟨rfl, rfl⟩ := Prod.mk.injEq .. ▸ h
      exact ⟨hres, hcomp⟩
    | some x =>
      obtain ⟨⟨r, c⟩, rest⟩ := x
      rw [hpop] at h
      simp only at h
      have hsplit := popLast_some hpop
      have hcb : slot_candidates { b with empty_slots := rest } r c
          = slot_candidates b r c := slot_candidates_of_board_eq rfl r c
      have hrc : (r, c) ∈ b.empty_slots := by
        rw [hsplit]
        simp
      obtain ⟨hr, hc, hempty⟩ := hsound (r, c) hrc
      obtain ⟨hsS, hvS, hfS, hlS, hext⟩ := hcomp
      have hSne : cell S r c ≠ 0 := hfS r hr c hc
      obtain ⟨j, hj, hSval⟩ : ∃ j, j < 9 ∧ cell S r c = 1 <<< j := by
        rcases hvS r hr c hc with h0 | hk
        · exact absurd h0 hSne
        · exact hk
      have hbitj : (slot_candidates b r c).testBit j = true :=
        completion_candidate hs hv hr hc hempty ⟨hsS, hvS, hfS, hlS, hext⟩ hj hSval
      by_cases h1 : 1 < popcount (slot_candidates { b with empty_slots := rest } r c)
      · rw [if_pos h1] at h
        obtain ⟨rfl, rfl⟩ := Prod.mk.injEq .. ▸ h
        have hb2 : { b with empty_slots := rest ++ [(r, c)] } = b := by
          rw [← hsplit]
        rw [hb2]
        exact ⟨hres, hsS, hvS, hfS, hlS, hext⟩
      · rw [if_neg h1] at h
        by_cases h2 : popcount (slot_candidates { b with empty_slots := rest } r c) = 1
        · rw [if_pos h2] at h
          rw [hcb] at h h2
          obtain ⟨i, hi, hcand⟩ := specPop_one _ (slot_candidates_lt b r c)
            (by rw [← popcount_eq_specPop _ (slot_candidates_lt b r c)]; exact h2)
          rw [hcand] at h
          have hij : j = i := by
            rw [hcand] at hbitj
            exact testBit_single i hi j hbitj
          subst hij
          have hSrc : cell S r c = 1 <<< j := hSval
          have hnr : (r, c) ∉ rest := (nodup_split hsplit hnodup).1
          have hrestnodup : rest.Nodup := (List.nodup_append.mp
            (hsplit ▸ hnodup)).1
          have hBboard : (setCell { b with empty_slots := rest } r c (1 <<< j)).board
              = (setCell b r c (1 <<< j)).board := rfl
          have hsB : Shaped (setCell { b with empty_slots := rest } r c (1 <<< j)) := by
            rw [Shaped_of_board_eq hBboard]
            exact Shaped_setCell hs hr _
          have hvB : CellsValid (setCell { b with empty_slots := rest } r c (1 <<< j)) := by
            rw [CellsValid_of_board_eq hBboard]
            exact CellsValid_setCell hv (Or.inr ⟨j, hj, rfl⟩)
          have hBcell_ne : ∀ p : Nat × Nat, p ≠ (r, c) →
              cell (setCell { b with empty_slots := rest } r c (1 <<< j)) p.1 p.2
                = cell b p.1 p.2 := by
            intro p hne
            rw [cell_of_board_eq hBboard]
            apply cell_setCell_ne
            intro he
            apply hne
            obtain ⟨p1, p2⟩ := p
            simpa using he
          have hsoundB : ∀ p ∈ (setCell { b with empty_slots := rest } r c (1 <<< j)).empty_slots,
              p.1 < 9 ∧ p.2 < 9 ∧
                cell (setCell { b with empty_slots := rest } r c (1 <<< j)) p.1 p.2 = 0 := by
            intro p hp
            have hpb : p ∈ b.empty_slots := by
              rw [hsplit]
              exact List.mem_append.mpr (Or.inl hp)
            obtain ⟨hb1, hb2, hb3⟩ := hsound p hpb
            refine ⟨hb1, hb2, ?hz⟩
            rw [hBcell_ne p (fun he => hnr (he ▸ hp))]
            exact hb3
          have hcompB : Completes S (setCell { b with empty_slots := rest } r c (1 <<< j)) := by
            rw [Completes_of_board_eq hBboard]
            exact Completes_setCell hs hr hc ⟨hsS, hvS, hfS, hlS, hext⟩ hSrc
          exact ih _ _ S _ _ hsB hvB hsoundB hrestnodup hcompB (by simp) h
        · rw [if_neg h2] at h
          rw [hcb] at h1 h2
          have hz : popcount (slot_candidates b r c) = 0 := by omega
          rw [popcount_eq_specPop _ (slot_candidates_lt b r c)] at hz
          have hpos : 0 < specPop (slot_candidates b r c) := by
            rw [specPop]
            rw [List.countP_pos_iff]
            exact ⟨j, by simp [List.mem_range, hj], hbitj⟩
          omega

/-- When the loop fails, the failing board holds an empty zero-candidate cell
that has just left the empty-slot list unfilled. -/
theorem aux_conflict : ∀ k (b : Board) res b2,
    (∀ p ∈ b.empty_slots, p.1 < 9 ∧ p.2 < 9 ∧ cell b p.1 p.2 = 0) →
    b.empty_slots.Nodup →
    res ≠ SolverResults.CONFLICT →
    simple_fill_aux k b res = (SolverResults.CONFLICT, b2) →
    ∃ r c, r < 9 ∧ c < 9 ∧ cell b2 r c = 0 ∧
      popcount (slot_candidates b2 r c) = 0 ∧ (r, c) ∉ b2.empty_slots := by
  intro k
  induction k with
  | zero =>
    intro b res b2 hsound hnodup hres h
    unfold simple_fill_aux at h
    have := (Prod.mk.injEq .. ▸ h).1
    exact absurd this hres
  | succ k ih =>
    intro b res b2 hsound hnodup hres h
    unfold simple_fill_aux at h
    cases hpop : popLast b.empty_slots with
    | none =>
      rw [hpop] at h
      have := (Prod.mk.injEq .. ▸ h).1
      exact absurd this hres
    | some x =>
      obtain ⟨⟨r, c⟩, rest⟩ := x
      rw [hpop] at h
      simp only at h
      have hsplit := popLast_some hpop
      have hrc : (r, c) ∈ b.empty_slots := by
        rw [hsplit]
        simp
      obtain ⟨hr, hc, hempty⟩ := hsound (r, c) hrc
      have hnr : (r, c) ∉ rest := (nodup_split hsplit hnodup).1
      have hrestnodup : rest.Nodup := (List.nodup_append.mp (hsplit ▸ hnodup)).1
      by_cases h1 : 1 < popcount (slot_candidates { b with empty_slots := rest } r c)
      · rw [if_pos h1] at h
        have := (Prod.mk.injEq .. ▸ h).1
        exact absurd this hres
      · rw [if_neg h1] at h
        by_cases h2 : popcount (slot_candidates { b with empty_slots := rest } r c) = 1
        · rw [if_pos h2] at h
          have hcb : slot_candidates { b with empty_slots := rest } r c
              = slot_candidates b r c := slot_candidates_of_board_eq rfl r c
          rw [hcb] at h h2
          obtain ⟨i, hi, hcand⟩ := specPop_one _ (slot_candidates_lt b r c)
            (by rw [← popcount_eq_specPop _ (slot_candidates_lt b r c)]; exact h2)
          rw [hcand] at h
          have hBboard : (setCell { b with empty_slots := rest } r c (1 <<< i)).board
              = (setCell b r c (1 <<< i)).board := rfl
          have hBcell_ne : ∀ p : Nat × Nat, p ≠ (r, c) →
              cell (setCell { b with empty_slots := rest } r c (1 <<< i)) p.1 p.2
                = cell b p.1 p.2 := by
            intro p hne
            rw [cell_of_board_eq hBboard]
            apply cell_setCell_ne
            intro he
            apply hne
            obtain ⟨p1, p2⟩ := p
            simpa using he
          have hsoundB : ∀ p ∈ (setCell { b with empty_slots := rest } r c (1 <<< i)).empty_slots,
              p.1 < 9 ∧ p.2 < 9 ∧
                cell (setCell { b with empty_slots := rest } r c (1 <<< i)) p.1 p.2 = 0 := by
            intro p hp
            have hpb : p ∈ b.empty_slots := by
              rw [hsplit]
              exact List.mem_append.mpr (Or.inl hp)
            obtain ⟨hb1, hb2, hb3⟩ := hsound p hpb
            refine ⟨hb1, hb2, ?hz⟩
            rw [hBcell_ne p (fun he => hnr (he ▸ hp))]
            exact hb3
          exact ih _ _ _ hsoundB hrestnodup (by simp) h
        · rw [if_neg h2] at h
          obtain ⟨_, rfl⟩ := Prod.mk.injEq .. ▸ h
          refine ⟨r, c, hr, hc, ?z1, ?z2, ?z3⟩
          case z1 =>
            exact hempty
          case z2 =>
            omega
          case z3 =>
            exact hnr

/-- Unfolding simple_fill to its loop. -/
theorem simple_fill_eq (b : Board) :
    simple_fill b = simple_fill_aux (sortDesc (candCount b) b.empty_slots).length
      { b with empty_slots := sortDesc (candCount b) b.empty_slots }
      SolverResults.NO_UPDATE := rfl

/-- simple_fill preserves the full invariant and legality on non-CONFLICT runs,
extends the board, only fills empty cells, and never lengthens empty_slots. -/
theorem simple_fill_inv {b : Board} (hb : BInv b) (hleg : is_legal b = true)
    {res2 : SolverResults} {b2 : Board} (h : simple_fill b = (res2, b2))
    (hres2 : res2 ≠ SolverResults.CONFLICT) :
    BInv b2 ∧ is_legal b2 = true ∧ Extends b b2 ∧
    (∀ r2 c2, cell b2 r2 c2 = 0 → cell b r2 c2 = 0) ∧
    b2.empty_slots.length ≤ b.empty_slots.length := by
  obtain ⟨hs, hv, hnd, hsound, hexact⟩ :
      Shaped b ∧ CellsValid b ∧ b.empty_slots.Nodup ∧
      (∀ p ∈ b.empty_slots, p.1 < 9 ∧ p.2 < 9 ∧ cell b p.1 p.2 = 0) ∧
      (∀ r, r < 9 → ∀ c, c < 9 → cell b r c = 0 → (r, c) ∈ b.empty_slots) := by
    obtain ⟨h1, h2, h3, h4, h5⟩ := hb
    exact ⟨h1, h2, h3, h4, h5⟩
  rw [simple_fill_eq] at h
  have hperm := sortDesc_perm (candCount b) b.empty_slots
  have hbrd : ({ b with empty_slots := sortDesc (candCount b) b.empty_slots }
      : Board).board = b.board := rfl
  have hsR : Shaped { b with empty_slots := sortDesc (candCount b) b.empty_slots } :=
    (Shaped_of_board_eq hbrd).mpr hs
  have hvR : CellsValid { b with empty_slots := sortDesc (candCount b) b.empty_slots } :=
    (CellsValid_of_board_eq hbrd).mpr hv
  have hlegR : is_legal { b with empty_slots := sortDesc (candCount b) b.empty_slots }
      = true := by
    rw [is_legal_of_board_eq hbrd]
    exact hleg
  have hsound2 : ∀ p ∈ ({ b with empty_slots := sortDesc (candCount b) b.empty_slots }
      : Board).empty_slots,
      p.1 < 9 ∧ p.2 < 9 ∧
        cell { b with empty_slots := sortDesc (candCount b) b.empty_slots } p.1 p.2 = 0 := by
    intro p hp
    obtain ⟨h1, h2, h3⟩ := hsound p (hperm.mem_iff.mp hp)
    exact ⟨h1, h2, by rw [cell_of_board_eq hbrd]; exact h3⟩
  have hnd2 : ({ b with empty_slots := sortDesc (candCount b) b.empty_slots }
      : Board).empty_slots.Nodup := (hperm.nodup_iff).mpr hnd
  obtain ⟨g1, g2, g3, g4, g5, g6, g7, g8⟩ :=
    aux_inv _ { b with empty_slots := sortDesc (candCount b) b.empty_slots } _ _ _
      hsR hvR hlegR hsound2 hnd2 h hres2
  have g7b : ∀ r2 c2, cell b2 r2 c2 = 0 → cell b r2 c2 = 0 := by
    intro r2 c2 hz
    have := g7 r2 c2 hz
    rw [cell_of_board_eq hbrd] at this
    exact this
  refine ⟨⟨g1, g2, g5, g4, ?hexact2⟩, g3, ?ext, g7b, ?len⟩
  case hexact2 =>
    intro r hr c hc hz
    have hzb : cell b r c = 0 := g7b r c hz
    have hmem : (r, c) ∈ b.empty_slots := hexact r hr c hc hzb
    apply g8 (r, c)
    · exact hperm.mem_iff.mpr hmem
    · exact hz
  case ext =>
    exact (Extends_congr_left hbrd).mp g6
  case len =>
    have hl := (aux_length _ _ _ _ _ h).1
    calc b2.empty_slots.length
        ≤ (sortDesc (candCount b) b.empty_slots).length := hl
      _ = b.empty_slots.length := hperm.length_eq

/-- An UPDATE answer of simple_fill strictly shrinks empty_slots. -/
theorem simple_fill_update_lt {b b2 : Board}
    (h : simple_fill b = (SolverResults.UPDATE, b2)) :
    b2.empty_slots.length < b.empty_slots.length := by
  rw [simple_fill_eq] at h
  have hperm := sortDesc_perm (candCount b) b.empty_slots
  have := (aux_length _ _ _ _ _ h).2.1 rfl
  rcases this with h2 | h2
  · exact absurd h2 (by simp)
  · calc b2.empty_slots.length
        < (sortDesc (candCount b) b.empty_slots).length := by simpa using h2
      _ = b.empty_slots.length := hperm.length_eq

/-- A NO_UPDATE answer of simple_fill only sorted the list. -/
theorem simple_fill_noup_eq {b b2 : Board}
    (h : simple_fill b = (SolverResults.NO_UPDATE, b2)) :
    b2 = { b with empty_slots := sortDesc (candCount b) b.empty_slots } := by
  rw [simple_fill_eq] at h
  exact aux_noup _ _ _ h

/-- simple_fill cannot fail on a completable board and keeps every completion. -/
theorem simple_fill_comp {b S : Board} (hs : Shaped b) (hv : CellsValid b)
    (hsound : ∀ p ∈ b.empty_slots, p.1 < 9 ∧ p.2 < 9 ∧ cell b p.1 p.2 = 0)
    (hnd : b.empty_slots.Nodup) (hcomp : Completes S b)
    {res2 : SolverResults} {b2 : Board} (h : simple_fill b = (res2, b2)) :
    res2 ≠ SolverResults.CONFLICT ∧ Completes S b2 := by
  rw [simple_fill_eq] at h
  have hperm := sortDesc_perm (candCount b) b.empty_slots
  have hbrd : ({ b with empty_slots := sortDesc (candCount b) b.empty_slots }
      : Board).board = b.board := rfl
  have hsound2 : ∀ p ∈ ({ b with empty_slots := sortDesc (candCount b) b.empty_slots }
      : Board).empty_slots,
      p.1 < 9 ∧ p.2 < 9 ∧
        cell { b with empty_slots := sortDesc (candCount b) b.empty_slots } p.1 p.2 = 0 := by
    intro p hp
    obtain ⟨h1, h2, h3⟩ := hsound p (hperm.mem_iff.mp hp)
    exact ⟨h1, h2, by rw [cell_of_board_eq hbrd]; exact h3⟩
  exact aux_comp _ { b with empty_slots := sortDesc (candCount b) b.empty_slots }
    SolverResults.NO_UPDATE S _ _
    ((Shaped_of_board_eq hbrd).mpr hs)
    ((CellsValid_of_board_eq hbrd).mpr hv)
    hsound2
    ((hperm.nodup_iff).mpr hnd)
    ((Completes_of_board_eq hbrd).mpr hcomp) (by simp) h

/-- When simple_fill fails, the returned board has an unfilled zero-candidate
cell missing from its empty-slot list. -/
theorem simple_fill_conflict {b b2 : Board}
    (hsound : ∀ p ∈ b.empty_slots, p.1 < 9 ∧ p.2 < 9 ∧ cell b p.1 p.2 = 0)
    (hnd : b.empty_slots.Nodup)
    (h : simple_fill b = (SolverResults.CONFLICT, b2)) :
    ∃ r c, r < 9 ∧ c < 9 ∧ cell b2 r c = 0 ∧
      popcount (slot_candidates b2 r c) = 0 ∧ (r, c) ∉ b2.empty_slots := by
  rw [simple_fill_eq] at h
  have hperm := sortDesc_perm (candCount b) b.empty_slots
  have hbrd : ({ b with empty_slots := sortDesc (candCount b) b.empty_slots }
      : Board).board = b.board := rfl
  have hsound2 : ∀ p ∈ ({ b with empty_slots := sortDesc (candCount b) b.empty_slots }
      : Board).empty_slots,
      p.1 < 9 ∧ p.2 < 9 ∧
        cell { b with empty_slots := sortDesc (candCount b) b.empty_slots } p.1 p.2 = 0 := by
    intro p hp
    obtain ⟨h1, h2, h3⟩ := hsound p (hperm.mem_iff.mp hp)
    exact ⟨h1, h2, by rw [cell_of_board_eq hbrd]; exact h3⟩
  exact aux_conflict _ { b with empty_slots := sortDesc (candCount b) b.empty_slots }
    SolverResults.NO_UPDATE _ hsound2 ((hperm.nodup_iff).mpr hnd) (by simp) h

/-!  The propagation fixpoint loop of solver. -/

/-- Any fuel above the empty-slot count yields the same fixpoint: every UPDATE
round strictly shrinks the list, so the loop ends before the fuel does. -/
theorem fill_loop_stable : ∀ f g (b : Board), b.empty_slots.length < f →
    b.empty_slots.length < g → fill_loop f b = fill_loop g b := by
  intro f
  induction f with
  | zero =>
    intro g b hf hg
    exact absurd hf (Nat.not_lt_zero _)
  | succ f ih =>
    intro g b hf hg
    cases g with
    | zero => exact absurd hg (Nat.not_lt_zero _)
    | succ g2 =>
      unfold fill_loop
      rcases hsf : simple_fill b with ⟨res, b2⟩
      cases res with
      | UPDATE =>
        simp only
        apply ih
        · have := simple_fill_update_lt hsf
          omega
        · have := simple_fill_update_lt hsf
          omega
      | NO_UPDATE => simp only
      | CONFLICT => simp only
      | ALL_DONE => simp only

/-- The loop never answers UPDATE when given enough fuel. -/
theorem fill_loop_ne_update : ∀ f (b : Board), b.empty_slots.length < f →
    (fill_loop f b).1 ≠ SolverResults.UPDATE := by
  intro f
  induction f with
  | zero =>
    intro b hf
    exact absurd hf (Nat.not_lt_zero _)
  | succ f ih =>
    intro b hf
    unfold fill_loop
    rcases hsf : simple_fill b with ⟨res, b2⟩
    cases res with
    | UPDATE =>
      simp only
      apply ih
      have := simple_fill_update_lt hsf
      omega
    | NO_UPDATE => simp
    | CONFLICT => simp
    | ALL_DONE => simp

/-- Invariants, legality, extension, empty-monotonicity and the length bound
survive the whole propagation loop on every non-CONFLICT outcome. -/
theorem fill_loop_inv : ∀ f (b : Board) fr b1, BInv b → is_legal b = true →
    fill_loop f b = (fr, b1) → fr ≠ SolverResults.CONFLICT →
    BInv b1 ∧ is_legal b1 = true ∧ Extends b b1 ∧
    (∀ r2 c2, cell b1 r2 c2 = 0 → cell b r2 c2 = 0) ∧
    b1.empty_slots.length ≤ b.empty_slots.length := by
  intro f
  induction f with
  | zero =>
    intro b fr b1 hb hleg h hfr
    unfold fill_loop at h
    have := (Prod.mk.injEq .. ▸ h).1
    obtain ⟨rfl, rfl⟩ := Prod.mk.injEq .. ▸ h
    exact ⟨hb, hleg, Extends_refl b, fun _ _ hz => hz, Nat.le_refl _⟩
  | succ f ih =>
    intro b fr b1 hb hleg h hfr
    unfold fill_loop at h
    rcases hsf : simple_fill b with ⟨res, b2⟩
    rw [hsf] at h
    cases res with
    | UPDATE =>
      simp only at h
      obtain ⟨i1, i2, i3, i4, i5⟩ := simple_fill_inv hb hleg hsf (by simp)
      obtain ⟨j1, j2, j3, j4, j5⟩ := ih b2 fr b1 i1 i2 h hfr
      exact ⟨j1, j2, Extends_trans i3 j3, fun r2 c2 hz => i4 r2 c2 (j4 r2 c2 hz),
        Nat.le_trans j5 i5⟩
    | NO_UPDATE =>
      simp only at h
      obtain ⟨rfl, rfl⟩ := Prod.mk.injEq .. ▸ h
      obtain ⟨i1, i2, i3, i4, i5⟩ := simple_fill_inv hb hleg hsf (by simp)
      exact ⟨i1, i2, i3, i4, i5⟩
    | CONFLICT =>
      simp only at h
      obtain ⟨rfl, rfl⟩ := Prod.mk.injEq .. ▸ h
      exact absurd rfl hfr
    | ALL_DONE =>
      simp only at h
      obtain ⟨rfl, rfl⟩ := Prod.mk.injEq .. ▸ h
      obtain ⟨i1, i2, i3, i4, i5⟩ := simple_fill_inv hb hleg hsf (by simp)
      exact ⟨i1, i2, i3, i4, i5⟩

/-- The loop cannot fail on a completable board and keeps every completion. -/
theorem fill_loop_comp : ∀ f (b S : Board) fr b1, BInv b → is_legal b = true →
    Completes S b →
    fill_loop f b = (fr, b1) →
    fr ≠ SolverResults.CONFLICT ∧ Completes S b1 := by
  intro f
  induction f with
  | zero =>
    intro b S fr b1 hb hleg hcomp h
    unfold fill_loop at h
    obtain ⟨rfl, rfl⟩ := Prod.mk.injEq .. ▸ h
    exact ⟨by simp, hcomp⟩
  | succ f ih =>
    intro b S fr b1 hb hleg hcomp h
    unfold fill_loop at h
    rcases hsf : simple_fill b with ⟨res, b2⟩
    rw [hsf] at h
    obtain ⟨hs, hv, hnd, hsound, hexact⟩ :
        Shaped b ∧ CellsValid b ∧ b.empty_slots.Nodup ∧
        (∀ p ∈ b.empty_slots, p.1 < 9 ∧ p.2 < 9 ∧ cell b p.1 p.2 = 0) ∧
        (∀ r, r < 9 → ∀ c, c < 9 → cell b r c = 0 → (r, c) ∈ b.empty_slots) := by
      obtain ⟨h1, h2, h3, h4, h5⟩ := hb
      exact ⟨h1, h2, h3, h4, h5⟩
    have hcompn := simple_fill_comp hs hv hsound hnd hcomp hsf
    cases res with
    | UPDATE =>
      simp only at h
      obtain ⟨i1, i2, _, _, _⟩ := simple_fill_inv hb hleg hsf (by simp)
      exact ih b2 S fr b1 i1 i2 hcompn.2 h
    | NO_UPDATE =>
      simp only at h
      obtain ⟨rfl, rfl⟩ := Prod.mk.injEq .. ▸ h
      exact ⟨by simp, hcompn.2⟩
    | CONFLICT =>
      exact absurd rfl hcompn.1
    | ALL_DONE =>
      simp only at h
      obtain ⟨rfl, rfl⟩ := Prod.mk.injEq .. ▸ h
      exact ⟨by simp, hcompn.2⟩

/-!  is_done, clone, sync_to and candidate enumeration. -/

/-- Membership of the row group. -/
theorem rowCoords_mem {r : Nat} {p : Nat × Nat} :
    p ∈ rowCoords r ↔ p.1 = r ∧ p.2 < 9 := by
  unfold rowCoords
  rw [List.mem_map]
  constructor
  · rintro ⟨c, hc, rfl⟩
    exact ⟨rfl, by simpa using hc⟩
  · intro ⟨h1, h2⟩
    exact ⟨p.2, by simpa using h2, by rw [← h1]⟩

/-- countP equals length exactly when every member satisfies the predicate. -/
theorem countP_eq_length_iff {l : List Nat} {p : Nat → Bool} :
    l.countP p = l.length ↔ ∀ a ∈ l, p a = true := List.countP_eq_length

/-- A legal done board is fully filled. -/
theorem is_done_full {b : Board} (hb : BInv b) (hleg : is_legal b = true)
    (hd : is_done b = true) : Full b := by
  obtain ⟨hs, hv, _⟩ := hb
  intro r hr c hc
  unfold is_done at hd
  rw [List.all_eq_true] at hd
  have hrow := hd r (by simpa using hr)
  rw [beq_iff_eq] at hrow
  have hlegr : legalList (grpMasks b (rowCoords r)) :=
    (is_legal_iff hs hv).mp hleg _ (row_mem_allGroups r hr)
  unfold legalList at hlegr
  unfold combineOf at hrow
  rw [hrow] at hlegr
  have h9 : specPop FULL_MASK = 9 := by decide
  rw [h9] at hlegr
  have hlen : (grpMasks b (rowCoords r)).length = 9 := by
    unfold grpMasks rowCoords
    simp
  have hall : ∀ a ∈ grpMasks b (rowCoords r), (a != 0) = true := by
    rw [← countP_eq_length_iff]
    omega
  have hmem : cell b r c ∈ grpMasks b (rowCoords r) :=
    List.mem_map.mpr ⟨(r, c), rowCoords_mem.mpr ⟨rfl, hc⟩, rfl⟩
  have := hall _ hmem
  simpa using this

/-- A legal fully filled board is done. -/
theorem full_is_done {b : Board} (hb : BInv b) (hleg : is_legal b = true)
    (hf : Full b) : is_done b = true := by
  obtain ⟨hs, hv, _⟩ := hb
  unfold is_done
  rw [List.all_eq_true]
  intro r hrm
  rw [List.mem_range] at hrm
  rw [beq_iff_eq]
  have hlegr : legalList (grpMasks b (rowCoords r)) :=
    (is_legal_iff hs hv).mp hleg _ (row_mem_allGroups r hrm)
  unfold legalList at hlegr
  have hlen : (grpMasks b (rowCoords r)).length = 9 := by
    unfold grpMasks rowCoords
    simp
  have hall : ∀ a ∈ grpMasks b (rowCoords r), (a != 0) = true := by
    intro a ha
    obtain ⟨p, hp, rfl⟩ := List.mem_map.mp ha
    obtain ⟨hp1, hp2⟩ := rowCoords_mem.mp hp
    have := hf p.1 (by omega) p.2 hp2
    simpa using this
  have hcount : (grpMasks b (rowCoords r)).countP (fun m => m != 0) = 9 := by
    rw [countP_eq_length_iff.mpr hall]
    exact hlen
  rw [hcount] at hlegr
  unfold combineOf
  have hlt : orAll (grpMasks b (rowCoords r)) < 512 := combineOf_lt hs hv _
  exact specPop_nine _ hlt hlegr

/-- The value-level clone is the identity on board values. -/
theorem clone_eq (b : Board) : clone b = b := by
  unfold clone
  have h1 : b.board.map (fun row => row.map (fun m => m)) = b.board := by
    have : ∀ row : List Nat, row.map (fun m => m) = row := fun row => List.map_id' row
    simp [this]
  have h2 : b.empty_slots.map (fun p => p) = b.empty_slots := List.map_id' _
  rw [h1, h2]

/-- The value-level sync makes the target show exactly the reference state. -/
theorem sync_to_eq (a b : Board) : sync_to a b = b := rfl

/-- The candidate iterator yields exactly the set bits, as single-bit masks. -/
theorem candList_mem {m cand : Nat} :
    cand ∈ candList m ↔ ∃ i, i < 9 ∧ m.testBit i = true ∧ cand = 1 <<< i := by
  unfold candList
  rw [List.mem_filterMap]
  constructor
  · rintro ⟨i, hi, hsome⟩
    rw [List.mem_range] at hi
    by_cases hb : m.testBit i
    · rw [if_pos hb] at hsome
      exact ⟨i, hi, hb, (Option.some.injEq .. ▸ hsome).symm⟩
    · rw [if_neg hb] at hsome
      exact absurd hsome (by simp)
  · rintro ⟨i, hi, hb, rfl⟩
    exact ⟨i, by simpa using hi, by rw [if_pos hb]⟩

/-- simple_fill never answers ALL_DONE. -/
theorem simple_fill_ne_alldone {b b2 : Board} {res : SolverResults}
    (h : simple_fill b = (res, b2)) : res ≠ SolverResults.ALL_DONE := by
  rw [simple_fill_eq] at h
  rcases (aux_length _ _ _ _ _ h).2.2 with h2 | h2 | h2 <;> simp [h2]

/-- The propagation loop never answers ALL_DONE. -/
theorem fill_loop_ne_alldone : ∀ f (b : Board),
    (fill_loop f b).1 ≠ SolverResults.ALL_DONE := by
  intro f
  induction f with
  | zero =>
    intro b
    simp [fill_loop]
  | succ f ih =>
    intro b
    unfold fill_loop
    rcases hsf : simple_fill b with ⟨res, b2⟩
    have := simple_fill_ne_alldone hsf
    cases res with
    | UPDATE => exact ih b2
    | NO_UPDATE => simp
    | CONFLICT => simp
    | ALL_DONE => exact absurd rfl this

/-- Specification of the candidate loop of solver: when every child call
answers and is classified by the ALL_DONE criterion, the loop answers; an
ALL_DONE answer carries the finished board of some child, and a completable
child forces ALL_DONE. -/
theorem try_cands_spec (solve : Board → Option (SolverResults × Board))
    (b2 : Board) (r c : Nat) :
    ∀ (cands : List Nat) (last : SolverResults),
    (∀ cand ∈ cands, ∃ res g2,
      solve (setCell (clone b2) r c cand) = some (res, g2) ∧
      (res = SolverResults.ALL_DONE →
        BInv g2 ∧ is_legal g2 = true ∧ Full g2 ∧
          Extends (setCell (clone b2) r c cand) g2) ∧
      (res = SolverResults.ALL_DONE ↔
        ∃ S, Completes S (setCell (clone b2) r c cand))) →
    last ≠ SolverResults.ALL_DONE →
    ∃ res b3, try_cands solve b2 r c cands last = some (res, b3) ∧
      (res = SolverResults.ALL_DONE →
        ∃ cand ∈ cands, BInv b3 ∧ is_legal b3 = true ∧ Full b3 ∧
          Extends (setCell (clone b2) r c cand) b3) ∧
      ((∃ cand ∈ cands, ∃ S, Completes S (setCell (clone b2) r c cand)) →
        res = SolverResults.ALL_DONE) := by
  intro cands
  induction cands with
  | nil =>
    intro last hchild hlast
    refine ⟨last, b2, rfl, ?b, ?c⟩
    case b =>
      intro h
      exact absurd h hlast
    case c =>
      rintro ⟨cand, hc, _⟩
      exact absurd hc (by simp)
  | cons cand rest ih =>
    intro last hchild hlast
    obtain ⟨res0, g2, hsolve, hgood, hiff⟩ := hchild cand (by simp)
    have hstep : try_cands solve b2 r c (cand :: rest) last
        = if res0 = SolverResults.ALL_DONE then
            some (SolverResults.ALL_DONE, sync_to b2 g2)
          else try_cands solve b2 r c rest res0 := by
      conv_lhs => unfold try_cands
      rw [hsolve]
    rw [hstep]
    by_cases hres0 : res0 = SolverResults.ALL_DONE
    · rw [if_pos hres0]
      subst hres0
      refine ⟨_, _, rfl, ?b, fun _ => rfl⟩
      intro _
      refine ⟨cand, by simp, ?rgood⟩
      rw [sync_to_eq]
      exact hgood rfl
    · rw [if_neg hres0]
      obtain ⟨res, b3, hrun, hb, hc⟩ :=
        ih res0 (fun cand2 h2 => hchild cand2 (by simp [h2])) hres0
      refine ⟨res, b3, hrun, ?b2c, ?c2c⟩
      case b2c =>
        intro hres
        obtain ⟨cand2, hc2, hrest⟩ := hb hres
        exact ⟨cand2, by simp [hc2], hrest⟩
      case c2c =>
        rintro ⟨cand2, hc2, S, hS⟩
        rcases List.mem_cons.mp hc2 with rfl | hc3
        · exact absurd (hiff.mpr ⟨S, hS⟩) hres0
        · exact hc ⟨cand2, hc3, S, hS⟩

/-- Master correctness of the recursive solver: with fuel above the empty-slot
count and a legal invariant board, the solver answers; an ALL_DONE answer is a
fully filled legal extension of the input, and ALL_DONE is answered exactly
when the input has a valid completion. -/
theorem solver_master : ∀ f (b : Board), BInv b → is_legal b = true →
    b.empty_slots.length < f →
    ∃ res b2, solver_fuel f b = some (res, b2) ∧
      (res = SolverResults.ALL_DONE →
        BInv b2 ∧ is_legal b2 = true ∧ Full b2 ∧ Extends b b2) ∧
      (res = SolverResults.ALL_DONE ↔ ∃ S, Completes S b) := by
  intro f
  induction f with
  | zero =>
    intro b _ _ h
    exact absurd h (Nat.not_lt_zero _)
  | succ f ih =>
    intro b hb hleg hlen
    rcases hfl : fill_loop (b.empty_slots.length + 1) b with ⟨fr, b1⟩
    have hfrU : fr ≠ SolverResults.UPDATE := by
      have := fill_loop_ne_update (b.empty_slots.length + 1) b (by omega)
      rw [hfl] at this
      exact this
    have hfrA : fr ≠ SolverResults.ALL_DONE := by
      have := fill_loop_ne_alldone (b.empty_slots.length + 1) b
      rw [hfl] at this
      exact this
    cases fr with
    | UPDATE => exact absurd rfl hfrU
    | ALL_DONE => exact absurd rfl hfrA
    | CONFLICT =>
      have hstep : solver_fuel (f + 1) b = some (SolverResults.CONFLICT, b1) := by
        conv_lhs => unfold solver_fuel
        rw [hfl]
      refine ⟨SolverResults.CONFLICT, b1, hstep, ?good, ?iff⟩
      case good =>
        intro h
        exact absurd h (by simp)
      case iff =>
        constructor
        · intro h
          exact absurd h (by simp)
        · rintro ⟨S, hS⟩
          have := (fill_loop_comp _ b S _ _ hb hleg hS hfl).1
          exact absurd rfl this
    | NO_UPDATE =>
      obtain ⟨hbinv1, hleg1, hext1, hmono1, hlen1⟩ :=
        fill_loop_inv _ b _ b1 hb hleg hfl (by simp)
      by_cases hdone : is_done b1 = true
      · have hstep : solver_fuel (f + 1) b = some (SolverResults.ALL_DONE, b1) := by
          conv_lhs => unfold solver_fuel
          rw [hfl]
          simp only [hdone, if_true]
        have hfull := is_done_full hbinv1 hleg1 hdone
        refine ⟨SolverResults.ALL_DONE, b1, hstep, ?good, ?iff⟩
        case good =>
          intro _
          exact ⟨hbinv1, hleg1, hfull, hext1⟩
        case iff =>
          constructor
          · intro _
            exact ⟨b1, hbinv1.1, hbinv1.2.1, hfull, hleg1, hext1⟩
          · intro _
            rfl
      · cases hpop : popLast b1.empty_slots with
        | none =>
          exfalso
          have hnil : b1.empty_slots = [] := popLast_none_iff.mp hpop
          have hfull : Full b1 := by
            intro r hr c hc hz
            have := hbinv1.2.2.2.2 r hr c hc hz
            rw [hnil] at this
            exact absurd this (by simp)
          exact hdone (full_is_done hbinv1 hleg1 hfull)
        | some x =>
          obtain ⟨⟨r, c⟩, rest⟩ := x
          have hstep : solver_fuel (f + 1) b
              = try_cands (solver_fuel f) { b1 with empty_slots := rest } r c
                  (candList (slot_candidates { b1 with empty_slots := rest } r c))
                  SolverResults.NO_UPDATE := by
            conv_lhs => unfold solver_fuel
            rw [hfl]
            simp only
            rw [if_neg hdone]
            rw [hpop]
          have hsplit := popLast_some hpop
          have hrc : (r, c) ∈ b1.empty_slots := by
            rw [hsplit]
            simp
          obtain ⟨hr, hc, hempty⟩ := hbinv1.2.2.2.1 (r, c) hrc
          have hnr : (r, c) ∉ rest := (nodup_split hsplit hbinv1.2.2.1).1
          have hndrest : rest.Nodup := (List.nodup_append.mp
            (hsplit ▸ hbinv1.2.2.1)).1
          have hbrd : ({ b1 with empty_slots := rest } : Board).board = b1.board := rfl
          have hsB2 : Shaped { b1 with empty_slots := rest } :=
            (Shaped_of_board_eq hbrd).mpr hbinv1.1
          have hvB2 : CellsValid { b1 with empty_slots := rest } :=
            (CellsValid_of_board_eq hbrd).mpr hbinv1.2.1
          have hemptyB2 : cell { b1 with empty_slots := rest } r c = 0 := by
            rw [cell_of_board_eq hbrd]
            exact hempty
          have hcandeq : slot_candidates { b1 with empty_slots := rest } r c
              = slot_candidates b1 r c := slot_candidates_of_board_eq hbrd r c
          have hlenrest : rest.length < f := by
            have : b1.empty_slots.length = rest.length + 1 := by
              rw [hsplit]
              simp
            omega
          have hchild : ∀ cand ∈ candList
              (slot_candidates { b1 with empty_slots := rest } r c),
              ∃ res g2,
              solver_fuel f (setCell (clone { b1 with empty_slots := rest }) r c cand)
                = some (res, g2) ∧
              (res = SolverResults.ALL_DONE →
                BInv g2 ∧ is_legal g2 = true ∧ Full g2 ∧
                  Extends (setCell (clone { b1 with empty_slots := rest }) r c cand) g2) ∧
              (res = SolverResults.ALL_DONE ↔
                ∃ S, Completes S (setCell (clone { b1 with empty_slots := rest }) r c cand)) := by
            intro cand hcand
            obtain ⟨i, hi, hbit, rfl⟩ := candList_mem.mp hcand
            rw [clone_eq]
            have hbit1 : (slot_candidates b1 r c).testBit i = true := by
              rw [← hcandeq]
              exact hbit
            have hchBoard : (setCell { b1 with empty_slots := rest } r c (1 <<< i)).board
                = (setCell b1 r c (1 <<< i)).board := rfl
            have hchShaped : Shaped (setCell { b1 with empty_slots := rest } r c (1 <<< i)) := by
              rw [Shaped_of_board_eq hchBoard]
              exact Shaped_setCell hbinv1.1 hr _
            have hchValid : CellsValid (setCell { b1 with empty_slots := rest } r c (1 <<< i)) := by
              rw [CellsValid_of_board_eq hchBoard]
              exact CellsValid_setCell hbinv1.2.1 (Or.inr ⟨i, hi, rfl⟩)
            have hchLegal : is_legal (setCell { b1 with empty_slots := rest } r c (1 <<< i)) = true := by
              rw [is_legal_of_board_eq hchBoard]
              exact legal_fill hbinv1.1 hbinv1.2.1 hleg1 hr hc hempty hi hbit1
            have hchCellNe : ∀ p : Nat × Nat, p ≠ (r, c) →
                cell (setCell { b1 with empty_slots := rest } r c (1 <<< i)) p.1 p.2
                  = cell b1 p.1 p.2 := by
              intro p hne
              rw [cell_of_board_eq hchBoard]
              apply cell_setCell_ne
              intro he
              apply hne
              obtain ⟨p1, p2⟩ := p
              simpa using he
            have hchCellSelf : cell (setCell { b1 with empty_slots := rest } r c (1 <<< i)) r c
                = 1 <<< i := by
              rw [cell_of_board_eq hchBoard]
              exact cell_setCell_self hbinv1.1 hr hc _
            have hchInv : BInv (setCell { b1 with empty_slots := rest } r c (1 <<< i)) := by
              refine ⟨hchShaped, hchValid, hndrest, ?sound, ?exact⟩
              case sound =>
                intro p hp
                obtain ⟨h1, h2, h3⟩ := hbinv1.2.2.2.1 p (by rw [hsplit]; exact List.mem_append.mpr (Or.inl hp))
                refine ⟨h1, h2, ?z⟩
                rw [hchCellNe p (fun he => hnr (he ▸ hp))]
                exact h3
              case exact =>
                intro r2 hr2 c2 hc2 hz
                by_cases he : (r2, c2) = (r, c)
                · rw [Prod.mk.injEq] at he
                  obtain ⟨rfl, rfl⟩ := he
                  rw [hchCellSelf] at hz
                  exact absurd hz (one_shiftLeft_ne_zero i)
                · rw [hchCellNe (r2, c2) he] at hz
                  have hmem := hbinv1.2.2.2.2 r2 hr2 c2 hc2 hz
                  rw [hsplit] at hmem
                  rcases List.mem_append.mp hmem with h2 | h2
                  · exact h2
                  · exact absurd (by simpa using h2) he
            have hlenchild : (setCell { b1 with empty_slots := rest } r c (1 <<< i)).empty_slots.length < f := hlenrest
            obtain ⟨res, g2, hrun, hgood, hiff⟩ := ih _ hchInv hchLegal hlenchild
            exact ⟨res, g2, hrun, hgood, hiff⟩
          obtain ⟨res, b3, hrun, hAD, hCompl⟩ := try_cands_spec (solver_fuel f)
            { b1 with empty_slots := rest } r c
            (candList (slot_candidates { b1 with empty_slots := rest } r c))
            SolverResults.NO_UPDATE hchild (by simp)
          rw [← hstep] at hrun
          refine ⟨res, b3, hrun, ?good, ?iff⟩
          case good =>
            intro hres
            obtain ⟨cand, hcmem, hbi3, hleg3, hfull3, hext3⟩ := hAD hres
            obtain ⟨i, hi, hbit, rfl⟩ := candList_mem.mp hcmem
            rw [clone_eq] at hext3
            refine ⟨hbi3, hleg3, hfull3, ?ext⟩
            apply Extends_trans hext1
            apply Extends_trans ?mid hext3
            exact (Extends_congr_right
              (show (setCell { b1 with empty_slots := rest } r c (1 <<< i)).board
                  = (setCell b1 r c (1 <<< i)).board
                from rfl)).mpr (Extends_setCell hempty _)
          case iff =>
            constructor
            · intro hres
              obtain ⟨cand, hcmem, hbi3, hleg3, hfull3, hext3⟩ := hAD hres
              obtain ⟨i, hi, hbit, rfl⟩ := candList_mem.mp hcmem
              rw [clone_eq] at hext3
              refine ⟨b3, hbi3.1, hbi3.2.1, hfull3, hleg3, ?ext2⟩
              apply Extends_trans hext1
              apply Extends_trans ?mid2 hext3
              exact (Extends_congr_right
                (show (setCell { b1 with empty_slots := rest } r c (1 <<< i)).board
                    = (setCell b1 r c (1 <<< i)).board
                  from rfl)).mpr (Extends_setCell hempty _)
            · rintro ⟨S, hS⟩
              have hS1 : Completes S b1 :=
                (fill_loop_comp _ b S _ _ hb hleg hS hfl).2
              have hS2 : Completes S { b1 with empty_slots := rest } :=
                (Completes_of_board_eq hbrd).mpr hS1
              obtain ⟨hsS, hvS, hfS, hlS, hextS⟩ := hS2
              have hSne : cell S r c ≠ 0 := hfS r hr c hc
              obtain ⟨j, hj, hSval⟩ : ∃ j, j < 9 ∧ cell S r c = 1 <<< j := by
                rcases hvS r hr c hc with h0 | hk
                · exact absurd h0 hSne
                · exact hk
              have hbitj : (slot_candidates { b1 with empty_slots := rest } r c).testBit j = true :=
                completion_candidate hsB2 hvB2 hr hc hemptyB2
                  ⟨hsS, hvS, hfS, hlS, hextS⟩ hj hSval
              apply hCompl
              refine ⟨1 <<< j, candList_mem.mpr ⟨j, hj, hbitj, rfl⟩, S, ?comp⟩
              rw [clone_eq]
              exact Completes_setCell hsB2 hr hc ⟨hsS, hvS, hfS, hlS, hextS⟩ hSval

/-- simple_fill never lengthens the empty-slot list. -/
theorem simple_fill_len_le {b b2 : Board} {res : SolverResults}
    (h : simple_fill b = (res, b2)) :
    b2.empty_slots.length ≤ b.empty_slots.length := by
  rw [simple_fill_eq] at h
  have hperm := sortDesc_perm (candCount b) b.empty_slots
  calc b2.empty_slots.length
      ≤ (sortDesc (candCount b) b.empty_slots).length := (aux_length _ _ _ _ _ h).1
    _ = b.empty_slots.length := hperm.length_eq

/-- The propagation loop never lengthens the empty-slot list. -/
theorem fill_loop_len_le : ∀ f (b : Board),
    (fill_loop f b).2.empty_slots.length ≤ b.empty_slots.length := by
  intro f
  induction f with
  | zero =>
    intro b
    simp [fill_loop]
  | succ f ih =>
    intro b
    unfold fill_loop
    rcases hsf : simple_fill b with ⟨res, b2⟩
    have hle := simple_fill_len_le hsf
    cases res with
    | UPDATE => exact Nat.le_trans (ih b2) hle
    | NO_UPDATE => simpa using hle
    | CONFLICT => simpa using hle
    | ALL_DONE => simpa using hle

/-- try_cands only looks at the child solver on the boards it builds. -/
theorem try_cands_congr (solve1 solve2 : Board → Option (SolverResults × Board))
    (b2 : Board) (r c : Nat) : ∀ (cands : List Nat) (last : SolverResults),
    (∀ cand ∈ cands, solve1 (setCell (clone b2) r c cand)
      = solve2 (setCell (clone b2) r c cand)) →
    try_cands solve1 b2 r c cands last = try_cands solve2 b2 r c cands last := by
  intro cands
  induction cands with
  | nil =>
    intro last _
    rfl
  | cons cand rest ih =>
    intro last hagree
    unfold try_cands
    rw [hagree cand (by simp)]
    rcases hs : solve2 (setCell (clone b2) r c cand) with _ | ⟨res, g2⟩
    · rfl
    · simp only
      by_cases hres : res = SolverResults.ALL_DONE
      · rw [if_pos hres, if_pos hres]
      · rw [if_neg hres, if_neg hres]
        exact ih res (fun cand2 h2 => hagree cand2 (by simp [h2]))

/-- One unfolding of solver_fuel. -/
theorem solver_fuel_succ (f : Nat) (b : Board) :
    solver_fuel (f + 1) b =
      match fill_loop (b.empty_slots.length + 1) b with
      | (SolverResults.CONFLICT, b1) => some (SolverResults.CONFLICT, b1)
      | (fr, b1) =>
        if is_done b1 then some (SolverResults.ALL_DONE, b1)
        else match popLast b1.empty_slots with
          | none => none
          | some ((r, c), rest) =>
            try_cands (solver_fuel f) { b1 with empty_slots := rest } r c
              (candList (slot_candidates { b1 with empty_slots := rest } r c)) fr
      := rfl

/-- Any fuel above the number of listed empty slots yields the same solver
answer: the recursion needs one level per empty slot at most, since every
recursive call drops at least one slot from the list. -/
theorem solver_fuel_stable : ∀ f g (b : Board), b.empty_slots.length < f →
    b.empty_slots.length < g → solver_fuel f b = solver_fuel g b := by
  intro f
  induction f with
  | zero =>
    intro g b hf _
    exact absurd hf (Nat.not_lt_zero _)
  | succ f ih =>
    intro g b hf hg
    cases g with
    | zero => exact absurd hg (Nat.not_lt_zero _)
    | succ g2 =>
      rw [solver_fuel_succ f b, solver_fuel_succ g2 b]
      rcases hfl : fill_loop (b.empty_slots.length + 1) b with ⟨fr, b1⟩
      have hb1len : b1.empty_slots.length ≤ b.empty_slots.length := by
        have := fill_loop_len_le (b.empty_slots.length + 1) b
        rw [hfl] at this
        exact this
      cases fr with
      | CONFLICT => rfl
      | UPDATE =>
        simp only
        by_cases hdone : is_done b1
        · rw [if_pos hdone, if_pos hdone]
        · rw [if_neg hdone, if_neg hdone]
          cases hpop : popLast b1.empty_slots with
          | none => rfl
          | some x =>
            obtain ⟨⟨r, c⟩, rest⟩ := x
            simp only
            apply try_cands_congr
            intro cand _
            rw [clone_eq]
            have hrl : b1.empty_slots.length = rest.length + 1 := by
              rw [popLast_some hpop]
              simp
            apply ih
            · show rest.length < f
              omega
            · show rest.length < g2
              omega
      | NO_UPDATE =>
        simp only
        by_cases hdone : is_done b1
        · rw [if_pos hdone, if_pos hdone]
        · rw [if_neg hdone, if_neg hdone]
          cases hpop : popLast b1.empty_slots with
          | none => rfl
          | some x =>
            obtain ⟨⟨r, c⟩, rest⟩ := x
            simp only
            apply try_cands_congr
            intro cand _
            rw [clone_eq]
            have hrl : b1.empty_slots.length = rest.length + 1 := by
              rw [popLast_some hpop]
              simp
            apply ih
            · show rest.length < f
              omega
            · show rest.length < g2
              omega
      | ALL_DONE =>
        simp only
        by_cases hdone : is_done b1
        · rw [if_pos hdone, if_pos hdone]
        · rw [if_neg hdone, if_neg hdone]
          cases hpop : popLast b1.empty_slots with
          | none => rfl
          | some x =>
            obtain ⟨⟨r, c⟩, rest⟩ := x
            simp only
            apply try_cands_congr
            intro cand _
            rw [clone_eq]
            have hrl : b1.empty_slots.length = rest.length + 1 := by
              rw [popLast_some hpop]
              simp
            apply ih
            · show rest.length < f
              omega
            · show rest.length < g2
              omega

/-!  First-iteration analysis of simple_fill. -/

/-- On a NO_UPDATE answer, every listed empty slot has at least two candidates:
the first popped coordinate carries the minimum candidate count and it exceeded
one, since a single candidate would have been filled and zero would have failed. -/
theorem simple_fill_noup_min {b b2 : Board}
    (h : simple_fill b = (SolverResults.NO_UPDATE, b2)) :
    ∀ p ∈ b.empty_slots, 2 ≤ popcount (slot_candidates b p.1 p.2) := by
  intro p hp
  have hsorted := sortDesc_sorted (candCount b) b.empty_slots
  have hperm := sortDesc_perm (candCount b) b.empty_slots
  have hpmem : p ∈ sortDesc (candCount b) b.empty_slots := hperm.mem_iff.mpr hp
  rw [simple_fill_eq] at h
  cases hpop : popLast (sortDesc (candCount b) b.empty_slots) with
  | none =>
    rw [popLast_none_iff.mp hpop] at hpmem
    exact absurd hpmem (by simp)
  | some x =>
    obtain ⟨⟨qr, qc⟩, rest0⟩ := x
    have hsplit := popLast_some hpop
    have hmin := sorted_last_min hsorted hsplit p hpmem
    have hlen : (sortDesc (candCount b) b.empty_slots).length = rest0.length + 1 := by
      rw [hsplit]
      simp
    rw [hlen] at h
    unfold simple_fill_aux at h
    have hpop2 : popLast ({ b with
        empty_slots := sortDesc (candCount b) b.empty_slots } : Board).empty_slots
        = some ((qr, qc), rest0) := hpop
    rw [hpop2] at h
    simp only at h
    have hcb : slot_candidates { b with empty_slots := rest0 } qr qc
        = slot_candidates b qr qc := slot_candidates_of_board_eq rfl qr qc
    by_cases h1 : 1 < popcount (slot_candidates { b with empty_slots := rest0 } qr qc)
    · rw [hcb] at h1
      have : candCount b (qr, qc) ≤ candCount b p := hmin
      unfold candCount at this
      calc (2 : Nat) ≤ popcount (slot_candidates b qr qc) := by omega
        _ ≤ popcount (slot_candidates b p.1 p.2) := this
    · rw [if_neg h1] at h
      by_cases h2 : popcount (slot_candidates { b with empty_slots := rest0 } qr qc) = 1
      · rw [if_pos h2] at h
        rcases (aux_length _ _ _ _ _ h).2.2 with h4 | h4 | h4 <;> simp at h4
      · rw [if_neg h2] at h
        have := (Prod.mk.injEq .. ▸ h).1
        simp at this

/-- A listed zero-candidate slot makes simple_fill fail on its first pop,
before touching the grid: such a slot carries the minimum sort key. -/
theorem simple_fill_conflict_entry {b : Board} {p : Nat × Nat}
    (hp : p ∈ b.empty_slots)
    (hz : popcount (slot_candidates b p.1 p.2) = 0) :
    ∃ b2, simple_fill b = (SolverResults.CONFLICT, b2) ∧ b2.board = b.board := by
  have hsorted := sortDesc_sorted (candCount b) b.empty_slots
  have hperm := sortDesc_perm (candCount b) b.empty_slots
  have hpmem : p ∈ sortDesc (candCount b) b.empty_slots := hperm.mem_iff.mpr hp
  cases hpop : popLast (sortDesc (candCount b) b.empty_slots) with
  | none =>
    rw [popLast_none_iff.mp hpop] at hpmem
    exact absurd hpmem (by simp)
  | some x =>
    obtain ⟨⟨qr, qc⟩, rest0⟩ := x
    have hsplit := popLast_some hpop
    have hmin := sorted_last_min hsorted hsplit p hpmem
    have hq0 : candCount b (qr, qc) = 0 := by
      unfold candCount at hmin ⊢
      omega
    have hlen : (sortDesc (candCount b) b.empty_slots).length = rest0.length + 1 := by
      rw [hsplit]
      simp
    refine ⟨{ b with empty_slots := rest0 }, ?run, rfl⟩
    rw [simple_fill_eq, hlen]
    have hpop2 : popLast ({ b with
        empty_slots := sortDesc (candCount b) b.empty_slots } : Board).empty_slots
        = some ((qr, qc), rest0) := hpop
    have hzq : popcount (slot_candidates { b with
        empty_slots := sortDesc (candCount b) b.empty_slots } qr qc) = 0 := by
      rw [slot_candidates_of_board_eq rfl qr qc]
      exact hq0
    have := aux_conflict_step hpop2 hzq rest0.length SolverResults.NO_UPDATE
    rw [this]

/-!  Claim theorems. -/

/-- C1: on a legal invariant board, solver answers; it answers ALL_DONE exactly
when the board has a valid completion, and then the caller sees a fully
filled, fully legal board extending the input; with no completion the answer
is a non-success status, and an ALL_DONE answer never shows a partially
filled board. -/
theorem C1_solver_correct (b : Board) (hb : BInv b) (hleg : is_legal b = true) :
    ∃ res b2, solver b = some (res, b2) ∧
      ((∃ S, Completes S b) → res = SolverResults.ALL_DONE) ∧
      (res = SolverResults.ALL_DONE →
        Full b2 ∧ is_legal b2 = true ∧ is_done b2 = true ∧ Extends b b2 ∧
          (∃ S, Completes S b)) ∧
      ((∀ S, ¬ Completes S b) → res ≠ SolverResults.ALL_DONE) := by
  obtain ⟨res, b2, hrun, hgood, hiff⟩ :=
    solver_master (b.empty_slots.length + 1) b hb hleg (by omega)
  refine ⟨res, b2, hrun, hiff.mpr, ?good, ?nosol⟩
  case good =>
    intro hres
    obtain ⟨hbi, hlg, hfull, hext⟩ := hgood hres
    exact ⟨hfull, hlg, full_is_done hbi hlg hfull, hext, hiff.mp hres⟩
  case nosol =>
    intro hnone hres
    obtain ⟨S, hS⟩ := hiff.mp hres
    exact hnone S hS

/-- Witness for C1 on a concrete solvable puzzle. -/
theorem C1_solver_correct_witness :
    BInv bW ∧ is_legal bW = true ∧
    (∃ res b2, solver bW = some (res, b2) ∧
      ((∃ S, Completes S bW) → res = SolverResults.ALL_DONE) ∧
      (res = SolverResults.ALL_DONE →
        Full b2 ∧ is_legal b2 = true ∧ is_done b2 = true ∧ Extends bW b2 ∧
          (∃ S, Completes S bW)) ∧
      ((∀ S, ¬ Completes S bW) → res ≠ SolverResults.ALL_DONE)) :=
  ⟨by decide, by decide, C1_solver_correct bW (by decide) (by decide)⟩

/-- C5: a NO_UPDATE answer of simple_fill leaves every cell mask unchanged, and
every remaining empty cell then has at least two candidates. -/
theorem C5_noupdate (b b2 : Board) (hb : BInv b)
    (h : simple_fill b = (SolverResults.NO_UPDATE, b2)) :
    b2.board = b.board ∧
    (∀ r c, r < 9 → c < 9 → cell b2 r c = 0 →
      2 ≤ popcount (slot_candidates b2 r c)) := by
  have hb2 := simple_fill_noup_eq h
  have hbrd : b2.board = b.board := by
    rw [hb2]
  refine ⟨hbrd, ?min⟩
  intro r c hr hc hz
  rw [cell_of_board_eq hbrd] at hz
  have hmem : (r, c) ∈ b.empty_slots := hb.2.2.2.2 r hr c hc hz
  have := simple_fill_noup_min h (r, c) hmem
  rw [slot_candidates_of_board_eq hbrd]
  exact this

/-- Witness for C5 on a concrete stalled puzzle. -/
theorem C5_noupdate_witness :
    BInv bC5 ∧ simple_fill bC5 = (SolverResults.NO_UPDATE, (simple_fill bC5).2) ∧
    ((simple_fill bC5).2.board = bC5.board ∧
    (∀ r c, r < 9 → c < 9 → cell (simple_fill bC5).2 r c = 0 →
      2 ≤ popcount (slot_candidates (simple_fill bC5).2 r c))) :=
  ⟨by decide, by decide, C5_noupdate bC5 (simple_fill bC5).2 (by decide) (by decide)⟩

/-- C6: simple_fill fails exactly on a zero-candidate empty slot.  A listed
zero-candidate slot makes the call fail at once with the grid untouched, and
conversely a CONFLICT answer exhibits an empty zero-candidate cell that was
popped without being assigned and without any further scanning. -/
theorem C6_conflict_zero (b : Board) :
    ((∃ p ∈ b.empty_slots, popcount (slot_candidates b p.1 p.2) = 0) →
      ∃ b2, simple_fill b = (SolverResults.CONFLICT, b2) ∧ b2.board = b.board) ∧
    (BInv b → ∀ b2, simple_fill b = (SolverResults.CONFLICT, b2) →
      ∃ r c, r < 9 ∧ c < 9 ∧ cell b2 r c = 0 ∧
        popcount (slot_candidates b2 r c) = 0 ∧ (r, c) ∉ b2.empty_slots) := by
  constructor
  · rintro ⟨p, hp, hz⟩
    exact simple_fill_conflict_entry hp hz
  · intro hb b2 h
    exact simple_fill_conflict hb.2.2.2.1 hb.2.2.1 h

/-- Witness for C6 on a concrete zero-candidate puzzle. -/
theorem C6_conflict_zero_witness :
    BInv bC3 ∧ ((4, 4) ∈ bC3.empty_slots ∧
      popcount (slot_candidates bC3 4 4) = 0) ∧
    (∃ b2, simple_fill bC3 = (SolverResults.CONFLICT, b2) ∧ b2.board = bC3.board) ∧
    (∃ r c, r < 9 ∧ c < 9 ∧ cell (simple_fill bC3).2 r c = 0 ∧
      popcount (slot_candidates (simple_fill bC3).2 r c) = 0 ∧
      (r, c) ∉ (simple_fill bC3).2.empty_slots) :=
  ⟨by decide, ⟨by decide, by decide⟩,
    (C6_conflict_zero bC3).1 ⟨(4, 4), by decide, by decide⟩,
    (C6_conflict_zero bC3).2 (by decide) (simple_fill bC3).2 (by decide)⟩

/-- C8: the candidate mask is FULL_MASK minus the union of the three covering
combines, which coincides with the bitwise and-not of the union and with the
intersection of the three vacancies. -/
theorem C8_candidates (b : Board) (hs : Shaped b) (hv : CellsValid b)
    (r c : Nat) (hr : r < 9) (hc : c < 9) :
    slot_candidates b r c
      = Nat.ldiff FULL_MASK (combineOf b (rowCoords r)
          ||| combineOf b (colCoords c)
          ||| combineOf b (blockCoords ((r / 3) * 3 + c / 3))) ∧
    slot_candidates b r c
      = Nat.ldiff FULL_MASK (combineOf b (rowCoords r))
          &&& Nat.ldiff FULL_MASK (combineOf b (colCoords c))
          &&& Nat.ldiff FULL_MASK (combineOf b (blockCoords ((r / 3) * 3 + c / 3))) := by
  have hxor := slot_candidates_eq_xor hs hv r c
  have h511 : ∀ i, 9 ≤ i → Nat.testBit 511 i = false := by
    intro i hi
    exact testBit_ge_nine (by norm_num) hi
  have hfm : FULL_MASK = 511 := rfl
  have h512 : (512 : Nat) = 2 ^ 9 := by norm_num
  have hc1 := combineOf_lt hs hv (rowCoords r)
  have hc2 := combineOf_lt hs hv (colCoords c)
  have hc3 := combineOf_lt hs hv (blockCoords ((r / 3) * 3 + c / 3))
  have hor : combineOf b (rowCoords r) ||| combineOf b (colCoords c)
      ||| combineOf b (blockCoords ((r / 3) * 3 + c / 3)) < 512 := by
    rw [h512]
    apply Nat.or_lt_two_pow
    · rw [← h512]
      have := Nat.or_lt_two_pow (h512 ▸ hc1) (h512 ▸ hc2)
      rw [← h512] at this
      exact this
    · rw [← h512]
      exact hc3
  constructor
  · apply Nat.eq_of_testBit_eq
    intro i
    rw [hxor, hfm, Nat.testBit_ldiff, Nat.testBit_xor]
    by_cases hi : i < 9
    · rw [testBit_511 i hi]
      cases hbit : (combineOf b (rowCoords r) ||| combineOf b (colCoords c)
        ||| combineOf b (blockCoords ((r / 3) * 3 + c / 3))).testBit i <;> simp
    · rw [h511 i (by omega), testBit_ge_nine hor (by omega)]
      simp
  · apply Nat.eq_of_testBit_eq
    intro i
    rw [hxor, hfm, Nat.testBit_and, Nat.testBit_and, Nat.testBit_ldiff,
      Nat.testBit_ldiff, Nat.testBit_ldiff, Nat.testBit_xor, Nat.testBit_or,
      Nat.testBit_or]
    by_cases hi : i < 9
    · rw [testBit_511 i hi]
      cases h1 : (combineOf b (rowCoords r)).testBit i <;>
        cases h2 : (combineOf b (colCoords c)).testBit i <;>
        cases h3 : (combineOf b (blockCoords ((r / 3) * 3 + c / 3))).testBit i <;>
        simp
    · rw [h511 i (by omega), testBit_ge_nine hc1 (by omega),
        testBit_ge_nine hc2 (by omega), testBit_ge_nine hc3 (by omega)]
      simp

/-- Witness for C8 on a concrete board and cell. -/
theorem C8_candidates_witness :
    Shaped bC5 ∧ CellsValid bC5 ∧ (5 : Nat) < 9 ∧ (3 : Nat) < 9 ∧
    (slot_candidates bC5 5 3
      = Nat.ldiff FULL_MASK (combineOf bC5 (rowCoords 5)
          ||| combineOf bC5 (colCoords 3)
          ||| combineOf bC5 (blockCoords ((5 / 3) * 3 + 3 / 3))) ∧
    slot_candidates bC5 5 3
      = Nat.ldiff FULL_MASK (combineOf bC5 (rowCoords 5))
          &&& Nat.ldiff FULL_MASK (combineOf bC5 (colCoords 3))
          &&& Nat.ldiff FULL_MASK (combineOf bC5 (blockCoords ((5 / 3) * 3 + 3 / 3)))) :=
  ⟨by decide, by decide, by decide, by decide,
    C8_candidates bC5 (by decide) (by decide) 5 3 (by decide) (by decide)⟩

/-- All 81 grid coordinates, row-major. -/
theorem allPairs_mem {p : Nat × Nat} :
    p ∈ (List.range 9).flatMap (fun r => (List.range 9).map (fun c => (r, c)))
      ↔ p.1 < 9 ∧ p.2 < 9 := by
  rw [List.mem_flatMap]
  constructor
  · rintro ⟨r, hr, hm⟩
    obtain ⟨c, hc, rfl⟩ := List.mem_map.mp hm
    exact ⟨by simpa using hr, by simpa using hc⟩
  · intro ⟨h1, h2⟩
    exact ⟨p.1, by simpa using h1,
      List.mem_map.mpr ⟨p.2, by simpa using h2, rfl⟩⟩

/-- Under the invariant, the empty-slot list length is the number of empty
cells, and it never exceeds 81. -/
theorem emptyCount_eq_length {b : Board} (hb : BInv b) :
    emptyCount b = b.empty_slots.length ∧ b.empty_slots.length ≤ 81 := by
  obtain ⟨_, _, hnd, hsound, hexact⟩ := hb
  have hperm : List.Perm b.empty_slots
      (((List.range 9).flatMap (fun r => (List.range 9).map (fun c => (r, c)))).filter
        (fun p => cell b p.1 p.2 == 0)) := by
    rw [List.perm_ext_iff_of_nodup hnd]
    · intro p
      rw [List.mem_filter, allPairs_mem]
      constructor
      · intro hp
        obtain ⟨h1, h2, h3⟩ := hsound p hp
        exact ⟨⟨h1, h2⟩, by simpa using h3⟩
      · rintro ⟨⟨h1, h2⟩, h3⟩
        exact hexact p.1 h1 p.2 h2 (by simpa using h3)
    · apply List.Nodup.filter
      decide
  have hlen := hperm.length_eq
  constructor
  · rw [emptyCount, List.countP_eq_length_filter, ← hlen]
  · rw [hlen]
    calc (((List.range 9).flatMap
          (fun r => (List.range 9).map (fun c => (r, c)))).filter
        (fun p => cell b p.1 p.2 == 0)).length
        ≤ ((List.range 9).flatMap
            (fun r => (List.range 9).map (fun c => (r, c)))).length :=
          List.length_filter_le _ _
      _ = 81 := by decide

/-- C9: the board handed to each recursive solver call lists strictly fewer
empty slots than the calling board did at entry (the guess fills the popped
cell on the clone and propagation only shrinks the list); under the invariant
the list length is the number of empty cells and is at most 81; and fuel
beyond the empty-slot count never changes the answer, so the recursion depth
is bounded by the number of empty cells. -/
theorem C9_termination :
    (∀ (b : Board) fr b1 r c rest cand,
      fill_loop (b.empty_slots.length + 1) b = (fr, b1) →
      popLast b1.empty_slots = some ((r, c), rest) →
      (setCell (clone { b1 with empty_slots := rest }) r c cand).empty_slots.length
        < b.empty_slots.length) ∧
    (∀ b : Board, BInv b →
      emptyCount b = b.empty_slots.length ∧ b.empty_slots.length ≤ 81) ∧
    (∀ (b : Board) f, b.empty_slots.length < f → solver_fuel f b = solver b) := by
  refine ⟨?dec, ?cnt, ?stab⟩
  case dec =>
    intro b fr b1 r c rest cand hfl hpop
    rw [clone_eq]
    have h1 : b1.empty_slots.length = rest.length + 1 := by
      rw [popLast_some hpop]
      simp
    have h2 : b1.empty_slots.length ≤ b.empty_slots.length := by
      have := fill_loop_len_le (b.empty_slots.length + 1) b
      rw [hfl] at this
      exact this
    show rest.length < b.empty_slots.length
    omega
  case cnt =>
    intro b hb
    exact emptyCount_eq_length hb
  case stab =>
    intro b f hf
    exact solver_fuel_stable f (b.empty_slots.length + 1) b hf (by omega)

/-- Witness for C9 on a concrete stalled puzzle. -/
theorem C9_termination_witness :
    ((setCell (clone { (fill_loop (bC5.empty_slots.length + 1) bC5).2 with
        empty_slots := [(5, 3), (5, 5), (7, 3)] }) 7 5 16).empty_slots.length
      < bC5.empty_slots.length) ∧
    (emptyCount bC5 = bC5.empty_slots.length ∧ bC5.empty_slots.length ≤ 81) ∧
    solver_fuel 5 bC5 = solver bC5 :=
  ⟨C9_termination.1 bC5 (fill_loop (bC5.empty_slots.length + 1) bC5).1
      (fill_loop (bC5.empty_slots.length + 1) bC5).2 7 5 [(5, 3), (5, 5), (7, 3)] 16
      (by decide) (by decide),
    C9_termination.2.1 bC5 (by decide),
    C9_termination.2.2 bC5 5 (by decide)⟩

/-- C2: sync_to shares references instead of copying values.  After
B.sync_to(A), the synced view resolves to the very cell and list objects of A:
writing raw value 1 into cell (0,0) of A is visible through the synced board,
as is an append to the empty-slot list object of A.  This exhibits the
reference-sharing defect at the failing input of two fresh boards. -/
theorem C2_sync_aliasing :
    readCell hsB (idAt bdBsync 0 0) = 0 ∧
    readCell hsWr (idAt bdBsync 0 0) = 1 ∧
    idAt bdBsync 0 0 = idAt bdA 0 0 ∧
    bdBsync.slotsId = bdA.slotsId ∧
    readSlots hsWr bdBsync = [] ∧
    readSlots (appendSlot hsWr bdA.slotsId (0, 0)) bdBsync = [(0, 0)] := by
  decide

/-- One assignment step keeps the invariant and legality. -/
theorem assignStep_preserves {b b2 : Board} (hb : BInv b)
    (hleg : is_legal b = true) (h : AssignStep b b2) :
    BInv b2 ∧ is_legal b2 = true := by
  obtain ⟨r, c, i, hr, hc, hempty, hi, hbit, hboard, hperm⟩ := h
  obtain ⟨hs, hv, hnd, hsound, hexact⟩ :
      Shaped b ∧ CellsValid b ∧ b.empty_slots.Nodup ∧
      (∀ p ∈ b.empty_slots, p.1 < 9 ∧ p.2 < 9 ∧ cell b p.1 p.2 = 0) ∧
      (∀ r2, r2 < 9 → ∀ c2, c2 < 9 → cell b r2 c2 = 0 → (r2, c2) ∈ b.empty_slots) := by
    obtain ⟨h1, h2, h3, h4, h5⟩ := hb
    exact ⟨h1, h2, h3, h4, h5⟩
  have hcell_ne : ∀ p : Nat × Nat, p ≠ (r, c) → cell b2 p.1 p.2 = cell b p.1 p.2 := by
    intro p hne
    rw [cell_of_board_eq hboard]
    apply cell_setCell_ne
    intro he
    apply hne
    obtain ⟨p1, p2⟩ := p
    simpa using he
  have hcell_self : cell b2 r c = 1 <<< i := by
    rw [cell_of_board_eq hboard]
    exact cell_setCell_self hs hr hc _
  refine ⟨⟨?sh, ?cv, ?nd, ?sound, ?exact⟩, ?leg⟩
  case sh =>
    rw [Shaped_of_board_eq hboard]
    exact Shaped_setCell hs hr _
  case cv =>
    rw [CellsValid_of_board_eq hboard]
    exact CellsValid_setCell hv (Or.inr ⟨i, hi, rfl⟩)
  case nd =>
    exact hperm.nodup_iff.mpr (hnd.erase (r, c))
  case sound =>
    intro p hp
    have hpe : p ∈ b.empty_slots.erase (r, c) := hperm.mem_iff.mp hp
    rw [hnd.mem_erase_iff] at hpe
    obtain ⟨hpne, hpb⟩ := hpe
    obtain ⟨h1, h2, h3⟩ := hsound p hpb
    refine ⟨h1, h2, ?z⟩
    rw [hcell_ne p hpne]
    exact h3
  case exact =>
    intro r2 hr2 c2 hc2 hz
    by_cases he : (r2, c2) = (r, c)
    · rw [Prod.mk.injEq] at he
      obtain ⟨rfl, rfl⟩ := he
      rw [hcell_self] at hz
      exact absurd hz (one_shiftLeft_ne_zero i)
    · rw [hcell_ne (r2, c2) he] at hz
      apply hperm.mem_iff.mpr
      rw [hnd.mem_erase_iff]
      exact ⟨he, hexact r2 hr2 c2 hc2 hz⟩
  case leg =>
    rw [is_legal_of_board_eq hboard]
    exact legal_fill hs hv hleg hr hc hempty hi hbit

/-- A reordering step keeps the invariant and legality. -/
theorem permStep_preserves {b b2 : Board} (hb : BInv b)
    (hleg : is_legal b = true) (h : PermStep b b2) :
    BInv b2 ∧ is_legal b2 = true := by
  obtain ⟨hboard, hperm⟩ := h
  obtain ⟨hs, hv, hnd, hsound, hexact⟩ :
      Shaped b ∧ CellsValid b ∧ b.empty_slots.Nodup ∧
      (∀ p ∈ b.empty_slots, p.1 < 9 ∧ p.2 < 9 ∧ cell b p.1 p.2 = 0) ∧
      (∀ r2, r2 < 9 → ∀ c2, c2 < 9 → cell b r2 c2 = 0 → (r2, c2) ∈ b.empty_slots) := by
    obtain ⟨h1, h2, h3, h4, h5⟩ := hb
    exact ⟨h1, h2, h3, h4, h5⟩
  refine ⟨⟨?sh, ?cv, ?nd, ?sound, ?exact⟩, ?leg⟩
  case sh =>
    rw [Shaped_of_board_eq hboard]
    exact hs
  case cv =>
    rw [CellsValid_of_board_eq hboard]
    exact hv
  case nd =>
    exact hperm.nodup_iff.mpr hnd
  case sound =>
    intro p hp
    obtain ⟨h1, h2, h3⟩ := hsound p (hperm.mem_iff.mp hp)
    exact ⟨h1, h2, by rw [cell_of_board_eq hboard]; exact h3⟩
  case exact =>
    intro r2 hr2 c2 hc2 hz
    rw [cell_of_board_eq hboard] at hz
    exact hperm.mem_iff.mpr (hexact r2 hr2 c2 hc2 hz)
  case leg =>
    rw [is_legal_of_board_eq hboard]
    exact hleg

/-- Chains of solving steps keep the invariant and legality. -/
theorem reachable_preserves {b b2 : Board} (hb : BInv b)
    (hleg : is_legal b = true) (h : Reachable b b2) :
    BInv b2 ∧ is_legal b2 = true := by
  induction h with
  | refl => exact ⟨hb, hleg⟩
  | tail _ hstep ih =>
    rcases hstep with hstep | hstep
    · exact assignStep_preserves ih.1 ih.2 hstep
    · exact permStep_preserves ih.1 ih.2 hstep

/-- Every non-CONFLICT run of the fill loop is a chain of assignment steps. -/
theorem aux_steps : ∀ k (b : Board) res res2 b2,
    (∀ p ∈ b.empty_slots, p.1 < 9 ∧ p.2 < 9 ∧ cell b p.1 p.2 = 0) →
    b.empty_slots.Nodup →
    simple_fill_aux k b res = (res2, b2) →
    res2 ≠ SolverResults.CONFLICT →
    Reachable b b2 := by
  intro k
  induction k with
  | zero =>
    intro b res res2 b2 _ _ h _
    obtain ⟨rfl, rfl⟩ := Prod.mk.injEq .. ▸ h
    exact Relation.ReflTransGen.refl
  | succ k ih =>
    intro b res res2 b2 hsound hnodup h hres2
    unfold simple_fill_aux at h
    cases hpop : popLast b.empty_slots with
    | none =>
      rw [hpop] at h
      obtain ⟨rfl, rfl⟩ := Prod.mk.injEq .. ▸ h
      exact Relation.ReflTransGen.refl
    | some x =>
      obtain ⟨⟨r, c⟩, rest⟩ := x
      rw [hpop] at h
      simp only at h
      have hsplit := popLast_some hpop
      have hrc : (r, c) ∈ b.empty_slots := by
        rw [hsplit]
        simp
      obtain ⟨hr, hc, hempty⟩ := hsound (r, c) hrc
      have hnr : (r, c) ∉ rest := (nodup_split hsplit hnodup).1
      have hrestnodup : rest.Nodup := (List.nodup_append.mp (hsplit ▸ hnodup)).1
      have herase : b.empty_slots.erase (r, c) = rest := by
        rw [hsplit, List.erase_append_right _ hnr]
        simp
      by_cases h1 : 1 < popcount (slot_candidates { b with empty_slots := rest } r c)
      · rw [if_pos h1] at h
        obtain ⟨rfl, rfl⟩ := Prod.mk.injEq .. ▸ h
        have hb2 : { b with empty_slots := rest ++ [(r, c)] } = b := by
          rw [← hsplit]
        rw [hb2]
        exact Relation.ReflTransGen.refl
      · rw [if_neg h1] at h
        by_cases h2 : popcount (slot_candidates { b with empty_slots := rest } r c) = 1
        · rw [if_pos h2] at h
          have hcb : slot_candidates { b with empty_slots := rest } r c
              = slot_candidates b r c := slot_candidates_of_board_eq rfl r c
          rw [hcb] at h h2
          obtain ⟨i, hi, hcand⟩ := specPop_one _ (slot_candidates_lt b r c)
            (by rw [← popcount_eq_specPop _ (slot_candidates_lt b r c)]; exact h2)
          rw [hcand] at h
          have hstep : AssignStep b (setCell { b with empty_slots := rest } r c (1 <<< i)) := by
            refine ⟨r, c, i, hr, hc, hempty, hi, ?bit, rfl, ?perm⟩
            case bit =>
              rw [hcand]
              exact testBit_single_self i
            case perm =>
              rw [herase]
              exact List.Perm.refl rest
          have hBcell_ne : ∀ p : Nat × Nat, p ≠ (r, c) →
              cell (setCell { b with empty_slots := rest } r c (1 <<< i)) p.1 p.2
                = cell b p.1 p.2 := by
            intro p hne
            rw [cell_of_board_eq (setCell_board_eq b rest r c (1 <<< i))]
            apply cell_setCell_ne
            intro he
            apply hne
            obtain ⟨p1, p2⟩ := p
            simpa using he
          have hsoundB : ∀ p ∈ (setCell { b with empty_slots := rest } r c (1 <<< i)).empty_slots,
              p.1 < 9 ∧ p.2 < 9 ∧
                cell (setCell { b with empty_slots := rest } r c (1 <<< i)) p.1 p.2 = 0 := by
            intro p hp
            have hpb : p ∈ b.empty_slots := by
              rw [hsplit]
              exact List.mem_append.mpr (Or.inl hp)
            obtain ⟨hb1, hb2, hb3⟩ := hsound p hpb
            refine ⟨hb1, hb2, ?z⟩
            rw [hBcell_ne p (fun he => hnr (he ▸ hp))]
            exact hb3
          have hreach := ih _ _ _ _ hsoundB hrestnodup h hres2
          exact Relation.ReflTransGen.head (Or.inl hstep) hreach
        · rw [if_neg h2] at h
          have := (Prod.mk.injEq .. ▸ h).1
          exact absurd this.symm hres2

/-- Every non-CONFLICT simple_fill call is a chain of solving steps: the sort
is a reordering step and each fill is an assignment step. -/
theorem simple_fill_steps {b : Board} {res : SolverResults} {b2 : Board}
    (hsound : ∀ p ∈ b.empty_slots, p.1 < 9 ∧ p.2 < 9 ∧ cell b p.1 p.2 = 0)
    (hnd : b.empty_slots.Nodup)
    (h : simple_fill b = (res, b2)) (hres : res ≠ SolverResults.CONFLICT) :
    Reachable b b2 := by
  rw [simple_fill_eq] at h
  have hperm := sortDesc_perm (candCount b) b.empty_slots
  have hpstep : PermStep b { b with empty_slots := sortDesc (candCount b) b.empty_slots } :=
    ⟨rfl, hperm⟩
  have hrest : Reachable { b with empty_slots := sortDesc (candCount b) b.empty_slots } b2 := by
    apply aux_steps _ _ _ _ _ ?sound ?nd h hres
    case sound =>
      intro p hp
      obtain ⟨h1, h2, h3⟩ := hsound p (hperm.mem_iff.mp hp)
      exact ⟨h1, h2, h3⟩
    case nd =>
      exact hperm.nodup_iff.mpr hnd
  exact Relation.ReflTransGen.head (Or.inr hpstep) hrest

/-- C4: solving steps preserve legality and the invariant.  Chains of
single-candidate assignments and guess assignments keep every group legal;
every non-CONFLICT simple_fill call is such a chain; and the board built for
each solver guess is itself an assignment step from the stalled board. -/
theorem C4_legality :
    (∀ b b2, BInv b → is_legal b = true → Reachable b b2 →
      BInv b2 ∧ is_legal b2 = true) ∧
    (∀ b res b2, BInv b → simple_fill b = (res, b2) →
      res ≠ SolverResults.CONFLICT → Reachable b b2) ∧
    (∀ b1 r c rest cand, BInv b1 →
      popLast b1.empty_slots = some ((r, c), rest) →
      cand ∈ candList (slot_candidates { b1 with empty_slots := rest } r c) →
      AssignStep b1 (setCell (clone { b1 with empty_slots := rest }) r c cand)) := by
  refine ⟨?pres, ?fills, ?guess⟩
  case pres =>
    intro b b2 hb hleg h
    exact reachable_preserves hb hleg h
  case fills =>
    intro b res b2 hb h hres
    exact simple_fill_steps hb.2.2.2.1 hb.2.2.1 h hres
  case guess =>
    intro b1 r c rest cand hb hpop hcand
    obtain ⟨i, hi, hbit, rfl⟩ := candList_mem.mp hcand
    rw [clone_eq]
    have hsplit := popLast_some hpop
    have hrc : (r, c) ∈ b1.empty_slots := by
      rw [hsplit]
      simp
    obtain ⟨hr, hc, hempty⟩ := hb.2.2.2.1 (r, c) hrc
    have hnr : (r, c) ∉ rest := (nodup_split hsplit hb.2.2.1).1
    have herase : b1.empty_slots.erase (r, c) = rest := by
      rw [hsplit, List.erase_append_right _ hnr]
      simp
    have hcb : slot_candidates { b1 with empty_slots := rest } r c
        = slot_candidates b1 r c := slot_candidates_of_board_eq rfl r c
    rw [hcb] at hbit
    refine ⟨r, c, i, hr, hc, hempty, hi, hbit, rfl, ?perm⟩
    case perm =>
      rw [herase]
      exact List.Perm.refl rest

/-- Witness for C4: a concrete assignment step from the one-hole puzzle to the
solved grid, preserving invariant and legality. -/
theorem C4_legality_witness :
    BInv bC4 ∧ is_legal bC4 = true ∧ AssignStep bC4 bS ∧
    (BInv bS ∧ is_legal bS = true) := by
  have hstep : AssignStep bC4 bS :=
    ⟨0, 0, 4, by decide, by decide, by decide, by decide, by decide, by decide,
      by decide⟩
  exact ⟨by decide, by decide, hstep,
    C4_legality.1 bC4 bS (by decide) (by decide)
      (Relation.ReflTransGen.single (Or.inl hstep))⟩

-- Machinery for set_board_num / gen_board characterization.

theorem zipWith_getD {α β γ : Type} (f : α → β → γ) :
    ∀ (l1 : List α) (l2 : List β) (i : Nat) (d1 : α) (d2 : β) (d : γ),
      i < l1.length → i < l2.length →
      (List.zipWith f l1 l2).getD i d = f (l1.getD i d1) (l2.getD i d2) := by
  intro l1
  induction l1 with
  | nil => intro l2 i d1 d2 d h1 _; exact absurd h1 (by simp)
  | cons a l ih =>
    intro l2 i d1 d2 d h1 h2
    cases l2 with
    | nil => exact absurd h2 (by simp)
    | cons b l2' =>
      cases i with
      | zero => rfl
      | succ i =>
        simp only [List.zipWith, List.getD_cons_succ]
        exact ih l2' i d1 d2 d (by simpa using h1) (by simpa using h2)

theorem collectRow_eq : ∀ (ns ss : List Nat) (r c : Nat), ns.length ≤ ss.length →
    collectRow r c ss ns =
      (List.range ns.length).filterMap
        (fun j => if ns.getD j 1 = 0 then some (r, c + j) else none) := by
  intro ns
  induction ns with
  | nil =>
    intro ss r c _
    cases ss <;> rfl
  | cons n ns' ih =>
    intro ss r c hlen
    cases ss with
    | nil => exact absurd hlen (by simp)
    | cons s ss' =>
      show (if n = 0 then [(r, c)] else []) ++ collectRow r (c + 1) ss' ns' = _
      simp only [List.length_cons]
      rw [List.range_succ_eq_map]
      rw [List.filterMap_cons]
      simp only [List.getD_cons_zero, Nat.add_zero]
      rw [List.filterMap_map]
      have hcomp : ((fun j => if (n :: ns').getD j 1 = 0 then some (r, c + j) else none) ∘ Nat.succ)
          = (fun j => if ns'.getD j 1 = 0 then some (r, (c + 1) + j) else none) := by
        funext j
        simp only [Function.comp, List.getD_cons_succ]
        have : c + (j + 1) = (c + 1) + j := by omega
        rw [this]
      rw [hcomp, ih ss' r (c + 1) (by simpa using hlen)]
      by_cases hn : n = 0
      · rw [if_pos hn, if_pos hn]; rfl
      · rw [if_neg hn, if_neg hn]; rfl

theorem collectEmpties_eq : ∀ (irs brs : List (List Nat)) (r : Nat),
    irs.length ≤ brs.length →
    (∀ i, i < irs.length → (irs.getD i []).length ≤ (brs.getD i []).length) →
    collectEmpties r brs irs =
      (List.range irs.length).flatMap (fun k =>
        (List.range ((irs.getD k []).length)).filterMap
          (fun j => if (irs.getD k []).getD j 1 = 0 then some (r + k, j) else none)) := by
  intro irs
  induction irs with
  | nil =>
    intro brs r _ _
    cases brs <;> rfl
  | cons row irs' ih =>
    intro brs r hlen hrows
    cases brs with
    | nil => exact absurd hlen (by simp)
    | cons rowslot brs' =>
      show collectRow r 0 rowslot row ++ collectEmpties (r + 1) brs' irs' = _
      simp only [List.length_cons]
      rw [List.range_succ_eq_map]
      rw [List.flatMap_cons]
      simp only [List.getD_cons_zero, Nat.add_zero]
      rw [List.flatMap_map]
      have hcomp : (fun a : Nat =>
            (List.range (((row :: irs').getD a.succ []).length)).filterMap
              (fun j => if ((row :: irs').getD a.succ []).getD j 1 = 0 then some (r + a.succ, j) else none))
          = (fun k : Nat =>
            (List.range ((irs'.getD k []).length)).filterMap
              (fun j => if (irs'.getD k []).getD j 1 = 0 then some ((r + 1) + k, j) else none)) := by
        funext k
        simp only [List.getD_cons_succ]
        have hrk : r + k.succ = (r + 1) + k := by omega
        rw [hrk]
      rw [hcomp, ← ih brs' (r + 1) (by simpa using hlen) ?rows]
      case rows =>
        intro i hi
        have := hrows (i + 1) (by simpa using Nat.succ_lt_succ hi)
        simpa using this
      rw [collectRow_eq row rowslot r 0 (hrows 0 (by simp))]
      have hz : (fun j => if row.getD j 1 = 0 then some (r, 0 + j) else none)
          = (fun j => if row.getD j 1 = 0 then some (r, j) else none) := by
        funext j
        rw [Nat.zero_add]
      rw [hz]

theorem getD_map_range {α : Type} (f : Nat → α) {n k : Nat} (h : k < n) (d : α) :
    (((List.range n).map f).getD k d) = f k := by
  rw [List.getD_eq_getElem?_getD, List.getElem?_map, List.getElem?_range h]
  rfl

theorem getD_take {α : Type} (l : List α) {n j : Nat} (h : j < n) (d : α) :
    (l.take n).getD j d = l.getD j d := by
  rw [List.getD_eq_getElem?_getD, List.getD_eq_getElem?_getD, List.getElem?_take]
  rw [if_pos h]

theorem getD_drop {α : Type} (l : List α) (k j : Nat) (d : α) :
    (l.drop k).getD j d = l.getD (k + j) d := by
  rw [List.getD_eq_getElem?_getD, List.getD_eq_getElem?_getD, List.getElem?_drop]

theorem filterMap_congr_mem {α β : Type} {l : List α} {f g : α → Option β}
    (h : ∀ a ∈ l, f a = g a) : l.filterMap f = l.filterMap g := by
  induction l with
  | nil => rfl
  | cons a l ih =>
    rw [List.filterMap_cons, List.filterMap_cons, h a (by simp),
      ih (fun a ha => h a (by simp [ha]))]

theorem flatMap_congr_mem {α β : Type} {l : List α} {f g : α → List β}
    (h : ∀ a ∈ l, f a = g a) : l.flatMap f = l.flatMap g := by
  induction l with
  | nil => rfl
  | cons a l ih =>
    rw [List.flatMap_cons, List.flatMap_cons, h a (by simp),
      ih (fun a ha => h a (by simp [ha]))]

theorem chunk_getD {nums : List Nat} (h81 : nums.length = 81) {k : Nat} (hk : k < 9) :
    (((List.range 9).map (fun i => (nums.drop (i * 9)).take 9)).getD k [])
      = (nums.drop (k * 9)).take 9 :=
  getD_map_range _ hk []

theorem chunk_row_length {nums : List Nat} (h81 : nums.length = 81) {k : Nat}
    (hk : k < 9) : ((nums.drop (k * 9)).take 9).length = 9 := by
  rw [List.length_take, List.length_drop, h81]
  omega

/-- The empty-slot list built by set_board_num on a fresh board from the
row-chunked digit list is exactly the zero coordinates in row-major order. -/
theorem sbn_slots_eq_zeros {nums : List Nat} (h81 : nums.length = 81) :
    (set_board_num freshBoard
      ((List.range 9).map (fun i => (nums.drop (i * 9)).take 9))).empty_slots
      = zerosCoords nums := by
  show collectEmpties 0 freshBoard.board _ = _
  rw [collectEmpties_eq]
  case a => simp [freshBoard]
  case a =>
    intro i hi
    simp only [List.length_map, List.length_range] at hi
    rw [chunk_getD h81 hi, chunk_row_length h81 hi]
    show (9 : Nat) ≤ (freshBoard.board.getD i []).length
    have : freshBoard.board.getD i [] = List.replicate 9 0 := by
      show ((List.replicate 9 (List.replicate 9 0)).getD i []) = _
      rw [List.getD_eq_getElem?_getD, List.getElem?_replicate, if_pos hi]
      rfl
    rw [this]
    simp
  simp only [List.length_map, List.length_range]
  unfold zerosCoords
  apply flatMap_congr_mem
  intro k hk
  have hk9 : k < 9 := List.mem_range.mp hk
  rw [chunk_getD h81 hk9, chunk_row_length h81 hk9]
  apply filterMap_congr_mem
  intro j hj
  have hj9 : j < 9 := List.mem_range.mp hj
  rw [getD_take _ hj9, getD_drop]
  rw [Nat.zero_add]

theorem fresh_row {r : Nat} (hr : r < 9) :
    freshBoard.board.getD r [] = List.replicate 9 0 := by
  show ((List.replicate 9 (List.replicate 9 0)).getD r []) = _
  rw [List.getD_eq_getElem?_getD, List.getElem?_replicate, if_pos hr]
  rfl

theorem setRow_getD {ss ns : List Nat} (h : ns.length ≤ ss.length) {c : Nat}
    (hc : c < ns.length) : (setRow ss ns).getD c 0 = slotOfNum (ns.getD c 0) := by
  unfold setRow
  rw [List.getD_eq_getElem?_getD, List.getElem?_append_left (by
    rw [List.length_zipWith]; omega)]
  rw [← List.getD_eq_getElem?_getD]
  exact zipWith_getD _ ss ns c 0 0 0 (by omega) hc

theorem setRow_length {ss ns : List Nat} (h : ns.length ≤ ss.length) :
    (setRow ss ns).length = ss.length := by
  unfold setRow
  rw [List.length_append, List.length_zipWith, List.length_drop]
  omega

theorem sbn_board_getD {input : List (List Nat)} (h9 : input.length = 9)
    {r : Nat} (hr : r < 9) :
    (set_board_num freshBoard input).board.getD r []
      = setRow (List.replicate 9 0) (input.getD r []) := by
  show ((List.zipWith setRow freshBoard.board input
      ++ freshBoard.board.drop input.length).getD r []) = _
  have hfl : freshBoard.board.length = 9 := by simp [freshBoard]
  rw [List.getD_eq_getElem?_getD, List.getElem?_append_left (by
    rw [List.length_zipWith]; omega)]
  rw [← List.getD_eq_getElem?_getD]
  rw [zipWith_getD setRow freshBoard.board input r [] [] [] (by omega) (by omega)]
  rw [fresh_row hr]

theorem cell_sbn {input : List (List Nat)} (h9 : input.length = 9)
    (hrows : ∀ row ∈ input, row.length = 9) {r c : Nat} (hr : r < 9) (hc : c < 9) :
    cell (set_board_num freshBoard input) r c
      = slotOfNum ((input.getD r []).getD c 0) := by
  have hrow : (input.getD r []).length = 9 := by
    apply hrows
    rw [List.getD_eq_getElem?_getD]
    rw [List.getElem?_eq_getElem (by omega)]
    exact List.getElem_mem _
  show ((set_board_num freshBoard input).board.getD r []).getD c 0 = _
  rw [sbn_board_getD h9 hr]
  exact setRow_getD (by rw [hrow]; simp) (by omega)

theorem Shaped_sbn {input : List (List Nat)} (h9 : input.length = 9)
    (hrows : ∀ row ∈ input, row.length = 9) :
    Shaped (set_board_num freshBoard input) := by
  have hfl : freshBoard.board.length = 9 := by simp [freshBoard]
  have hlen : (set_board_num freshBoard input).board.length = 9 := by
    show (List.zipWith setRow freshBoard.board input
      ++ freshBoard.board.drop input.length).length = 9
    rw [List.length_append, List.length_zipWith, List.length_drop]
    omega
  refine ⟨hlen, ?rows⟩
  intro row hmem
  obtain ⟨i, hi, heq⟩ := List.mem_iff_getElem.mp hmem
  have hi9 : i < 9 := by omega
  have : (set_board_num freshBoard input).board.getD i [] = row := by
    rw [List.getD_eq_getElem?_getD, List.getElem?_eq_getElem hi, heq]
    rfl
  rw [← this, sbn_board_getD h9 hi9]
  have hrow : (input.getD i []).length = 9 := by
    apply hrows
    rw [List.getD_eq_getElem?_getD]
    rw [List.getElem?_eq_getElem (by omega)]
    exact List.getElem_mem _
  rw [setRow_length (by rw [hrow]; simp)]
  simp

theorem getD_default_irrel {α : Type} {l : List α} {j : Nat} (h : j < l.length)
    (d d' : α) : l.getD j d = l.getD j d' := by
  rw [List.getD_eq_getElem?_getD, List.getD_eq_getElem?_getD,
    List.getElem?_eq_getElem h]
  rfl

theorem getD_mem {α : Type} {l : List α} {j : Nat} (h : j < l.length) (d : α) :
    l.getD j d ∈ l := by
  rw [List.getD_eq_getElem?_getD, List.getElem?_eq_getElem h]
  exact List.getElem_mem _

theorem slotOfNum_eq_zero {n : Nat} : slotOfNum n = 0 ↔ n = 0 := by
  unfold slotOfNum
  by_cases h : n = 0
  · simp [h]
  · rw [if_neg h]
    constructor
    · intro hz
      exact absurd hz (by
        have : (1 <<< (n - 1)) ≠ 0 := by
          rw [Nat.shiftLeft_eq, Nat.one_mul]
          exact (Nat.pos_pow_of_pos (n - 1) (by omega)).ne'
        exact this)
    · intro hn; exact absurd hn h

theorem validMask_slotOfNum {n : Nat} (h : n ≤ 9) : validMask (slotOfNum n) := by
  by_cases h0 : n = 0
  · left; rw [h0]; rfl
  · right
    exact ⟨n - 1, by omega, by unfold slotOfNum; rw [if_neg h0]⟩

theorem CellsValid_sbn {input : List (List Nat)} (h9 : input.length = 9)
    (hrows : ∀ row ∈ input, row.length = 9)
    (hnum : ∀ row ∈ input, ∀ n ∈ row, n ≤ 9) :
    CellsValid (set_board_num freshBoard input) := by
  intro r hr c hc
  rw [cell_sbn h9 hrows hr hc]
  have hrmem : input.getD r [] ∈ input := getD_mem (by omega) []
  have hrow : (input.getD r []).length = 9 := hrows _ hrmem
  exact validMask_slotOfNum (hnum _ hrmem _ (getD_mem (by omega) 0))

theorem sbn_slots_general {input : List (List Nat)} (h9 : input.length = 9)
    (hrows : ∀ row ∈ input, row.length = 9) :
    (set_board_num freshBoard input).empty_slots
      = (List.range 9).flatMap (fun k =>
          (List.range 9).filterMap
            (fun j => if (input.getD k []).getD j 1 = 0 then some (k, j) else none)) := by
  show collectEmpties 0 freshBoard.board input = _
  have hgetrow : ∀ i, i < 9 → (input.getD i []).length = 9 := by
    intro i hi
    exact hrows _ (getD_mem (by omega) [])
  rw [collectEmpties_eq]
  case a => simp [freshBoard, h9]
  case a =>
    intro i hi
    rw [h9] at hi
    rw [hgetrow i hi, fresh_row hi]
    simp
  rw [h9]
  apply flatMap_congr_mem
  intro k hk
  have hk9 : k < 9 := List.mem_range.mp hk
  rw [hgetrow k hk9]
  apply filterMap_congr_mem
  intro j _
  rw [Nat.zero_add]

theorem nodup_rowmajor {f : Nat → List (Nat × Nat)} : ∀ n, (∀ k, (f k).Nodup) →
    (∀ k p, p ∈ f k → p.1 = k) → ((List.range n).flatMap f).Nodup := by
  intro n
  induction n with
  | zero => intro _ _; simp
  | succ n ih =>
    intro hnd hfst
    rw [List.range_succ, List.flatMap_append]
    rw [List.nodup_append]
    refine ⟨ih hnd hfst, by simpa using hnd n, ?disj⟩
    intro p hp hp2
    simp only [List.flatMap_cons, List.flatMap_nil, List.append_nil] at hp2
    obtain ⟨k, hk, hpk⟩ := List.mem_flatMap.mp hp
    have h1 := hfst k p hpk
    have h2 := hfst n p hp2
    have hk9 : k < n := List.mem_range.mp hk
    omega

theorem mem_rowmajor {input : List (List Nat)} {p : Nat × Nat} :
    (p ∈ (List.range 9).flatMap (fun k =>
        (List.range 9).filterMap
          (fun j => if (input.getD k []).getD j 1 = 0 then some (k, j) else none)))
      ↔ (p.1 < 9 ∧ p.2 < 9 ∧ (input.getD p.1 []).getD p.2 1 = 0) := by
  constructor
  · intro hp
    obtain ⟨k, hk, hpk⟩ := List.mem_flatMap.mp hp
    obtain ⟨j, hj, hpj⟩ := List.mem_filterMap.mp hpk
    by_cases hz : (input.getD k []).getD j 1 = 0
    · rw [if_pos hz] at hpj
      obtain rfl := Option.some.injEq .. ▸ hpj.symm
      exact ⟨List.mem_range.mp hk, List.mem_range.mp hj, hz⟩
    · rw [if_neg hz] at hpj
      exact absurd hpj (by simp)
  · intro ⟨h1, h2, h3⟩
    apply List.mem_flatMap.mpr
    refine ⟨p.1, List.mem_range.mpr h1, ?_⟩
    apply List.mem_filterMap.mpr
    refine ⟨p.2, List.mem_range.mpr h2, ?_⟩
    rw [if_pos h3]

theorem SlotsExact_sbn {input : List (List Nat)} (h9 : input.length = 9)
    (hrows : ∀ row ∈ input, row.length = 9) :
    SlotsExact (set_board_num freshBoard input) := by
  have hgetrow : ∀ i, i < 9 → (input.getD i []).length = 9 := by
    intro i hi
    exact hrows _ (getD_mem (by omega) [])
  rw [SlotsExact, sbn_slots_general h9 hrows]
  refine ⟨?nodup, ?sound, ?exact⟩
  case nodup =>
    apply nodup_rowmajor
    · intro k
      apply List.Nodup.filterMap ?inj (List.nodup_range 9)
      case inj =>
        intro a a' b hb hb'
        by_cases hz : (input.getD k []).getD a 1 = 0
        · rw [if_pos hz] at hb
          by_cases hz' : (input.getD k []).getD a' 1 = 0
          · rw [if_pos hz'] at hb'
            have e1 : b = (k, a) := by simpa using hb.symm
            have e2 : b = (k, a') := by simpa using hb'.symm
            rw [e1] at e2
            exact (Prod.mk.injEq .. ▸ e2).2
          · rw [if_neg hz'] at hb'
            exact absurd hb' (by simp)
        · rw [if_neg hz] at hb
          exact absurd hb (by simp)
    · intro k p hp
      obtain ⟨j, _, hpj⟩ := List.mem_filterMap.mp hp
      by_cases hz : (input.getD k []).getD j 1 = 0
      · rw [if_pos hz] at hpj
        have : p = (k, j) := by simpa using hpj.symm
        rw [this]
      · rw [if_neg hz] at hpj
        exact absurd hpj (by simp)
  case sound =>
    intro p hp
    obtain ⟨h1, h2, h3⟩ := mem_rowmajor.mp hp
    refine ⟨h1, h2, ?_⟩
    rw [cell_sbn h9 hrows h1 h2, slotOfNum_eq_zero]
    rw [getD_default_irrel (by rw [hgetrow _ h1]; omega) 0 1]
    exact h3
  case exact =>
    intro r hr c hc hcell
    apply mem_rowmajor.mpr
    refine ⟨hr, hc, ?_⟩
    rw [cell_sbn h9 hrows hr hc, slotOfNum_eq_zero] at hcell
    rw [getD_default_irrel (by rw [hgetrow _ hr]; omega) 1 0]
    exact hcell

theorem BInv_sbn {input : List (List Nat)} (h9 : input.length = 9)
    (hrows : ∀ row ∈ input, row.length = 9)
    (hnum : ∀ row ∈ input, ∀ n ∈ row, n ≤ 9) :
    BInv (set_board_num freshBoard input) :=
  ⟨Shaped_sbn h9 hrows, CellsValid_sbn h9 hrows hnum, SlotsExact_sbn h9 hrows⟩

/-- charDigit accepts non-ASCII decimal digits with their values, as int(char)
does, and rejects characters that are numeric but not decimal digits. -/
theorem charDigit_examples :
    charDigit (Char.ofNat 53) = some 5 ∧
    charDigit (Char.ofNat 1637) = some 5 ∧
    charDigit (Char.ofNat 65297) = some 1 ∧
    charDigit (Char.ofNat 178) = none ∧
    charDigit (Char.ofNat 97) = none := by decide

theorem digitsOf_none_iff : ∀ s : List Char,
    digitsOf s = none ↔ ∃ ch ∈ s, charDigit ch = none := by
  intro s
  induction s with
  | nil => simp [digitsOf]
  | cons ch rest ih =>
    show (match charDigit ch with
      | none => none
      | some d =>
        match digitsOf rest with
        | none => none
        | some ds => some (d :: ds)) = none ↔ _
    rcases hch : charDigit ch with _ | d
    · simp only
      constructor
      · intro _; exact ⟨ch, by simp, hch⟩
      · intro _; trivial
    · simp only
      rcases hrest : digitsOf rest with _ | ds
      · simp only
        constructor
        · intro _
          obtain ⟨c, hc, hcd⟩ := ih.mp hrest
          exact ⟨c, by simp [hc], hcd⟩
        · intro _; trivial
      · simp only
        constructor
        · intro h; exact absurd h (by simp)
        · intro ⟨c, hc, hcd⟩
          rcases List.mem_cons.mp hc with rfl | hc2
          · rw [hch] at hcd; exact absurd hcd (by simp)
          · have : digitsOf rest = none := ih.mpr ⟨c, hc2, hcd⟩
            rw [this] at hrest
            exact absurd hrest (by simp)

theorem digitsOf_length : ∀ (s : List Char) (nums : List Nat),
    digitsOf s = some nums → nums.length = s.length := by
  intro s
  induction s with
  | nil =>
    intro nums h
    have : nums = [] := by simpa [digitsOf] using h.symm
    rw [this]; rfl
  | cons ch rest ih =>
    intro nums h
    show nums.length = rest.length + 1
    rcases hch : charDigit ch with _ | d
    · rw [digitsOf, hch] at h
      exact absurd h (by simp)
    · rw [digitsOf, hch] at h
      rcases hrest : digitsOf rest with _ | ds
      · rw [hrest] at h
        exact absurd h (by simp)
      · rw [hrest] at h
        simp only [Option.some.injEq] at h
        rw [← h, List.length_cons, ih ds hrest]

theorem gen_board_eq (input : List Char) :
    gen_board input =
      (if (strip input).length ≠ 81 then Except.error "Incomplete Sudoku map."
       else match digitsOf (strip input) with
        | none => Except.error "Invalid character found."
        | some nums =>
          if is_legal (set_board_num freshBoard
              ((List.range 9).map (fun i => (nums.drop (i * 9)).take 9))) then
            Except.ok (set_board_num freshBoard
              ((List.range 9).map (fun i => (nums.drop (i * 9)).take 9)))
          else Except.error "Illegal Sudoku configuration.") := rfl

theorem strA_ne_strB :
    ("Incomplete Sudoku map." : String) ≠ "Invalid character found." := by decide

theorem strA_ne_strC :
    ("Incomplete Sudoku map." : String) ≠ "Illegal Sudoku configuration." := by decide

theorem strB_ne_strC :
    ("Invalid character found." : String) ≠ "Illegal Sudoku configuration." := by decide

/-- C10: gen_board strips spaces and newlines, then fails exactly on a wrong
length, a non-digit character, or an illegal configuration; on success the
board's empty_slots lists the zero positions in row-major order. -/
theorem C10_gen_board (input : List Char) :
    (gen_board input = Except.error "Incomplete Sudoku map." ↔
      (strip input).length ≠ 81) ∧
    (gen_board input = Except.error "Invalid character found." ↔
      ((strip input).length = 81 ∧ ∃ ch ∈ strip input, charDigit ch = none)) ∧
    (gen_board input = Except.error "Illegal Sudoku configuration." ↔
      ((strip input).length = 81 ∧ ∃ nums, digitsOf (strip input) = some nums ∧
        is_legal (set_board_num freshBoard
          ((List.range 9).map (fun i => (nums.drop (i * 9)).take 9))) = false)) ∧
    (∀ b, gen_board input = Except.ok b →
      ∃ nums, digitsOf (strip input) = some nums ∧ nums.length = 81 ∧
        b = set_board_num freshBoard
          ((List.range 9).map (fun i => (nums.drop (i * 9)).take 9)) ∧
        is_legal b = true ∧ b.empty_slots = zerosCoords nums) := by
  rw [gen_board_eq]
  by_cases hlen : (strip input).length = 81
  · rw [if_neg (by omega)]
    rcases hd : digitsOf (strip input) with _ | nums
    · simp only
      refine ⟨?c1, ?c2, ?c3, ?c4⟩
      case c1 =>
        constructor
        · intro h
          exact absurd (Except.error.injEq .. ▸ h) strA_ne_strB.symm
        · intro h; exact absurd hlen h
      case c2 =>
        constructor
        · intro _
          exact ⟨hlen, (digitsOf_none_iff (strip input)).mp hd⟩
        · intro _; trivial
      case c3 =>
        constructor
        · intro h
          exact absurd (Except.error.injEq .. ▸ h) strB_ne_strC
        · intro ⟨_, nums, hnums, _⟩
          exact absurd hnums (by simp)
      case c4 =>
        intro b h
        exact absurd h (by simp)
    · simp only
      by_cases hleg : is_legal (set_board_num freshBoard
          ((List.range 9).map (fun i => (nums.drop (i * 9)).take 9))) = true
      · rw [if_pos hleg]
        refine ⟨?d1, ?d2, ?d3, ?d4⟩
        case d1 =>
          constructor
          · intro h; exact absurd h (by simp)
          · intro h; exact absurd hlen h
        case d2 =>
          constructor
          · intro h; exact absurd h (by simp)
          · intro ⟨_, hbad⟩
            have : digitsOf (strip input) = none :=
              (digitsOf_none_iff (strip input)).mpr hbad
            rw [hd] at this
            exact absurd this (by simp)
        case d3 =>
          constructor
          · intro h; exact absurd h (by simp)
          · intro ⟨_, nums2, hnums2, hleg2⟩
            have : nums2 = nums := by simpa using hnums2.symm
            rw [this] at hleg2
            rw [hleg] at hleg2
            exact absurd hleg2 (by simp)
        case d4 =>
          intro b h
          have hb : b = set_board_num freshBoard
              ((List.range 9).map (fun i => (nums.drop (i * 9)).take 9)) := by
            simpa using h.symm
          have h81 : nums.length = 81 := by
            rw [digitsOf_length (strip input) nums hd, hlen]
          refine ⟨nums, rfl, h81, hb, ?_, ?_⟩
          · rw [hb]; exact hleg
          · rw [hb]
            exact sbn_slots_eq_zeros h81
      · rw [if_neg hleg]
        refine ⟨?e1, ?e2, ?e3, ?e4⟩
        case e1 =>
          constructor
          · intro h
            exact absurd (Except.error.injEq .. ▸ h) strA_ne_strC.symm
          · intro h; exact absurd hlen h
        case e2 =>
          constructor
          · intro h
            exact absurd (Except.error.injEq .. ▸ h) strB_ne_strC.symm
          · intro ⟨_, hbad⟩
            have : digitsOf (strip input) = none :=
              (digitsOf_none_iff (strip input)).mpr hbad
            rw [hd] at this
            exact absurd this (by simp)
        case e3 =>
          constructor
          · intro _
            exact ⟨hlen, nums, rfl, by simpa using hleg⟩
          · intro _; rfl
        case e4 =>
          intro b h
          exact absurd h (by simp)
  · rw [if_pos (by omega)]
    refine ⟨?f1, ?f2, ?f3, ?f4⟩
    case f1 =>
      constructor
      · intro _; exact hlen
      · intro _; rfl
    case f2 =>
      constructor
      · intro h
        exact absurd (Except.error.injEq .. ▸ h) strA_ne_strB
      · intro ⟨h1, _⟩; exact absurd h1 hlen
    case f3 =>
      constructor
      · intro h
        exact absurd (Except.error.injEq .. ▸ h) strA_ne_strC
      · intro ⟨h1, _⟩; exact absurd h1 hlen
    case f4 =>
      intro b h
      exact absurd h (by simp)

/-- Witness for C10 on a concrete puzzle string. -/
theorem C10_gen_board_witness :
    gen_board strC10 = Except.ok bC5 ∧
    (∃ nums, digitsOf (strip strC10) = some nums ∧ nums.length = 81 ∧
      bC5 = set_board_num freshBoard
        ((List.range 9).map (fun i => (nums.drop (i * 9)).take 9)) ∧
      is_legal bC5 = true ∧ bC5.empty_slots = zerosCoords nums) :=
  ⟨by rfl, (C10_gen_board strC10).2.2.2 bC5 (by rfl)⟩

/-- C3 counterexample: on bC3 simple_fill answers CONFLICT and drops the popped
cell (4, 4) from empty_slots even though its mask is still 0, and solver hands
this broken board back to the caller with its non-success status. -/
theorem C3_counterexample :
    BInv bC3 ∧ is_legal bC3 = true ∧
    (simple_fill bC3).1 = SolverResults.CONFLICT ∧
    cell (simple_fill bC3).2 4 4 = 0 ∧
    ((4, 4) ∉ (simple_fill bC3).2.empty_slots) ∧
    ¬ SlotsExact (simple_fill bC3).2 ∧
    solver bC3 = some (SolverResults.CONFLICT, (simple_fill bC3).2) := by
  refine ⟨by decide, by decide, by decide, by decide, by decide, by decide, by decide⟩

/-- C3 (amended): empty_slots lists exactly the empty cells after set_board_num
on a 9 by 9 input, after clone and sync_to, after every simple_fill that does not
answer CONFLICT, and after a successful solver run; the CONFLICT exit of
simple_fill is excluded, where the popped zero-candidate cell is dropped. -/
theorem C3_amended :
    (∀ input : List (List Nat), input.length = 9 →
       (∀ row ∈ input, row.length = 9) →
       SlotsExact (set_board_num freshBoard input)) ∧
    (∀ b : Board, SlotsExact b → SlotsExact (clone b)) ∧
    (∀ a b : Board, SlotsExact b → SlotsExact (sync_to a b)) ∧
    (∀ (b b2 : Board) (res : SolverResults), BInv b → is_legal b = true →
       simple_fill b = (res, b2) → res ≠ SolverResults.CONFLICT → SlotsExact b2) ∧
    (∀ (b b2 : Board) (res : SolverResults), BInv b → is_legal b = true →
       solver b = some (res, b2) → res = SolverResults.ALL_DONE → SlotsExact b2) := by
  refine ⟨?sbn, ?cl, ?sy, ?sf, ?sv⟩
  case sbn =>
    intro input h9 hrows
    exact SlotsExact_sbn h9 hrows
  case cl =>
    intro b h
    rw [clone_eq]
    exact h
  case sy =>
    intro a b h
    rw [sync_to_eq]
    exact h
  case sf =>
    intro b b2 res hb hleg h hres
    exact (simple_fill_inv hb hleg h hres).1.2.2
  case sv =>
    intro b b2 res hb hleg h hres
    obtain ⟨res2, b3, hrun, hgood, _⟩ :=
      solver_master (b.empty_slots.length + 1) b hb hleg (by omega)
    unfold solver at h
    rw [hrun] at h
    have hp : (res2, b3) = (res, b2) := by simpa using h
    obtain ⟨rfl, rfl⟩ := Prod.mk.injEq .. ▸ hp
    exact (hgood hres).1.2.2

/-- Witness for the amended C3 on a concrete 9 by 9 input grid. -/
theorem C3_amended_witness :
    gridC5.length = 9 ∧ (∀ row ∈ gridC5, row.length = 9) ∧
    SlotsExact (set_board_num freshBoard gridC5) :=
  ⟨by decide, by decide, C3_amended.1 gridC5 (by decide) (by decide)⟩
theorem readCell_write_self {st : PyState} {id : Nat} (h : id < st.cells.length)
    (v : Nat) : readCell (writeCell st id v) id = v :=
  getD_set_self st.cells id v 0 h

theorem readCell_write_ne {st : PyState} {id id2 : Nat} (h : id2 ≠ id) (v : Nat) :
    readCell (writeCell st id2 v) id = readCell st id :=
  getD_set_ne st.cells v 0 h

theorem writeCell_cells_length (st : PyState) (id v : Nat) :
    (writeCell st id v).cells.length = st.cells.length := by
  show (st.cells.set id v).length = _
  exact List.length_set ..

theorem writeCell_lists (st : PyState) (id v : Nat) :
    (writeCell st id v).lists = st.lists := rfl

theorem idAt_newBoard {s : PyState} {r c : Nat} (hr : r < 9) (hc : c < 9) :
    idAt (newBoard s).2 r c = s.cells.length + (9 * r + c) := by
  show (((List.range 9).map (fun r =>
      (List.range 9).map (fun c => s.cells.length + 9 * r + c))).getD r []).getD c 0
      = s.cells.length + (9 * r + c)
  rw [getD_map_range _ hr, getD_map_range _ hc]
  omega

theorem newBoard_cells (s : PyState) :
    (newBoard s).1.cells = s.cells ++ List.replicate 81 0 := rfl

theorem newBoard_lists (s : PyState) :
    (newBoard s).1.lists = s.lists ++ [[]] := rfl

theorem newBoard_slotsId (s : PyState) : (newBoard s).2.slotsId = s.lists.length := rfl

theorem getD_snoc {α : Type} (l : List α) (x : α) (d : α) :
    (l ++ [x]).getD l.length d = x := by
  rw [List.getD_eq_getElem?_getD, List.getElem?_append_right (Nat.le_refl _)]
  simp

theorem subset_flatten_of_mem {α : Type} {l : List (List α)} {x : List α}
    (h : x ∈ l) : x ⊆ l.flatten :=
  fun _ ha => List.mem_flatten.mpr ⟨x, h, ha⟩

theorem foldl_write_lists (tgt val : Nat → Nat) : ∀ (L : List Nat) (st : PyState),
    (L.foldl (fun st i => writeCell st (tgt i) (val i)) st).lists = st.lists := by
  intro L
  induction L with
  | nil => intro st; rfl
  | cons a L ih =>
    intro st
    rw [List.foldl_cons, ih, writeCell_lists]

theorem foldl_write_length (tgt val : Nat → Nat) : ∀ (L : List Nat) (st : PyState),
    (L.foldl (fun st i => writeCell st (tgt i) (val i)) st).cells.length
      = st.cells.length := by
  intro L
  induction L with
  | nil => intro st; rfl
  | cons a L ih =>
    intro st
    rw [List.foldl_cons, ih, writeCell_cells_length]

theorem foldl_write_other (tgt val : Nat → Nat) : ∀ (L : List Nat) (st : PyState)
    (id : Nat), (∀ i ∈ L, tgt i ≠ id) →
    readCell (L.foldl (fun st i => writeCell st (tgt i) (val i)) st) id
      = readCell st id := by
  intro L
  induction L with
  | nil => intro st id _; rfl
  | cons a L ih =>
    intro st id hne
    rw [List.foldl_cons, ih _ _ (fun i hi => hne i (by simp [hi]))]
    exact readCell_write_ne (hne a (by simp)) _

theorem foldl_write_get (tgt val : Nat → Nat) : ∀ (L : List Nat) (st : PyState)
    (i : Nat), i ∈ L → L.Nodup →
    (∀ j ∈ L, ∀ k ∈ L, tgt j = tgt k → j = k) →
    (∀ j ∈ L, tgt j < st.cells.length) →
    readCell (L.foldl (fun st i => writeCell st (tgt i) (val i)) st) (tgt i)
      = val i := by
  intro L
  induction L with
  | nil => intro st i hi; exact absurd hi (by simp)
  | cons a L ih =>
    intro st i hi hnd hinj hlt
    rw [List.foldl_cons]
    rcases List.mem_cons.mp hi with rfl | hi2
    · rw [foldl_write_other tgt val L _ (tgt i) ?fresh]
      case fresh =>
        intro j hj
        intro heq
        have : j = i := hinj j (by simp [hj]) i (by simp) heq
        rw [this] at hj
        exact (List.nodup_cons.mp hnd).1 hj
      exact readCell_write_self (hlt i (by simp)) _
    · apply ih (writeCell st (tgt a) (val a)) i hi2 (List.nodup_cons.mp hnd).2
        (fun j hj k hk => hinj j (by simp [hj]) k (by simp [hk]))
      intro j hj
      rw [writeCell_cells_length]
      exact hlt j (by simp [hj])


theorem heapClone_eq (s : PyState) (b : PyBoard) :
    heapClone s b =
      ({ cells := (cloneFold s b).cells,
         lists := (cloneFold s b).lists ++ [readSlots s b] },
       { grid := (newBoard s).2.grid,
         slotsId := (cloneFold s b).lists.length }) := rfl

theorem cloneFold_lists (s : PyState) (b : PyBoard) :
    (cloneFold s b).lists = s.lists ++ [[]] := by
  unfold cloneFold
  rw [foldl_write_lists, newBoard_lists]

theorem cloneFold_length (s : PyState) (b : PyBoard) :
    (cloneFold s b).cells.length = s.cells.length + 81 := by
  unfold cloneFold
  rw [foldl_write_length, newBoard_cells, List.length_append, List.length_replicate]

theorem htgt_newBoard {s : PyState} {i : Nat} (h : i < 81) :
    idAt (newBoard s).2 (i / 9) (i % 9) = s.cells.length + i := by
  rw [idAt_newBoard (by omega) (by omega)]
  omega

theorem cloneFold_get {s : PyState} (b : PyBoard) {r c : Nat} (hr : r < 9)
    (hc : c < 9) :
    readCell (cloneFold s b) (s.cells.length + (9 * r + c))
      = readCell s (idAt b r c) := by
  unfold cloneFold
  have hi : 9 * r + c < 81 := by omega
  have hg := foldl_write_get
    (fun i => idAt (newBoard s).2 (i / 9) (i % 9))
    (fun i => readCell s (idAt b (i / 9) (i % 9)))
    (List.range 81) (newBoard s).1 (9 * r + c)
    (List.mem_range.mpr hi) (List.nodup_range 81)
    (fun j hj k hk heq => by
      simp only [] at heq
      rw [htgt_newBoard (List.mem_range.mp hj), htgt_newBoard (List.mem_range.mp hk)] at heq
      omega)
    (fun j hj => by
      simp only []
      rw [htgt_newBoard (List.mem_range.mp hj), newBoard_cells,
        List.length_append, List.length_replicate]
      have := List.mem_range.mp hj
      omega)
  simp only [] at hg
  rw [htgt_newBoard hi] at hg
  rw [hg]
  have hdiv : (9 * r + c) / 9 = r := by omega
  have hmod : (9 * r + c) % 9 = c := by omega
  rw [hdiv, hmod]

theorem cloneFold_other {s : PyState} (b : PyBoard) {id : Nat}
    (h : id < s.cells.length) :
    readCell (cloneFold s b) id = readCell s id := by
  unfold cloneFold
  rw [foldl_write_other _ _ _ _ _ (fun i hi => by
    rw [htgt_newBoard (List.mem_range.mp hi)]
    omega)]
  show ((s.cells ++ List.replicate 81 0).getD id 0) = s.cells.getD id 0
  rw [List.getD_eq_getElem?_getD, List.getElem?_append_left h,
    ← List.getD_eq_getElem?_getD]

theorem newBoard_grid_getD {s : PyState} {r : Nat} (hr : r < 9) :
    (newBoard s).2.grid.getD r []
      = (List.range 9).map (fun c => s.cells.length + 9 * r + c) := by
  show (((List.range 9).map (fun r =>
      (List.range 9).map (fun c => s.cells.length + 9 * r + c))).getD r []) = _
  rw [getD_map_range _ hr]

attribute [irreducible] cloneFold

theorem idAt_grid_congr {b1 b2 : PyBoard} (h : b1.grid = b2.grid) (r c : Nat) :
    idAt b1 r c = idAt b2 r c := by
  unfold idAt
  rw [h]

theorem readCell_cells_congr {s1 s2 : PyState} (h : s1.cells = s2.cells)
    (id : Nat) : readCell s1 id = readCell s2 id := by
  unfold readCell
  rw [h]

/-- C7: SudokuBoard.clone copies every raw cell value and the whole empty-slot
list onto freshly allocated objects, its groups are views of its own fresh grid,
and no write to a clone cell or append to the clone's empty-slot list can change
anything the source board references. -/
theorem C7_clone_faithful (s : PyState) (b : PyBoard)
    (hids : ∀ r, r < 9 → ∀ c, c < 9 → idAt b r c < s.cells.length)
    (hsl : b.slotsId < s.lists.length) :
    (∀ r, r < 9 → ∀ c, c < 9 →
      readCell (heapClone s b).1 (idAt (heapClone s b).2 r c)
        = readCell s (idAt b r c)) ∧
    readSlots (heapClone s b).1 (heapClone s b).2 = readSlots s b ∧
    (∀ r, r < 9 → rowIds (heapClone s b).2 r ⊆ gridIds (heapClone s b).2) ∧
    (∀ c, c < 9 → colIds (heapClone s b).2 c ⊆ gridIds (heapClone s b).2) ∧
    (∀ k, k < 9 → blockIds (heapClone s b).2 k ⊆ gridIds (heapClone s b).2) ∧
    (∀ id, id ∈ gridIds (heapClone s b).2 → s.cells.length ≤ id) ∧
    (∀ r c v, r < 9 → c < 9 → ∀ r0, r0 < 9 → ∀ c0, c0 < 9 →
      readCell (writeCell (heapClone s b).1 (idAt (heapClone s b).2 r c) v)
          (idAt b r0 c0) = readCell (heapClone s b).1 (idAt b r0 c0)) ∧
    (∀ q, readSlots (appendSlot (heapClone s b).1 (heapClone s b).2.slotsId q) b
      = readSlots (heapClone s b).1 b) ∧
    (∀ id, id < s.cells.length → readCell (heapClone s b).1 id = readCell s id) ∧
    readSlots (heapClone s b).1 b = readSlots s b := by
  rw [heapClone_eq]
  simp only []
  have hgridc : (PyBoard.mk (newBoard s).2.grid (cloneFold s b).lists.length).grid
      = (newBoard s).2.grid := rfl
  have hid2 : ∀ r c : Nat, r < 9 → c < 9 →
      idAt (PyBoard.mk (newBoard s).2.grid (cloneFold s b).lists.length) r c
        = s.cells.length + (9 * r + c) := by
    intro r c hr hc
    rw [idAt_grid_congr hgridc r c, idAt_newBoard hr hc]
  have hcellc : ∀ id : Nat,
      readCell (PyState.mk (cloneFold s b).cells
        ((cloneFold s b).lists ++ [readSlots s b])) id
        = readCell (cloneFold s b) id := by
    intro id
    exact readCell_cells_congr rfl id
  have hg9 : (newBoard s).2.grid.length = 9 := by
    show ((List.range 9).map _).length = 9
    rw [List.length_map, List.length_range]
  have hrowlen : ∀ row, row ∈ (newBoard s).2.grid → row.length = 9 := by
    intro row hrow
    obtain ⟨r0, _, heq⟩ := List.mem_map.mp hrow
    rw [← heq, List.length_map, List.length_range]
  refine ⟨?copy, ?slots, ?rows, ?cols, ?blocks, ?fresh, ?wr, ?ap, ?orig, ?origsl⟩
  case copy =>
    intro r hr c hc
    rw [hid2 r c hr hc, hcellc]
    exact cloneFold_get b hr hc
  case slots =>
    show ((cloneFold s b).lists ++ [readSlots s b]).getD
      (cloneFold s b).lists.length [] = readSlots s b
    exact getD_snoc _ _ _
  case rows =>
    intro r hr
    exact subset_flatten_of_mem (getD_mem (by rw [hg9]; omega) [])
  case cols =>
    intro c hc id hid
    obtain ⟨row, hrow, heq⟩ := List.mem_map.mp hid
    apply List.mem_flatten.mpr
    refine ⟨row, hrow, ?_⟩
    rw [← heq]
    exact getD_mem (by rw [hrowlen row hrow]; omega) 0
  case blocks =>
    intro k hk id hid
    obtain ⟨dr, hdr, hid2b⟩ := List.mem_flatMap.mp hid
    have hdr3 : dr < 3 := List.mem_range.mp hdr
    apply List.mem_flatten.mpr
    refine ⟨(newBoard s).2.grid.getD (3 * (k / 3) + dr) [],
      getD_mem (by rw [hg9]; omega) [], ?_⟩
    exact List.drop_subset _ _ (List.take_subset _ _ hid2b)
  case fresh =>
    intro id hid
    obtain ⟨row, hrow, hid2b⟩ := List.mem_flatten.mp hid
    obtain ⟨r0, _, heq⟩ := List.mem_map.mp hrow
    rw [← heq] at hid2b
    obtain ⟨c0, _, heq2⟩ := List.mem_map.mp hid2b
    omega
  case wr =>
    intro r c v hr hc r0 hr0 c0 hc0
    apply readCell_write_ne
    rw [hid2 r c hr hc]
    have := hids r0 hr0 c0 hc0
    omega
  case ap =>
    intro q
    show (((cloneFold s b).lists ++ [readSlots s b]).set
        (cloneFold s b).lists.length _).getD b.slotsId []
      = ((cloneFold s b).lists ++ [readSlots s b]).getD b.slotsId []
    apply getD_set_ne
    rw [cloneFold_lists, List.length_append]
    simp only [List.length_cons, List.length_nil]
    omega
  case orig =>
    intro id hid
    rw [hcellc]
    exact cloneFold_other b hid
  case origsl =>
    show ((cloneFold s b).lists ++ [readSlots s b]).getD b.slotsId []
      = s.lists.getD b.slotsId []
    rw [cloneFold_lists]
    rw [List.getD_eq_getElem?_getD,
      List.getElem?_append_left (by rw [List.length_append]; simp; omega),
      List.getElem?_append_left hsl,
      ← List.getD_eq_getElem?_getD]

/-- Witness for C7 on a concrete freshly allocated board. -/
theorem C7_clone_faithful_witness :
    (∀ r, r < 9 → ∀ c, c < 9 → idAt bdA r c < hsA.cells.length) ∧
    bdA.slotsId < hsA.lists.length ∧
    (∀ r, r < 9 → ∀ c, c < 9 →
      readCell (heapClone hsA bdA).1 (idAt (heapClone hsA bdA).2 r c)
        = readCell hsA (idAt bdA r c)) ∧
    readSlots (heapClone hsA bdA).1 (heapClone hsA bdA).2 = readSlots hsA bdA :=
  ⟨by decide, by decide, (C7_clone_faithful hsA bdA (by decide) (by decide)).1,
   (C7_clone_faithful hsA bdA (by decide) (by decide)).2.1⟩
